import Mathlib

/-!
Verification of the k-labeling solver module (`src/labeling_solver.py`,
`src/graph_generator.py`, `src/graph_properties.py`, `src/events.py`) of the
vertex-k-labeling repository.

The Python code is shallowly embedded: dictionaries become association lists
(preserving insertion order, since `dict` iteration order is insertion order),
the bitarray / boolean-list weight mask becomes `List Bool`, Python `set`
becomes `Finset`, exceptions become `Except`, and the unbounded `while True`
loops become fuel-indexed recursion (fuel exhaustion plays the role of
"has not terminated yet" and is mapped to the absent result).
-/

set_option maxRecDepth 40000
set_option maxHeartbeats 4000000

/-- Vertex identifiers occurring in the repository: `(row, col)` tuples for
ladder / Mongolian-Tent vertices, the distinguished apex string `'x'`, and
plain integer ids for circulant graphs.  All constructed coordinates and ids
are nonnegative, so they are modelled by `Nat`. -/
inductive Vertex where
  | coord (r c : Nat)
  | apex
  | node (i : Nat)
deriving DecidableEq, Repr

/-- Embedding of `_get_generic_vertex_sort_key`.  The Python function returns
variable-length tuples `(0, r, c)`, `(1, i)`, `(2,)`; tuple comparison decides
on the first component across the three classes and on the remaining shared
components inside one class, so padding every key to a 3-tuple with zeros
yields exactly the same total order on vertices. -/
def get_generic_vertex_sort_key : Vertex → Nat × Nat × Nat
  | .coord r c => (0, r, c)
  | .node i => (1, i, 0)
  | .apex => (2, 0, 0)

/-- Lexicographic strict comparison of 3-tuples, i.e. Python `<` on the sort
keys produced by `_get_generic_vertex_sort_key`. -/
def keyLt (a b : Nat × Nat × Nat) : Bool :=
  decide (a.1 < b.1) ||
    (a.1 == b.1 && (decide (a.2.1 < b.2.1) ||
      (a.2.1 == b.2.1 && decide (a.2.2 < b.2.2))))

/-- Shorthand for comparing two vertices by their generic sort key. -/
def vLt (u v : Vertex) : Bool :=
  keyLt (get_generic_vertex_sort_key u) (get_generic_vertex_sort_key v)

/-! ### Python dictionaries as association lists

Vertex-keyed `dict`s keep insertion order: a new key is appended at the end,
assigning an existing key updates in place, `del` removes the entry. -/

/-- `vertex_labels` dictionaries: vertex to assigned label. -/
abbrev Labels := List (Vertex × Nat)

/-- Adjacency dictionaries: vertex to (ordered) list of neighbors. -/
abbrev AdjList := List (Vertex × List Vertex)

/-- Dictionary lookup (`d[k]` / `d.get(k)`). -/
def lookupL {α : Type} : List (Vertex × α) → Vertex → Option α
  | [], _ => none
  | (u, a) :: rest, v => if v = u then some a else lookupL rest v

/-- Dictionary assignment `d[k] = v`: update in place if the key is present,
otherwise append a fresh entry at the end. -/
def insertL {α : Type} : List (Vertex × α) → Vertex → α → List (Vertex × α)
  | [], v, a => [(v, a)]
  | (u, b) :: rest, v, a =>
    if v = u then (u, a) :: rest else (u, b) :: insertL rest v a

/-- Dictionary deletion `del d[k]` (no-op when the key is absent; the call
sites below only delete keys that are present). -/
def eraseKey {α : Type} : List (Vertex × α) → Vertex → List (Vertex × α)
  | [], _ => []
  | (u, b) :: rest, v => if v = u then rest else (u, b) :: eraseKey rest v

/-- The keys of a dictionary in insertion order (`list(d.keys())`). -/
def keysOf {α : Type} (d : List (Vertex × α)) : List Vertex := d.map (·.1)

/-- Number of entries, `len(d)`. -/
def sizeL {α : Type} (d : List (Vertex × α)) : Nat := d.length

/-- `adjacency_list[v]` on a `defaultdict(list)`: the neighbor list, `[]`
when the key is absent (the defaultdict would create an empty entry; no call
site below observes the resulting key order, so creation is not modelled). -/
def nbrsOf (adj : AdjList) (v : Vertex) : List Vertex :=
  (lookupL adj v).getD []

/-! ### Stable sorting, Python's `sorted`

Python's `sorted(xs, key=k)` is a stable ascending sort; `reverse=True`
reverses the comparison but keeps ties in original order.  Both are realized
by insertion sort with the appropriate boolean "goes no later than" test. -/

/-- Insert `x` in front of the first element it may precede (stable). -/
def orderedInsertBy {α : Type} (le : α → α → Bool) (x : α) :
    List α → List α
  | [] => [x]
  | y :: ys => if le x y then x :: y :: ys else y :: orderedInsertBy le x ys

/-- Stable insertion sort: with `le x y` meaning "x may come before y",
ties keep their original relative order. -/
def insertionSortBy {α : Type} (le : α → α → Bool) : List α → List α
  | [] => []
  | x :: xs => orderedInsertBy le x (insertionSortBy le xs)

/-! ### Graph construction (`src/graph_generator.py`) -/

/-- One `graph[u].append(v)` on a `defaultdict(list)`: the key is created at
the end when absent. -/
def dappend (g : AdjList) (u v : Vertex) : AdjList :=
  match g with
  | [] => [(u, [v])]
  | (w, ns) :: rest =>
    if u = w then (w, ns ++ [v]) :: rest else (w, ns) :: dappend rest u v

/-- The pair `graph[u].append(v); graph[v].append(u)` used throughout the
builders. -/
def addEdgePair (g : AdjList) (e : Vertex × Vertex) : AdjList :=
  dappend (dappend g e.1 e.2) e.2 e.1

/-- `graph[u] = []` for a fresh key `u` (used for the apex). -/
def addKeyEmpty (g : AdjList) (u : Vertex) : AdjList :=
  match g with
  | [] => [(u, [])]
  | (w, ns) :: rest =>
    if u = w then (w, []) :: rest else (w, ns) :: addKeyEmpty rest u

/-- `if v in graph[u]: graph[u].remove(v)` — erase the first occurrence of
`v` in `u`'s neighbor list (no-op when absent, matching the guard). -/
def eraseNbr (g : AdjList) (u v : Vertex) : AdjList :=
  match g with
  | [] => []
  | (w, ns) :: rest =>
    if u = w then (w, ns.erase v) :: rest else (w, ns) :: eraseNbr rest u v

/-- The edges added by `generate_ladder_graph`, in loop order: horizontal
edges for rows 1..3 and columns i, i+1 (outer loop over i, inner over rows),
then the two vertical rungs per column. -/
def ladder_edge_list (n : Nat) : List (Vertex × Vertex) :=
  ((List.range' 1 (n - 1)).flatMap fun i =>
    [(.coord 1 i, .coord 1 (i + 1)),
     (.coord 2 i, .coord 2 (i + 1)),
     (.coord 3 i, .coord 3 (i + 1))]) ++
  ((List.range' 1 n).flatMap fun i =>
    [(.coord 1 i, .coord 2 i), (.coord 2 i, .coord 3 i)])

/-- Embedding of `generate_ladder_graph` (three-row ladder, despite the
name): fold the appends over the edge list above. -/
def generate_ladder_graph (n : Nat) : AdjList :=
  if n = 0 then [] else (ladder_edge_list n).foldl addEdgePair []

/-- The apex edges `('x', (1, i))` for i = 1..n. -/
def apex_edge_list (n : Nat) : List (Vertex × Vertex) :=
  (List.range' 1 n).map fun i => (.apex, .coord 1 i)

/-- Embedding of `create_mongolian_tent_graph`: the ladder graph, then
`graph['x'] = []`, then the apex edges. -/
def create_mongolian_tent_graph (tent_size : Nat) : AdjList :=
  if tent_size = 0 then []
  else (apex_edge_list tent_size).foldl addEdgePair
    (addKeyEmpty (generate_ladder_graph tent_size) .apex)

/-- The build-phase append steps of `generate_circulant_graph`: for each
generator s = 1..n/2 and each i = 0..n-1 the edge (i, (i+s) mod n). -/
def circulant_build_list (n : Nat) : List (Vertex × Vertex) :=
  (List.range' 1 (n / 2)).flatMap fun s =>
    (List.range n).map fun i => (.node i, .node ((i + s) % n))

/-- The removal steps: for each s in (1, 2, n/2) and each i, the directed
pair (i, (i+s) mod n); each step erases one occurrence on both sides. -/
def circulant_remove_list (n : Nat) : List (Vertex × Vertex) :=
  [1, 2, n / 2].flatMap fun s =>
    (List.range n).map fun i => (.node i, .node ((i + s) % n))

/-- One removal step `if j in graph[i]: graph[i].remove(j); if i in
graph[j]: graph[j].remove(i)`. -/
def removeEdgeStep (g : AdjList) (e : Vertex × Vertex) : AdjList :=
  eraseNbr (eraseNbr g e.1 e.2) e.2 e.1

/-- Embedding of `generate_circulant_graph`.  The `r` argument is ignored by
the source as well.  Invalid `n` (odd, or outside 6..50) yields the empty
defaultdict. -/
def generate_circulant_graph (n : Nat) (_r : Nat) : AdjList :=
  if 6 ≤ n ∧ n ≤ 50 ∧ n % 2 = 0 then
    (circulant_remove_list n).foldl removeEdgeStep
      ((circulant_build_list n).foldl addEdgePair [])
  else []

/-! ### Graph metrics and lower bounds (`src/graph_properties.py`) -/

/-- Embedding of `calculate_graph_metrics`: `(edge_count, max_degree)`. -/
def calculate_graph_metrics (adj : AdjList) : Nat × Nat :=
  if adj = [] then (0, 0)
  else ((adj.map (fun p => p.2.length)).sum / 2,
        (adj.map (fun p => p.2.length)).foldl max 0)

/-- Embedding of `calculate_lower_bound` for Mongolian Tent graphs:
`max(ceil((E+1)/2), max_degree)`; `ceil((E+1)/2) = (E+2)/2` in `Nat`. -/
def calculate_lower_bound (tent_size : Nat) : Nat :=
  if tent_size = 0 then 0
  else
    let m := calculate_graph_metrics (create_mongolian_tent_graph tent_size)
    max ((m.1 + 2) / 2) m.2

/-- Embedding of `calculate_circulant_lower_bound`:
`max(ceil((n*r+2)/4), r)`; the float ceiling is exact for these magnitudes,
and `ceil((n*r+2)/4) = (n*r+5)/4` in `Nat`. -/
def calculate_circulant_lower_bound (n r : Nat) : Nat :=
  if n = 0 ∨ r = 0 then 0
  else max ((n * r + 5) / 4) r

/-! ### The weight-usage mask (`_init_used_weights` and friends)

The mask is a fixed-length boolean sequence (bitarray or list of bools);
reads in the solver are guarded by `weight < len(used_weights)`, writes only
happen at in-range weights. -/

/-- Embedding of `_init_used_weights`: a zeroed mask of the given length. -/
def init_used_weights (length : Nat) : List Bool := List.replicate length false

/-- A guarded read `weight < len(used_weights) and used_weights[weight]`. -/
def getW (used : List Bool) (w : Nat) : Bool :=
  decide (w < used.length) && used.getD w false

/-- A write `used_weights[w] = b` (all call sites are in range). -/
def setW (used : List Bool) (w : Nat) (b : Bool) : List Bool := used.set w b

/-- `for w in ws: used_weights[w] = True`. -/
def markWeights (used : List Bool) (ws : List Nat) : List Bool :=
  ws.foldl (fun u w => setW u w true) used

/-- `for w in ws: used_weights[w] = False`. -/
def unmarkWeights (used : List Bool) (ws : List Nat) : List Bool :=
  ws.foldl (fun u w => setW u w false) used

/-! ### The validity oracle (`is_labeling_valid`)

All call sites inside the claims' scope pass
`sort_key_func=_get_generic_vertex_sort_key` and no `last_vertex`, so the
embedding fixes the generic key and the full-scan mode. -/

/-- Inner loop of the full scan: walk `u`'s neighbor list, collecting the
weights of canonically oriented labeled edges into the accumulator `seen`;
`none` signals a duplicate (Python `return False`). -/
def ilvInner (labels : Labels) (a : Nat) (u : Vertex) :
    List Vertex → Finset Nat → Option (Finset Nat)
  | [], seen => some seen
  | t :: ts, seen =>
    match lookupL labels t with
    | none => ilvInner labels a u ts seen
    | some b =>
      if vLt u t then
        if (a + b) ∈ seen then none
        else ilvInner labels a u ts (insert (a + b) seen)
      else ilvInner labels a u ts seen

/-- Outer loop of the full scan over the adjacency items. -/
def ilvOuter (labels : Labels) : AdjList → Finset Nat → Bool
  | [], _ => true
  | (u, nbrs) :: rest, seen =>
    match lookupL labels u with
    | none => ilvOuter labels rest seen
    | some a =>
      match ilvInner labels a u nbrs seen with
      | none => false
      | some seen2 => ilvOuter labels rest seen2

/-- Embedding of `is_labeling_valid(adjacency_list, vertex_labels,
sort_key_func=_get_generic_vertex_sort_key)` (full-scan mode). -/
def is_labeling_valid (adj : AdjList) (labels : Labels) : Bool :=
  ilvOuter labels adj ∅

/-- The canonically oriented labeled edges enumerated by the full scan, in
scan order. -/
def canonPairs (labels : Labels) (items : AdjList) : List (Vertex × Vertex) :=
  items.flatMap fun p =>
    match lookupL labels p.1 with
    | none => []
    | some _ =>
      p.2.filterMap fun t =>
        match lookupL labels t with
        | none => none
        | some _ => if vLt p.1 t then some (p.1, t) else none

/-- Weight of a labeled edge (both endpoints are labeled at every use). -/
def pairWeight (labels : Labels) (p : Vertex × Vertex) : Nat :=
  (lookupL labels p.1).getD 0 + (lookupL labels p.2).getD 0

/-- The weights enumerated by the full scan, in scan order. -/
def canonWeights (labels : Labels) (items : AdjList) : List Nat :=
  (canonPairs labels items).map (pairWeight labels)

/-- The weight list contributed by one adjacency entry. -/
def innerWeights (labels : Labels) (a : Nat) (u : Vertex)
    (nbrs : List Vertex) : List Nat :=
  nbrs.filterMap fun t =>
    match lookupL labels t with
    | none => none
    | some b => if vLt u t then some (a + b) else none

/-- Validity in the sense of the specification: over all pairs of adjacent
labeled vertices, taken once per canonical edge (the direction with the
strictly smaller generic sort key), the edge weights are pairwise distinct. -/
def ValidLabeling (adj : AdjList) (labels : Labels) : Prop :=
  ∀ u v u2 v2 a b a2 b2,
    v ∈ nbrsOf adj u → v2 ∈ nbrsOf adj u2 →
    vLt u v = true → vLt u2 v2 = true →
    lookupL labels u = some a → lookupL labels v = some b →
    lookupL labels u2 = some a2 → lookupL labels v2 = some b2 →
    (u, v) ≠ (u2, v2) → a + b ≠ a2 + b2

/-! ### Step events (`src/events.py`) and the emission guard -/

/-- Embedding of `EventType`. -/
inductive EventType where
  | vertex_labeled
  | edge_weight_calculated
  | backtrack_step
  | solution_found
deriving DecidableEq, Repr

/-- Payloads occurring in the solver's `StepEvent(...)` constructions. -/
inductive EventData where
  | vl (vertex : Vertex) (label : Nat)
  | ewc (edge : Vertex × Vertex) (weight : Nat)
  | bt (vertex : Vertex)
  | sf (labels : Labels)
deriving DecidableEq, Repr

/-- Embedding of `StepEvent` (the optional timestamp is never set by the
solver module). -/
structure StepEvent where
  type : EventType
  data : EventData
deriving DecidableEq, Repr

/-- An observer callback; `Except` models a callback that may raise. -/
abbrev Observer := StepEvent → Except Unit Unit

/-- Embedding of `_maybe_emit`: invoke the callback if present, swallow any
exception (`try: callback(event) except Exception: pass`). -/
def maybe_emit (callback : Option Observer) (event : StepEvent) : Unit :=
  match callback with
  | none => ()
  | some cb =>
    match cb event with
    | .ok _ => ()
    | .error _ => ()

/-! ### The exact backtracking solver (`_backtrack_k_labeling_generic`)

The solver is embedded three times over the same recursion structure: a pure
version (events stripped — they provably do not influence the result), an
event-logging version threading the observer callback and returning the
emitted events, and a trace version returning the `(vertex_labels,
used_weights)` state at entry of every recursive call.  Equality of results
is proved below. -/

/-- The inner neighbor scan of one label candidate: weights of edges to
already-labeled neighbors, `none` on a mask conflict (`break`). -/
def btScan (labels2 : Labels) (used : List Bool) (label : Nat) :
    List Vertex → Option (List Nat)
  | [] => some []
  | nb :: rest =>
    match lookupL labels2 nb with
    | none => btScan labels2 used label rest
    | some bl =>
      if getW used (label + bl) then none
      else (btScan labels2 used label rest).map (fun ws => (label + bl) :: ws)

/-- The `for label in range(1, max_k_value + 1)` loop, parameterized by the
recursive solver for the remaining vertices (`child`).  The dict is threaded
through iterations (a failed candidate leaves a stale assignment that the
next candidate overwrites, as in the source); the final `del` restores the
caller's dict, which the functional caller already holds, so the loop returns
plain `none` when exhausted. -/
def btLabelLoop (adj : AdjList) (v : Vertex)
    (child : Labels → List Bool → Option Labels) :
    List Nat → Labels → List Bool → Option Labels
  | [], _, _ => none
  | label :: cands, labels, used =>
    let labels2 := insertL labels v label
    match btScan labels2 used label (nbrsOf adj v) with
    | none => btLabelLoop adj v child cands labels2 used
    | some new_weights =>
      let used2 := markWeights used new_weights
      match child labels2 used2 with
      | some result => some result
      | none =>
        btLabelLoop adj v child cands labels2 (unmarkWeights used2 new_weights)

/-- Embedding of `_backtrack_k_labeling_generic` (result only). -/
def backtrack_k_labeling_generic (adj : AdjList) (max_k_value : Nat)
    (vertex_labels : Labels) (unlabeled_vertices : List Vertex)
    (used_weights : List Bool) : Option Labels :=
  match unlabeled_vertices with
  | [] =>
    if is_labeling_valid adj vertex_labels then some vertex_labels else none
  | v :: rest =>
    btLabelLoop adj v
      (fun l u => backtrack_k_labeling_generic adj max_k_value l rest u)
      (List.range' 1 max_k_value) vertex_labels used_weights

/-- The neighbor scan with event emission: one `EDGE_WEIGHT_CALCULATED` per
examined labeled neighbor, including the conflicting one. -/
def btScanEv (callback : Option Observer) (labels2 : Labels)
    (used : List Bool) (label : Nat) (v : Vertex) :
    List Vertex → Option (List Nat) × List StepEvent
  | [] => (some [], [])
  | nb :: rest =>
    match lookupL labels2 nb with
    | none => btScanEv callback labels2 used label v rest
    | some bl =>
      let ev : StepEvent :=
        ⟨.edge_weight_calculated, .ewc (v, nb) (label + bl)⟩
      let _u := maybe_emit callback ev
      if getW used (label + bl) then (none, [ev])
      else
        let r := btScanEv callback labels2 used label v rest
        (r.1.map (fun ws => (label + bl) :: ws), ev :: r.2)

/-- The label loop with event emission, parameterized by the recursive
solver for the remaining vertices: `VERTEX_LABELED` at the top of each
iteration, `BACKTRACK` after exhausting the candidates (guarded by
`vertex_to_label in vertex_labels`, which holds whenever at least one
candidate was tried). -/
def btLabelLoopEv (callback : Option Observer) (adj : AdjList) (v : Vertex)
    (child : Labels → List Bool → Option Labels × List StepEvent) :
    List Nat → Labels → List Bool → Option Labels × List StepEvent
  | [], labels, _ =>
    if (lookupL labels v).isSome then
      let ev : StepEvent := ⟨.backtrack_step, .bt v⟩
      let _u := maybe_emit callback ev
      (none, [ev])
    else (none, [])
  | label :: cands, labels, used =>
    let ev : StepEvent := ⟨.vertex_labeled, .vl v label⟩
    let _u := maybe_emit callback ev
    let labels2 := insertL labels v label
    let s := btScanEv callback labels2 used label v (nbrsOf adj v)
    match s.1 with
    | none =>
      let r := btLabelLoopEv callback adj v child cands labels2 used
      (r.1, ev :: (s.2 ++ r.2))
    | some new_weights =>
      let used2 := markWeights used new_weights
      let c := child labels2 used2
      match c.1 with
      | some result => (some result, ev :: (s.2 ++ c.2))
      | none =>
        let r := btLabelLoopEv callback adj v child cands labels2
          (unmarkWeights used2 new_weights)
        (r.1, ev :: (s.2 ++ c.2 ++ r.2))

/-- `_backtrack_k_labeling_generic` with the observer callback and the list
of emitted events. -/
def backtrack_k_labeling_generic_ev (callback : Option Observer)
    (adj : AdjList) (max_k_value : Nat) (vertex_labels : Labels)
    (unlabeled_vertices : List Vertex) (used_weights : List Bool) :
    Option Labels × List StepEvent :=
  match unlabeled_vertices with
  | [] =>
    (if is_labeling_valid adj vertex_labels then some vertex_labels else none,
     [])
  | v :: rest =>
    btLabelLoopEv callback adj v
      (fun l u =>
        backtrack_k_labeling_generic_ev callback adj max_k_value l rest u)
      (List.range' 1 max_k_value) vertex_labels used_weights

/-- The label loop of the trace-instrumented solver. -/
def btLabelLoopTrace (adj : AdjList) (v : Vertex)
    (child : Labels → List Bool → Option Labels × List (Labels × List Bool)) :
    List Nat → Labels → List Bool →
      Option Labels × List (Labels × List Bool)
  | [], _, _ => (none, [])
  | label :: cands, labels, used =>
    let labels2 := insertL labels v label
    match btScan labels2 used label (nbrsOf adj v) with
    | none => btLabelLoopTrace adj v child cands labels2 used
    | some new_weights =>
      let used2 := markWeights used new_weights
      let c := child labels2 used2
      match c.1 with
      | some result => (some result, c.2)
      | none =>
        let r := btLabelLoopTrace adj v child cands labels2
          (unmarkWeights used2 new_weights)
        (r.1, c.2 ++ r.2)

/-- `_backtrack_k_labeling_generic` instrumented with the search states: the
`(vertex_labels, used_weights)` pair at entry of every recursive call (i.e.
after each commit; the state after an undo equals the entry state of the next
recorded call or of the caller). -/
def backtrack_trace (adj : AdjList) (max_k_value : Nat)
    (vertex_labels : Labels) (unlabeled_vertices : List Vertex)
    (used_weights : List Bool) :
    Option Labels × List (Labels × List Bool) :=
  match unlabeled_vertices with
  | [] =>
    (if is_labeling_valid adj vertex_labels then some vertex_labels else none,
     [(vertex_labels, used_weights)])
  | v :: rest =>
    let r := btLabelLoopTrace adj v
      (fun l u => backtrack_trace adj max_k_value l rest u)
      (List.range' 1 max_k_value) vertex_labels used_weights
    (r.1, (vertex_labels, used_weights) :: r.2)

/-! ### `find_optimal_k_labeling` -/

/-- Errors raised by the solver module: `ValueError` for an unsupported graph
type or a bad multiplier, `UnboundLocalError`/`NameError` for the unbound
`tent_size` read in fast mode (see `find_feasible_k_labeling`). -/
inductive SolverError where
  | valueError
  | nameError
deriving DecidableEq, Repr

/-- The `graph_params` dictionary.  Nonpositive Python integers all take the
`<= 0` guard branches, so parameters are modelled by `Nat` (`0` standing for
every nonpositive value). -/
structure GraphParams where
  n : Option Nat
  r : Option Nat
deriving DecidableEq, Repr

/-- The `while True: ... k += 1` loop of `find_optimal_k_labeling`, fuelled;
`none` means the fuel ran out (the Python loop has not returned yet). -/
def find_optimal_loop (adj : AdjList) (vertices : List Vertex) (k : Nat)
    (fuel : Nat) : Option (Nat × Labels) :=
  match fuel with
  | 0 => none
  | fuel2 + 1 =>
    let used_weights := init_used_weights (2 * k + 1)
    match backtrack_k_labeling_generic adj k [] vertices used_weights with
    | some labeling =>
      if is_labeling_valid adj labeling then some (k, labeling)
      else find_optimal_loop adj vertices (k + 1) fuel2
    | none => find_optimal_loop adj vertices (k + 1) fuel2

/-- The same loop with observer callback and event log; the callback is
re-selected from `on_event` / `on_step` at each iteration as in the source. -/
def find_optimal_loop_ev (on_step on_event : Option Observer) (adj : AdjList)
    (vertices : List Vertex) (k : Nat) (fuel : Nat) :
    Option (Nat × Labels) × List StepEvent :=
  match fuel with
  | 0 => (none, [])
  | fuel2 + 1 =>
    let used_weights := init_used_weights (2 * k + 1)
    let callback : Option Observer :=
      match on_event with
      | some f => some f
      | none => on_step
    let r := backtrack_k_labeling_generic_ev callback adj k [] vertices
      used_weights
    match r.1 with
    | some labeling =>
      if is_labeling_valid adj labeling then (some (k, labeling), r.2)
      else
        let r2 := find_optimal_loop_ev on_step on_event adj vertices (k + 1)
          fuel2
        (r2.1, r.2 ++ r2.2)
    | none =>
      let r2 := find_optimal_loop_ev on_step on_event adj vertices (k + 1)
        fuel2
      (r2.1, r.2 ++ r2.2)

/-- The descending-degree stable order used for Mongolian Tent instances:
`sorted(adjacency_list.keys(), key=lambda v: len(adjacency_list[v]),
reverse=True)`. -/
def degree_desc_order (adj : AdjList) : List Vertex :=
  insertionSortBy
    (fun u v => decide ((nbrsOf adj v).length ≤ (nbrsOf adj u).length))
    (keysOf adj)

/-- The ascending natural order used for circulant instances:
`sorted(adjacency_list.keys())`. -/
def ascending_order (adj : AdjList) : List Vertex :=
  insertionSortBy (fun u v => !vLt v u) (keysOf adj)

/-- Embedding of `find_optimal_k_labeling(graph_type, graph_params,
on_step=..., on_event=...)`: the exact solver entry point, returning the
result (`.ok none` models the `(None, None)` returns and exhausted fuel,
`.ok (some (k, labeling))` a solved instance) and the emitted events. -/
def find_optimal_k_labeling (graph_type : String)
    (graph_params : GraphParams) (on_step on_event : Option Observer)
    (fuel : Nat) :
    Except SolverError (Option (Nat × Labels)) × List StepEvent :=
  if graph_type = "mongolian_tent" then
    match graph_params.n with
    | none => (.ok none, [])
    | some tent_size =>
      if tent_size ≤ 0 then (.ok none, [])
      else
        let adjacency_list := create_mongolian_tent_graph tent_size
        let lower_bound := calculate_lower_bound tent_size
        let vertices := degree_desc_order adjacency_list
        let r := find_optimal_loop_ev on_step on_event adjacency_list
          vertices lower_bound fuel
        (.ok r.1, r.2)
  else if graph_type = "circulant" then
    match graph_params.n, graph_params.r with
    | some n, some r =>
      if n ≤ 0 ∨ r ≤ 0 then (.ok none, [])
      else
        let adjacency_list := generate_circulant_graph n r
        if adjacency_list = [] then (.ok none, [])
        else
          let lower_bound := calculate_circulant_lower_bound n r
          let vertices := ascending_order adjacency_list
          let r2 := find_optimal_loop_ev on_step on_event adjacency_list
            vertices lower_bound fuel
          (.ok r2.1, r2.2)
    | none, _ => (.ok none, [])
    | some _, none => (.ok none, [])
  else (.error .valueError, [])

/-! ### Structure of the built graphs

The builders only use `addEdgePair` / `addKeyEmpty` / `eraseNbr`, so
neighbor multiplicities can be computed from the edge lists.  `undirCount`
counts an unordered pair in an edge list. -/

/-- Multiplicity of `w` in the neighbor list of `z`. -/
def nbrCount (g : AdjList) (z w : Vertex) : Nat := (nbrsOf g z).count w

/-- Occurrences of the undirected pair `{z, w}` in a directed edge list. -/
def undirCount (E : List (Vertex × Vertex)) (z w : Vertex) : Nat :=
  E.count (z, w) + E.count (w, z)

/-! ### Mongolian Tent edges: every unordered pair occurs at most once -/

/-- Horizontal edge of row `r` at column `i`. -/
def hEdge (r i : Nat) : Vertex × Vertex := (.coord r i, .coord r (i + 1))

/-- Rung between rows 1 and 2 at column `i`. -/
def vEdge1 (i : Nat) : Vertex × Vertex := (.coord 1 i, .coord 2 i)

/-- Rung between rows 2 and 3 at column `i`. -/
def vEdge2 (i : Nat) : Vertex × Vertex := (.coord 2 i, .coord 3 i)

/-- Apex edge at column `i`. -/
def aEdge (i : Nat) : Vertex × Vertex := (.apex, .coord 1 i)

/-- A shape signature separating the six families of tent edges (horizontal
per row, the two rungs, apex edges) and their orientations. -/
def edgeSig : Vertex × Vertex → Nat
  | (.coord r1 c1, .coord r2 c2) =>
    if r1 = r2 ∧ c2 = c1 + 1 then 10 + r1
    else if r1 = r2 ∧ c1 = c2 + 1 then 20 + r1
    else if c1 = c2 ∧ r2 = r1 + 1 then 30 + r1
    else if c1 = c2 ∧ r1 = r2 + 1 then 40 + r2
    else 0
  | (.apex, .coord _ _) => 50
  | (.coord _ _, .apex) => 51
  | _ => 0

/-- Membership symmetry of an adjacency structure. -/
def AdjSym (adj : AdjList) : Prop :=
  ∀ u v, v ∈ nbrsOf adj u → u ∈ nbrsOf adj v

/-- One generator's edge map for the circulant builder. -/
def circEdge (n s i : Nat) : Vertex × Vertex :=
  (.node i, .node ((i + s) % n))

/-! ### Exact-search invariant machinery -/

/-- The weights `label + labels2[u]` of the already-labeled neighbors
scanned for a candidate label, in scan order. -/
def scanWeights (labels2 : Labels) (label : Nat) (nbrs : List Vertex) :
    List Nat :=
  nbrs.filterMap fun u => (lookupL labels2 u).map (fun b => label + b)

/-- A realized edge: a canonically oriented adjacent pair whose endpoints are
both currently labeled. -/
def RealizedPair (adj : AdjList) (labels : Labels) (p : Vertex × Vertex) :
    Prop :=
  p.2 ∈ nbrsOf adj p.1 ∧ vLt p.1 p.2 = true ∧
    (lookupL labels p.1).isSome = true ∧ (lookupL labels p.2).isSome = true

/-- Tracker consistency: a weight bit is set in the used-weights mask exactly
when some realized edge has that weight. -/
def trackerOK (adj : AdjList) (labels : Labels) (used : List Bool) : Prop :=
  ∀ w, getW used w = true ↔
    ∃ p, RealizedPair adj labels p ∧ pairWeight labels p = w

/-- Every assigned label lies in `{1, ..., k}`. -/
def LabelsRange (k : Nat) (labels : Labels) : Prop :=
  ∀ v a, lookupL labels v = some a → 1 ≤ a ∧ a ≤ k

/-- `labels` is a restriction of the total assignment `E`. -/
def agreesUpto (E labels : Labels) : Prop :=
  ∀ v a, lookupL labels v = some a → lookupL E v = some a

/-! ### Feasibility and the increasing-k loop -/

/-- A valid complete labeling of the vertex set `vs` with labels in
`{1, ..., k}` exists. -/
def FeasibleK (adj : AdjList) (vs : List Vertex) (k : Nat) : Prop :=
  ∃ E : Labels, ValidLabeling adj E ∧
    ∀ v ∈ vs, ∃ a, lookupL E v = some a ∧ 1 ≤ a ∧ a ≤ k

/-! ### The branch-and-bound solver (`BranchAndBoundSolver`)

`labels` is mutated in place but every loop iteration ends with
`del labels[current_v]`, so the dict seen by the next candidate equals the
caller's dict again (the embedding performs the delete explicitly);
`used_weights` is passed as a union-copied value, so no undo is needed. -/

/-- Embedding of `_create_smart_vertex_order`: apex first, then rows 3, 2, 1
left to right. -/
def create_smart_vertex_order (n : Nat) : List Vertex :=
  [Vertex.apex]
    ++ (List.range' 1 n).map (fun j => Vertex.coord 3 j)
    ++ (List.range' 1 n).map (fun j => Vertex.coord 2 j)
    ++ (List.range' 1 n).map (fun j => Vertex.coord 1 j)

/-- The neighbor loop of `_is_assignment_valid`, with the
`newly_formed_weights` accumulator. -/
def iavLoop (labels : Labels) (cl : Nat) (used : Finset Nat) :
    List Vertex → Finset Nat → Bool × Finset Nat
  | [], newly => (true, newly)
  | nb :: rest, newly =>
    match lookupL labels nb with
    | none => iavLoop labels cl used rest newly
    | some b =>
      if cl + b ∈ used ∨ cl + b ∈ newly then (false, ∅)
      else iavLoop labels cl used rest (insert (cl + b) newly)

/-- Embedding of `_is_assignment_valid` (`current_v` is always labeled at
call time, so the `getD 0` default is never observed). -/
def is_assignment_valid (adj : AdjList) (current_v : Vertex)
    (labels : Labels) (used_edge_weights : Finset Nat) : Bool × Finset Nat :=
  iavLoop labels ((lookupL labels current_v).getD 0) used_edge_weights
    (nbrsOf adj current_v) ∅

/-- The `for label in range(1, k + 1)` loop of `_solve_recursive`,
parameterized by the recursive solver for the remaining vertices. -/
def bbLabelLoop (adj : AdjList) (current_v : Vertex)
    (child : Labels → Finset Nat → Option Labels) :
    List Nat → Labels → Finset Nat → Option Labels
  | [], _, _ => none
  | label :: cands, labels, used =>
    let labels2 := insertL labels current_v label
    match is_assignment_valid adj current_v labels2 used with
    | (true, newly) =>
      match child labels2 (used ∪ newly) with
      | some result => some result
      | none =>
        bbLabelLoop adj current_v child cands (eraseKey labels2 current_v)
          used
    | (false, _) =>
      bbLabelLoop adj current_v child cands (eraseKey labels2 current_v) used

/-- Embedding of `_solve_recursive`, recursing on the suffix of
`vertex_order` from `v_idx`. -/
def solve_recursive (adj : AdjList) (k : Nat) :
    List Vertex → Labels → Finset Nat → Option Labels
  | [], labels, _ => some labels
  | v :: rest, labels, used =>
    bbLabelLoop adj v (fun l u => solve_recursive adj k rest l u)
      (List.range' 1 k) labels used

/-- The `while True: ... k += 1` loop of `find_es`, fuelled. -/
def find_es_loop (adj : AdjList) (order : List Vertex) (k : Nat) :
    Nat → Option (Nat × Labels)
  | 0 => none
  | fuel + 1 =>
    match solve_recursive adj k order [] ∅ with
    | some solution => some (k, solution)
    | none => find_es_loop adj order (k + 1) fuel

/-- Embedding of `BranchAndBoundSolver(n).find_es()`. -/
def find_es (n : Nat) (fuel : Nat) : Option (Nat × Labels) :=
  find_es_loop (create_mongolian_tent_graph n) (create_smart_vertex_order n)
    (calculate_lower_bound n) fuel

/-- The `used_edge_weights` set is exactly the set of realized edge
weights. -/
def usedSetOK (adj : AdjList) (labels : Labels) (used : Finset Nat) : Prop :=
  ∀ w, w ∈ used ↔ ∃ p, RealizedPair adj labels p ∧ pairWeight labels p = w

/-- No two distinct realized edges have equal weight. -/
def DistinctRealized (adj : AdjList) (labels : Labels) : Prop :=
  ∀ p q, RealizedPair adj labels p → RealizedPair adj labels q → p ≠ q →
    pairWeight labels p ≠ pairWeight labels q

/-! ### Heuristic solvers

`random.shuffle` is modelled by oracle parameters supplying the shuffled
list for each draw (indexed by attempt / visit counter): any instantiation
of the oracles is one possible stream of random draws.  Python set values
are modelled by lists when only membership is observed.  The unguarded
`used_weights[weight]` reads are in range at every reachable state (labels
come from `range(1, k_upper_bound + 1)`), so they coincide with the guarded
read `getW`. -/

/-- Embedding of `_calculate_conflict_score`. -/
def calculate_conflict_score (label : Nat) (vertex : Vertex) (adj : AdjList)
    (labels : Labels) (used : List Bool) (k_upper_bound : Nat) : Nat :=
  ((nbrsOf adj vertex).map fun nb =>
    match lookupL labels nb with
    | some _ => 0
    | none =>
      ((List.range' 1 k_upper_bound).filter
        (fun nl => getW used (label + nl))).length).sum

/-- The already-labeled neighbors of `vertex` whose edge weight under
`label` is currently marked (the `current_conflict_set`, in scan order). -/
def labelConflicts (adj : AdjList) (labels : Labels) (used : List Bool)
    (vertex : Vertex) (label : Nat) : List Vertex :=
  (nbrsOf adj vertex).filter fun nb =>
    match lookupL labels nb with
    | none => false
    | some b => getW used (label + b)

/-- The `for label in possible_labels` selection loop of
`greedy_k_labeling`: returns the best label with its score, and the
accumulated conflict set. -/
def chooseLabelLoop (adj : AdjList) (labels : Labels) (used : List Bool)
    (vertex : Vertex) (k : Nat) :
    List Nat → Option (Nat × Nat) → List Vertex →
      Option (Nat × Nat) × List Vertex
  | [], best, cset => (best, cset)
  | label :: rest, best, cset =>
    let confl := labelConflicts adj labels used vertex label
    if confl = [] then
      let score := calculate_conflict_score label vertex adj labels used k
      match best with
      | none =>
        chooseLabelLoop adj labels used vertex k rest (some (label, score))
          cset
      | some (bl, bs) =>
        if score < bs then
          chooseLabelLoop adj labels used vertex k rest (some (label, score))
            cset
        else
          chooseLabelLoop adj labels used vertex k rest (some (bl, bs)) cset
    else chooseLabelLoop adj labels used vertex k rest best (cset ++ confl)

/-- Marking the new edge weights after `vertex_labels[vertex] = best_label`
(the dict already contains `vertex` during the marking loop). -/
def markVertex (adj : AdjList) (labels2 : Labels) (used : List Bool)
    (vertex : Vertex) (bl : Nat) : List Bool :=
  (nbrsOf adj vertex).foldl
    (fun u nb =>
      match lookupL labels2 nb with
      | some b => setW u (bl + b) true
      | none => u) used

/-- Unlabeling one vertex during a backjump: unmark the weights to its
still-labeled neighbors (other than itself), then delete it. -/
def unlabelOne (adj : AdjList) (labels : Labels) (used : List Bool)
    (v : Vertex) : Labels × List Bool :=
  match lookupL labels v with
  | none => (labels, used)
  | some lv =>
    ((eraseKey labels v),
     (nbrsOf adj v).foldl
       (fun u nb =>
         match lookupL labels nb with
         | some b => if nb ≠ v then setW u (lv + b) false else u
         | none => u) used)

/-- The unlabel loop `for i in range(jump_target_index + 1, vertex_index +
1)`, applied to the listed indices in order. -/
def unlabelRange (adj : AdjList) (vertices : List Vertex) (labels : Labels)
    (used : List Bool) (idxs : List Nat) : Labels × List Bool :=
  idxs.foldl
    (fun st i => unlabelOne adj st.1 st.2 (vertices.getD i Vertex.apex))
    (labels, used)

/-- The descending scan `for i in range(vertex_index - 1, -1, -1)` for the
most recently labeled member of the conflict set. -/
def findJumpTarget (vertices : List Vertex) (cset : List Vertex) :
    Nat → Option Nat
  | 0 => none
  | i + 1 =>
    if vertices.getD i Vertex.apex ∈ cset then some i
    else findJumpTarget vertices cset i

/-- `failure_counts[vertex] += 1` (no-op when disabled). -/
def bumpFC (fc : Option (Vertex → Nat)) (v : Vertex) :
    Option (Vertex → Nat) :=
  match fc with
  | none => none
  | some f => some (fun u => if u = v then f u + 1 else f u)

/-- The `while vertex_index < len(vertices)` loop of one greedy attempt,
fuelled (`none` = fuel ran out).  Returns the final
`(vertex_labels, used_weights, failure_counts)` at normal exit or break. -/
def greedyLoop (adj : AdjList) (k : Nat) (vertices : List Vertex)
    (labelOrder : Nat → List Nat) (bjAllowed : Nat) :
    Nat → Nat → Nat → Nat → Labels → List Bool → Option (Vertex → Nat) →
      Option (Labels × List Bool × Option (Vertex → Nat))
  | 0, _, _, _, _, _, _ => none
  | fuel + 1, idx, bj, cnt, labels, used, fc =>
    if vertices.length ≤ idx then some (labels, used, fc)
    else
      let vertex := vertices.getD idx Vertex.apex
      match chooseLabelLoop adj labels used vertex k (labelOrder cnt) none []
        with
      | (some (bl, _), _) =>
        let labels2 := insertL labels vertex bl
        greedyLoop adj k vertices labelOrder bjAllowed fuel (idx + 1) bj
          (cnt + 1) labels2 (markVertex adj labels2 used vertex bl) fc
      | (none, cset) =>
        if bj < bjAllowed ∧ cset ≠ [] then
          match findJumpTarget vertices cset idx with
          | some jt =>
            let st := unlabelRange adj vertices labels used
              (List.range' (jt + 1) (idx - jt))
            greedyLoop adj k vertices labelOrder bjAllowed fuel jt (bj + 1)
              (cnt + 1) st.1 st.2 fc
          | none => some (labels, used, bumpFC fc vertex)
        else some (labels, used, bumpFC fc vertex)

/-- The same loop recording the `(vertex_labels, used_weights)` state at
entry of every iteration (and at exit). -/
def greedyLoopTrace (adj : AdjList) (k : Nat) (vertices : List Vertex)
    (labelOrder : Nat → List Nat) (bjAllowed : Nat) :
    Nat → Nat → Nat → Nat → Labels → List Bool → Option (Vertex → Nat) →
      Option (Labels × List Bool × Option (Vertex → Nat)) ×
        List (Labels × List Bool)
  | 0, _, _, _, _, _, _ => (none, [])
  | fuel + 1, idx, bj, cnt, labels, used, fc =>
    if vertices.length ≤ idx then (some (labels, used, fc), [(labels, used)])
    else
      let vertex := vertices.getD idx Vertex.apex
      match chooseLabelLoop adj labels used vertex k (labelOrder cnt) none []
        with
      | (some (bl, _), _) =>
        let labels2 := insertL labels vertex bl
        let r := greedyLoopTrace adj k vertices labelOrder bjAllowed fuel
          (idx + 1) bj (cnt + 1) labels2 (markVertex adj labels2 used vertex
            bl) fc
        (r.1, (labels, used) :: r.2)
      | (none, cset) =>
        if bj < bjAllowed ∧ cset ≠ [] then
          match findJumpTarget vertices cset idx with
          | some jt =>
            let st := unlabelRange adj vertices labels used
              (List.range' (jt + 1) (idx - jt))
            let r := greedyLoopTrace adj k vertices labelOrder bjAllowed fuel
              jt (bj + 1) (cnt + 1) st.1 st.2 fc
            (r.1, (labels, used) :: r.2)
          | none =>
            (some (labels, used, bumpFC fc vertex), [(labels, used)])
        else (some (labels, used, bumpFC fc vertex), [(labels, used)])

/-- The failure-count vertex order: sort by `(failure_counts, degree)`
descending, stable (Python `list.sort(key=..., reverse=True)`). -/
def fcSortOrder (adj : AdjList) (f : Vertex → Nat) : List Vertex :=
  insertionSortBy
    (fun u v => decide (f v < f u ∨ (f v = f u ∧
      (nbrsOf adj v).length ≤ (nbrsOf adj u).length)))
    (keysOf adj)

/-- The `for _ in range(attempts)` loop of `greedy_k_labeling`.  Returns
`(result, failure_counts)`; the attempt index keys the shuffle oracles. -/
def greedyAttempts (adj : AdjList) (k : Nat) (bjAllowed : Nat)
    (graph_type : String) (shuffleV : Nat → List Vertex → List Vertex)
    (labelOrder : Nat → Nat → List Nat) (fuel : Nat) :
    Nat → Nat → Option (Vertex → Nat) →
      Option (Option Labels × Option (Vertex → Nat))
  | 0, _, fc => some (none, fc)
  | a + 1, ai, fc =>
    let vertices :=
      if graph_type = "circulant" then ascending_order adj
      else
        match fc with
        | some f => fcSortOrder adj f
        | none => shuffleV ai (keysOf adj)
    match greedyLoop adj k vertices (labelOrder ai) bjAllowed fuel 0 0 0 []
      (init_used_weights (2 * k + 1)) fc with
    | none => none
    | some (lf, _, fc2) =>
      if sizeL lf = vertices.length ∧ is_labeling_valid adj lf then
        some (some lf, fc2)
      else
        greedyAttempts adj k bjAllowed graph_type shuffleV labelOrder fuel a
          (ai + 1) fc2

/-- Embedding of `greedy_k_labeling`.  The source's `on_step` / `on_event`
parameters are not threaded: the function body contains no `_maybe_emit`
call, so the observers are never invoked on this path. -/
def greedy_k_labeling (adj : AdjList) (k_upper_bound : Nat) (attempts : Nat)
    (failure_counts : Option (Vertex → Nat)) (bjAllowed : Nat)
    (graph_type : String) (shuffleV : Nat → List Vertex → List Vertex)
    (labelOrder : Nat → Nat → List Nat) (fuel : Nat) :
    Option (Option Labels × Option (Vertex → Nat)) :=
  greedyAttempts adj k_upper_bound bjAllowed graph_type shuffleV labelOrder
    fuel attempts 0 failure_counts

/-- The first-fit label loop: the smallest label whose scan hits no marked
weight, with the scanned weights (the scan is the same neighbor loop as the
exact solver's, on a dict not yet containing `vertex`). -/
def ffLabelLoop (adj : AdjList) (vertex : Vertex) (labels : Labels)
    (used : List Bool) : List Nat → Option (Nat × List Nat)
  | [] => none
  | label :: rest =>
    match btScan labels used label (nbrsOf adj vertex) with
    | some ws => some (label, ws)
    | none => ffLabelLoop adj vertex labels used rest

/-- The vertex loop of `_first_fit_greedy_k_labeling`. -/
def ffVertexLoop (adj : AdjList) (k : Nat) :
    List Vertex → Labels → List Bool → Option Labels
  | [], labels, _ => some labels
  | vertex :: rest, labels, used =>
    match ffLabelLoop adj vertex labels used (List.range' 1 k) with
    | none => none
    | some (label, ws) =>
      ffVertexLoop adj k rest (insertL labels vertex label)
        (markWeights used ws)

/-- Embedding of `_first_fit_greedy_k_labeling`, result only: the source
also emits `EDGE_WEIGHT_CALCULATED` / `VERTEX_LABELED` events through
`_maybe_emit`, carried by `first_fit_greedy_k_labeling_ev` below, whose
result component this is. -/
def first_fit_greedy_k_labeling (adj : AdjList) (k_upper_bound : Nat)
    (graph_type : String) : Option Labels :=
  let vertices :=
    if graph_type = "circulant" then ascending_order adj
    else degree_desc_order adj
  ffVertexLoop adj k_upper_bound vertices []
    (init_used_weights (2 * k_upper_bound + 1))

/-- The `for _ in range(passes)` randomized-pass loop of fast mode (one
greedy attempt per pass; the countdown keys the shuffle oracles). -/
def ffPasses (adj : AdjList) (graph_type : String) (k : Nat)
    (shuffleV : Nat → Nat → List Vertex → List Vertex)
    (labelOrder : Nat → Nat → Nat → List Nat) (fuel : Nat) :
    Nat → Option (Option Labels)
  | 0 => some none
  | p + 1 =>
    match greedy_k_labeling adj k 1 none 3 graph_type (shuffleV p)
      (labelOrder p) fuel with
    | none => none
    | some (result, _) =>
      match result with
      | some l =>
        if l ≠ [] ∧ is_labeling_valid adj l then some (some l)
        else ffPasses adj graph_type k shuffleV labelOrder fuel p
      | none => ffPasses adj graph_type k shuffleV labelOrder fuel p

/-- The `while k <= k_upper_bound` loop of `find_feasible_k_labeling`,
structured on the remaining iteration count (`steps = k_upper_bound + 1 -
k` at every call).  In fast mode the `passes` line reads the local
`tent_size`, which is only ever assigned on the mongolian-tent path: on any
other path reaching it raises a `NameError` (modelled by `tentSize =
none`). -/
def ffWhile (adj : AdjList) (graph_type : String) (algorithm : String)
    (num_attempts : Nat) (tentSize : Option Nat)
    (shuffleVF : Nat → Nat → Nat → List Vertex → List Vertex)
    (labelOrderF : Nat → Nat → Nat → Nat → List Nat) (fuel : Nat) :
    Nat → Nat → (Vertex → Nat) →
      Option (Except SolverError (Option (Nat × Labels)))
  | 0, _, _ => some (.ok none)
  | steps + 1, k, fc =>
    if algorithm = "fast" then
      match first_fit_greedy_k_labeling adj k graph_type with
      | some l =>
        if l ≠ [] ∧ is_labeling_valid adj l then some (.ok (some (k, l)))
        else
          match tentSize with
          | none => some (.error .nameError)
          | some ts =>
            match ffPasses adj graph_type k (shuffleVF k) (labelOrderF k)
              fuel (max 2 (min 10 (ts / 2))) with
            | none => none
            | some (some l2) => some (.ok (some (k, l2)))
            | some none =>
              ffWhile adj graph_type algorithm num_attempts tentSize
                shuffleVF labelOrderF fuel steps (k + 1) fc
      | none =>
        match tentSize with
        | none => some (.error .nameError)
        | some ts =>
          match ffPasses adj graph_type k (shuffleVF k) (labelOrderF k) fuel
            (max 2 (min 10 (ts / 2))) with
          | none => none
          | some (some l2) => some (.ok (some (k, l2)))
          | some none =>
            ffWhile adj graph_type algorithm num_attempts tentSize shuffleVF
              labelOrderF fuel steps (k + 1) fc
    else
      match greedy_k_labeling adj k num_attempts (some fc) 3 graph_type
        (shuffleVF k 0) (labelOrderF k 0) fuel with
      | none => none
      | some (result, fc2out) =>
        let fc2 : Vertex → Nat :=
          match fc2out with
          | some f => f
          | none => fc
        match result with
        | some l =>
          if l ≠ [] ∧ is_labeling_valid adj l then some (.ok (some (k, l)))
          else
            ffWhile adj graph_type algorithm num_attempts tentSize shuffleVF
              labelOrderF fuel steps (k + 1) fc2
        | none =>
          ffWhile adj graph_type algorithm num_attempts tentSize shuffleVF
            labelOrderF fuel steps (k + 1) fc2

/-- The post-dispatch body of `find_feasible_k_labeling`: the multiplier
check, then the bounded search loop. -/
def ffCore (adj : AdjList) (graph_type : String) (lower_bound : Nat)
    (tentSize : Option Nat) (max_k_multiplier : Nat) (num_attempts : Nat)
    (algorithm : String)
    (shuffleVF : Nat → Nat → Nat → List Vertex → List Vertex)
    (labelOrderF : Nat → Nat → Nat → Nat → List Nat) (fuel : Nat) :
    Option (Except SolverError (Option (Nat × Labels))) :=
  if max_k_multiplier < 1 then some (.error .valueError)
  else
    ffWhile adj graph_type algorithm num_attempts tentSize shuffleVF
      labelOrderF fuel (lower_bound * max_k_multiplier + 1 - lower_bound)
      lower_bound (fun _ => 0)

/-- Embedding of `find_feasible_k_labeling`, result only (`some (.ok
none)` models the `(None, None)` returns, the outer `none` exhausted
fuel); the observer-carrying embedding `find_feasible_k_labeling_ev` below
projects to it. -/
def find_feasible_k_labeling (graph_type : String)
    (graph_params : GraphParams) (max_k_multiplier : Nat)
    (num_attempts : Nat) (algorithm : String)
    (shuffleVF : Nat → Nat → Nat → List Vertex → List Vertex)
    (labelOrderF : Nat → Nat → Nat → Nat → List Nat) (fuel : Nat) :
    Option (Except SolverError (Option (Nat × Labels))) :=
  if graph_type = "mongolian_tent" then
    match graph_params.n with
    | none => some (.ok none)
    | some tent_size =>
      if tent_size ≤ 0 then some (.ok none)
      else
        ffCore (create_mongolian_tent_graph tent_size) graph_type
          (calculate_lower_bound tent_size) (some tent_size)
          max_k_multiplier num_attempts algorithm shuffleVF labelOrderF fuel
  else if graph_type = "circulant" then
    match graph_params.n, graph_params.r with
    | some n, some r =>
      if n ≤ 0 ∨ r ≤ 0 then some (.ok none)
      else if generate_circulant_graph n r = [] then some (.ok none)
      else
        ffCore (generate_circulant_graph n r) graph_type
          (calculate_circulant_lower_bound n r) none max_k_multiplier
          num_attempts algorithm shuffleVF labelOrderF fuel
    | none, _ => some (.ok none)
    | some _, none => some (.ok none)
  else some (.error .valueError)

/-- The label loop of the trace-instrumented branch-and-bound solver. -/
def bbLabelLoopTrace (adj : AdjList) (current_v : Vertex)
    (child : Labels → Finset Nat →
      Option Labels × List (Labels × Finset Nat)) :
    List Nat → Labels → Finset Nat →
      Option Labels × List (Labels × Finset Nat)
  | [], _, _ => (none, [])
  | label :: cands, labels, used =>
    let labels2 := insertL labels current_v label
    match is_assignment_valid adj current_v labels2 used with
    | (true, newly) =>
      let c := child labels2 (used ∪ newly)
      match c.1 with
      | some result => (some result, c.2)
      | none =>
        let r := bbLabelLoopTrace adj current_v child cands
          (eraseKey labels2 current_v) used
        (r.1, c.2 ++ r.2)
    | (false, _) =>
      bbLabelLoopTrace adj current_v child cands (eraseKey labels2 current_v)
        used

/-- `_solve_recursive` instrumented with the `(labels, used_weights)` state
at entry of every recursive call. -/
def solve_recursive_trace (adj : AdjList) (k : Nat) :
    List Vertex → Labels → Finset Nat →
      Option Labels × List (Labels × Finset Nat)
  | [], labels, used => (some labels, [(labels, used)])
  | v :: rest, labels, used =>
    let r := bbLabelLoopTrace adj v
      (fun l u => solve_recursive_trace adj k rest l u) (List.range' 1 k)
      labels used
    (r.1, (labels, used) :: r.2)

/-- The 4-vertex instance exhibiting the greedy stale-tracker state: edges
0-1, 0-2, 1-3. -/
def adjC5 : AdjList :=
  [(.node 0, [.node 1, .node 2]), (.node 1, [.node 0, .node 3]),
   (.node 2, [.node 0]), (.node 3, [.node 1])]

/-- The vertex visiting order of greedy attempt 0 under the identity
shuffle oracle: exactly `keysOf adjC5`. -/
def vertsC5 : List Vertex := [.node 0, .node 1, .node 2, .node 3]

/-- A state recorded by the greedy attempt (after its first backjump):
only vertex 0 is labeled, yet weight 2 is still marked. -/
def stateC5 : Labels × List Bool :=
  ([(Vertex.node 0, 1)], [false, false, true, false, false])

/-- A state recorded by the exact backtracker on the circulant C(8,1..4)
instance at `k = 3` in which two distinct realized edges share a weight
(both were created by the same single assignment, which the mask-based
check cannot see). -/
def stateC4 : Labels × List Bool :=
  ([(Vertex.node 0, 1), (Vertex.node 1, 1), (Vertex.node 2, 1),
    (Vertex.node 3, 1), (Vertex.node 4, 2), (Vertex.node 5, 3)],
   [false, false, true, true, true, false, false])

/-- The first-fit label loop with event emission: the neighbor scan is the
same loop as the exact solver's (`btScanEv`), emitting one
`EDGE_WEIGHT_CALCULATED` per examined labeled neighbor including the
conflicting one, and `VERTEX_LABELED` is emitted after an assignment. -/
def ffLabelLoopEv (callback : Option Observer) (adj : AdjList)
    (vertex : Vertex) (labels : Labels) (used : List Bool) :
    List Nat → Option (Nat × List Nat) × List StepEvent
  | [] => (none, [])
  | label :: rest =>
    let s := btScanEv callback labels used label vertex (nbrsOf adj vertex)
    match s.1 with
    | some ws =>
      let ev : StepEvent := ⟨.vertex_labeled, .vl vertex label⟩
      let _u := maybe_emit callback ev
      (some (label, ws), s.2 ++ [ev])
    | none =>
      let r := ffLabelLoopEv callback adj vertex labels used rest
      (r.1, s.2 ++ r.2)

/-- The vertex loop of `_first_fit_greedy_k_labeling` with event
emission. -/
def ffVertexLoopEv (callback : Option Observer) (adj : AdjList) (k : Nat) :
    List Vertex → Labels → List Bool → Option Labels × List StepEvent
  | [], labels, _ => (some labels, [])
  | vertex :: rest, labels, used =>
    let r := ffLabelLoopEv callback adj vertex labels used (List.range' 1 k)
    match r.1 with
    | none => (none, r.2)
    | some (label, ws) =>
      let r2 := ffVertexLoopEv callback adj k rest
        (insertL labels vertex label) (markWeights used ws)
      (r2.1, r.2 ++ r2.2)

/-- Embedding of `_first_fit_greedy_k_labeling` with its `on_step` observer
and the emitted events; `first_fit_greedy_k_labeling` is its result
projection. -/
def first_fit_greedy_k_labeling_ev (callback : Option Observer)
    (adj : AdjList) (k_upper_bound : Nat) (graph_type : String) :
    Option Labels × List StepEvent :=
  let vertices :=
    if graph_type = "circulant" then ascending_order adj
    else degree_desc_order adj
  ffVertexLoopEv callback adj k_upper_bound vertices []
    (init_used_weights (2 * k_upper_bound + 1))

/-- The `while k <= k_upper_bound` loop with the observer callback and the
emitted events.  The deterministic first-fit pass is the only emission site
on this path: `greedy_k_labeling` accepts observer arguments but contains
no emission site, so the randomized passes and the accurate mode emit
nothing. -/
def ffWhileEv (callback : Option Observer) (adj : AdjList)
    (graph_type : String) (algorithm : String) (num_attempts : Nat)
    (tentSize : Option Nat)
    (shuffleVF : Nat → Nat → Nat → List Vertex → List Vertex)
    (labelOrderF : Nat → Nat → Nat → Nat → List Nat) (fuel : Nat) :
    Nat → Nat → (Vertex → Nat) →
      Option (Except SolverError (Option (Nat × Labels))) × List StepEvent
  | 0, _, _ => (some (.ok none), [])
  | steps + 1, k, fc =>
    if algorithm = "fast" then
      let ff := first_fit_greedy_k_labeling_ev callback adj k graph_type
      match ff.1 with
      | some l =>
        if l ≠ [] ∧ is_labeling_valid adj l then
          (some (.ok (some (k, l))), ff.2)
        else
          match tentSize with
          | none => (some (.error .nameError), ff.2)
          | some ts =>
            match ffPasses adj graph_type k (shuffleVF k) (labelOrderF k)
              fuel (max 2 (min 10 (ts / 2))) with
            | none => (none, ff.2)
            | some (some l2) => (some (.ok (some (k, l2))), ff.2)
            | some none =>
              let r := ffWhileEv callback adj graph_type algorithm
                num_attempts tentSize shuffleVF labelOrderF fuel steps
                (k + 1) fc
              (r.1, ff.2 ++ r.2)
      | none =>
        match tentSize with
        | none => (some (.error .nameError), ff.2)
        | some ts =>
          match ffPasses adj graph_type k (shuffleVF k) (labelOrderF k)
            fuel (max 2 (min 10 (ts / 2))) with
          | none => (none, ff.2)
          | some (some l2) => (some (.ok (some (k, l2))), ff.2)
          | some none =>
            let r := ffWhileEv callback adj graph_type algorithm
              num_attempts tentSize shuffleVF labelOrderF fuel steps (k + 1)
              fc
            (r.1, ff.2 ++ r.2)
    else
      match greedy_k_labeling adj k num_attempts (some fc) 3 graph_type
        (shuffleVF k 0) (labelOrderF k 0) fuel with
      | none => (none, [])
      | some (result, fc2out) =>
        let fc2 : Vertex → Nat :=
          match fc2out with
          | some f => f
          | none => fc
        match result with
        | some l =>
          if l ≠ [] ∧ is_labeling_valid adj l then
            (some (.ok (some (k, l))), [])
          else
            ffWhileEv callback adj graph_type algorithm num_attempts
              tentSize shuffleVF labelOrderF fuel steps (k + 1) fc2
        | none =>
          ffWhileEv callback adj graph_type algorithm num_attempts tentSize
            shuffleVF labelOrderF fuel steps (k + 1) fc2

/-- The post-dispatch body with the observer callback. -/
def ffCoreEv (callback : Option Observer) (adj : AdjList)
    (graph_type : String) (lower_bound : Nat) (tentSize : Option Nat)
    (max_k_multiplier : Nat) (num_attempts : Nat) (algorithm : String)
    (shuffleVF : Nat → Nat → Nat → List Vertex → List Vertex)
    (labelOrderF : Nat → Nat → Nat → Nat → List Nat) (fuel : Nat) :
    Option (Except SolverError (Option (Nat × Labels))) × List StepEvent :=
  if max_k_multiplier < 1 then (some (.error .valueError), [])
  else
    ffWhileEv callback adj graph_type algorithm num_attempts tentSize
      shuffleVF labelOrderF fuel
      (lower_bound * max_k_multiplier + 1 - lower_bound) lower_bound
      (fun _ => 0)

/-- Embedding of `find_feasible_k_labeling` with its observers and the
emitted events (`callback = on_event if on_event is not None else
on_step`, re-selected to the same value at each loop iteration);
`find_feasible_k_labeling` is its result projection. -/
def find_feasible_k_labeling_ev (on_step on_event : Option Observer)
    (graph_type : String) (graph_params : GraphParams)
    (max_k_multiplier : Nat) (num_attempts : Nat) (algorithm : String)
    (shuffleVF : Nat → Nat → Nat → List Vertex → List Vertex)
    (labelOrderF : Nat → Nat → Nat → Nat → List Nat) (fuel : Nat) :
    Option (Except SolverError (Option (Nat × Labels))) × List StepEvent :=
  let callback : Option Observer :=
    match on_event with
    | some f => some f
    | none => on_step
  if graph_type = "mongolian_tent" then
    match graph_params.n with
    | none => (some (.ok none), [])
    | some tent_size =>
      if tent_size ≤ 0 then (some (.ok none), [])
      else
        ffCoreEv callback (create_mongolian_tent_graph tent_size) graph_type
          (calculate_lower_bound tent_size) (some tent_size)
          max_k_multiplier num_attempts algorithm shuffleVF labelOrderF fuel
  else if graph_type = "circulant" then
    match graph_params.n, graph_params.r with
    | some n, some r =>
      if n ≤ 0 ∨ r ≤ 0 then (some (.ok none), [])
      else if generate_circulant_graph n r = [] then (some (.ok none), [])
      else
        ffCoreEv callback (generate_circulant_graph n r) graph_type
          (calculate_circulant_lower_bound n r) none max_k_multiplier
          num_attempts algorithm shuffleVF labelOrderF fuel
    | none, _ => (some (.ok none), [])
    | some _, none => (some (.ok none), [])
  else (some (.error .valueError), [])

lemma keyLt_irrefl (a : Nat × Nat × Nat) : keyLt a a = false := by
  simp [keyLt]

lemma keyLt_eq_true_iff (a b : Nat × Nat × Nat) :
    keyLt a b = true ↔
      a.1 < b.1 ∨ (a.1 = b.1 ∧ (a.2.1 < b.2.1 ∨
        (a.2.1 = b.2.1 ∧ a.2.2 < b.2.2))) := by
  simp [keyLt, Bool.or_eq_true, Bool.and_eq_true, decide_eq_true_iff,
    beq_iff_eq]

lemma keyLt_trichotomy (a b : Nat × Nat × Nat)
    (h1 : keyLt a b = false) (h2 : keyLt b a = false) : a = b := by
  rw [← Bool.not_eq_true, keyLt_eq_true_iff] at h1 h2
  obtain ⟨a1, a2, a3⟩ := a
  obtain ⟨b1, b2, b3⟩ := b
  simp only [Prod.mk.injEq]
  simp only [] at h1 h2
  omega

lemma get_generic_vertex_sort_key_injective :
    Function.Injective get_generic_vertex_sort_key := by
  intro u v h
  cases u <;> cases v <;> simp_all [get_generic_vertex_sort_key]

lemma vLt_trichotomy (u v : Vertex) (h1 : vLt u v = false)
    (h2 : vLt v u = false) : u = v :=
  get_generic_vertex_sort_key_injective (keyLt_trichotomy _ _ h1 h2)

lemma vLt_irrefl (u : Vertex) : vLt u u = false := keyLt_irrefl _

lemma lookupL_insertL_self {α : Type} (d : List (Vertex × α)) (v : Vertex)
    (a : α) : lookupL (insertL d v a) v = some a := by
  induction d with
  | nil => simp [insertL, lookupL]
  | cons hd tl ih =>
    obtain ⟨u, b⟩ := hd
    by_cases h : v = u
    · subst h; simp [insertL, lookupL]
    · simp [insertL, lookupL, h, ih]

lemma lookupL_insertL_ne {α : Type} (d : List (Vertex × α)) (v w : Vertex)
    (a : α) (h : w ≠ v) : lookupL (insertL d v a) w = lookupL d w := by
  induction d with
  | nil => simp [insertL, lookupL, h]
  | cons hd tl ih =>
    obtain ⟨u, b⟩ := hd
    by_cases hvu : v = u
    · subst hvu
      simp [insertL, lookupL, h]
    · by_cases hwu : w = u <;> simp [insertL, lookupL, hvu, hwu, ih]

lemma lookupL_isSome_iff_mem_keys {α : Type} (d : List (Vertex × α))
    (v : Vertex) : (lookupL d v).isSome ↔ v ∈ keysOf d := by
  induction d with
  | nil => simp [lookupL, keysOf]
  | cons hd tl ih =>
    obtain ⟨u, b⟩ := hd
    by_cases h : v = u
    · subst h; simp [lookupL, keysOf]
    · simp [lookupL, keysOf, h, ih]

lemma lookupL_eq_none_iff_not_mem_keys {α : Type} (d : List (Vertex × α))
    (v : Vertex) : lookupL d v = none ↔ v ∉ keysOf d := by
  rw [← lookupL_isSome_iff_mem_keys]
  cases lookupL d v <;> simp

lemma lookupL_eraseKey_self {α : Type} (d : List (Vertex × α)) (v : Vertex)
    (hnd : (keysOf d).Nodup) : lookupL (eraseKey d v) v = none := by
  induction d with
  | nil => simp [eraseKey, lookupL]
  | cons hd tl ih =>
    obtain ⟨u, b⟩ := hd
    simp only [keysOf, List.map_cons, List.nodup_cons] at hnd
    by_cases h : v = u
    · subst h
      simp only [eraseKey, if_pos rfl]
      exact (lookupL_eq_none_iff_not_mem_keys tl v).mpr hnd.1
    · simp [eraseKey, lookupL, h, ih hnd.2]

lemma lookupL_eraseKey_ne {α : Type} (d : List (Vertex × α)) (v w : Vertex)
    (h : w ≠ v) : lookupL (eraseKey d v) w = lookupL d w := by
  induction d with
  | nil => simp [eraseKey]
  | cons hd tl ih =>
    obtain ⟨u, b⟩ := hd
    by_cases hvu : v = u
    · subst hvu; simp [eraseKey, lookupL, h]
    · by_cases hwu : w = u <;> simp [eraseKey, lookupL, hvu, hwu, ih]

lemma orderedInsertBy_perm {α : Type} (le : α → α → Bool) (x : α)
    (l : List α) : (orderedInsertBy le x l).Perm (x :: l) := by
  induction l with
  | nil => simp [orderedInsertBy]
  | cons y ys ih =>
    by_cases h : le x y
    · simp [orderedInsertBy, h]
    · simp only [orderedInsertBy, h, Bool.false_eq_true, if_false]
      exact (ih.cons y).trans (List.Perm.swap x y ys)

lemma insertionSortBy_perm {α : Type} (le : α → α → Bool) (l : List α) :
    (insertionSortBy le l).Perm l := by
  induction l with
  | nil => simp [insertionSortBy]
  | cons x xs ih =>
    exact (orderedInsertBy_perm le x _).trans (ih.cons x)

example : calculate_lower_bound 1 = 2 := by decide

example : calculate_circulant_lower_bound 8 1 = 3 := by decide

example : calculate_circulant_lower_bound 6 1 = 2 := by decide

lemma length_setW (used : List Bool) (w : Nat) (b : Bool) :
    (setW used w b).length = used.length := by
  simp [setW]

lemma getW_init (length w : Nat) : getW (init_used_weights length) w = false := by
  simp only [getW, init_used_weights]
  by_cases h : w < length
  · simp [List.getD, List.getElem?_replicate, h]
  · simp [List.replicate, h]

lemma getD_set_self (l : List Bool) (w : Nat) (b : Bool) (h : w < l.length) :
    (l.set w b).getD w false = b := by
  induction l generalizing w with
  | nil => simp at h
  | cons x xs ih =>
    cases w with
    | zero => simp [List.set]
    | succ w2 =>
      simp only [List.set, List.getD_cons_succ]
      exact ih w2 (by simpa using h)

lemma getD_set_ne (l : List Bool) (w w2 : Nat) (b : Bool) (h : w2 ≠ w) :
    (l.set w b).getD w2 false = l.getD w2 false := by
  induction l generalizing w w2 with
  | nil => simp
  | cons x xs ih =>
    cases w with
    | zero =>
      cases w2 with
      | zero => exact absurd rfl h
      | succ => simp [List.set]
    | succ wp =>
      cases w2 with
      | zero => simp [List.set]
      | succ w2p =>
        simp only [List.set, List.getD_cons_succ]
        exact ih wp w2p (fun hh => h (by simp [hh]))

lemma getW_setW_self (used : List Bool) (w : Nat) (b : Bool)
    (h : w < used.length) : getW (setW used w b) w = b := by
  simp only [getW, setW, List.length_set, decide_eq_true (by exact h), Bool.true_and]
  exact getD_set_self used w b h

lemma getW_setW_ne (used : List Bool) (w w2 : Nat) (b : Bool) (h : w2 ≠ w) :
    getW (setW used w b) w2 = getW used w2 := by
  simp only [getW, setW, List.length_set]
  rw [getD_set_ne used w w2 b h]

lemma set_false_of_getD_false (l : List Bool) (w : Nat)
    (h : l.getD w false = false) : l.set w false = l := by
  induction l generalizing w with
  | nil => simp
  | cons x xs ih =>
    cases w with
    | zero => simp_all [List.getD]
    | succ wp =>
      simp only [List.getD_cons_succ] at h
      simp [List.set, ih wp h]

lemma mem_of_lookupL {α : Type} (d : List (Vertex × α)) (v : Vertex) (a : α)
    (h : lookupL d v = some a) : (v, a) ∈ d := by
  induction d with
  | nil => simp [lookupL] at h
  | cons hd tl ih =>
    obtain ⟨u, b⟩ := hd
    by_cases hv : v = u
    · subst hv
      simp only [lookupL, eq_self_iff_true, if_true, Option.some.injEq] at h
      subst h; simp
    · simp only [lookupL, if_neg hv] at h
      simp [ih h]

lemma lookupL_of_mem_nodup {α : Type} (d : List (Vertex × α)) (v : Vertex)
    (a : α) (hnd : (keysOf d).Nodup) (h : (v, a) ∈ d) :
    lookupL d v = some a := by
  induction d with
  | nil => simp at h
  | cons hd tl ih =>
    obtain ⟨u, b⟩ := hd
    simp only [keysOf, List.map_cons, List.nodup_cons] at hnd
    rcases List.mem_cons.mp h with heq | hmem
    · obtain ⟨hv, ha⟩ := Prod.mk.injEq .. ▸ heq
      subst hv; subst ha; simp [lookupL]
    · by_cases hv : v = u
      · subst hv
        exact absurd (by simpa [keysOf] using List.mem_map_of_mem Prod.fst hmem)
          hnd.1
      · simp [lookupL, hv, ih hnd.2 hmem]

lemma ilvInner_spec (labels : Labels) (a : Nat) (u : Vertex) :
    ∀ (nbrs : List Vertex) (seen : Finset Nat),
      (∀ s2, ilvInner labels a u nbrs seen = some s2 →
        ((innerWeights labels a u nbrs).Nodup ∧
         (∀ w ∈ innerWeights labels a u nbrs, w ∉ seen) ∧
         ∀ w, w ∈ s2 ↔ w ∈ seen ∨ w ∈ innerWeights labels a u nbrs)) ∧
      (ilvInner labels a u nbrs seen = none →
        ¬((innerWeights labels a u nbrs).Nodup ∧
          ∀ w ∈ innerWeights labels a u nbrs, w ∉ seen)) := by
  intro nbrs
  induction nbrs with
  | nil =>
    intro seen
    constructor
    · intro s2 hs
      simp only [ilvInner, Option.some.injEq] at hs
      subst hs
      simp [innerWeights]
    · intro hs; simp [ilvInner] at hs
  | cons t ts ih =>
    intro seen
    cases hlt : lookupL labels t with
    | none =>
      have hw : innerWeights labels a u (t :: ts) =
          innerWeights labels a u ts := by
        simp [innerWeights, List.filterMap_cons, hlt]
      constructor
      · intro s2 hs
        simp only [ilvInner, hlt] at hs
        rw [hw]; exact (ih seen).1 s2 hs
      · intro hs
        simp only [ilvInner, hlt] at hs
        rw [hw]; exact (ih seen).2 hs
    | some b =>
      by_cases hv : vLt u t
      · have hw : innerWeights labels a u (t :: ts) =
            (a + b) :: innerWeights labels a u ts := by
          simp [innerWeights, List.filterMap_cons, hlt, hv]
        by_cases hmem : (a + b) ∈ seen
        · constructor
          · intro s2 hs
            simp [ilvInner, hlt, hv, hmem] at hs
          · intro _
            rw [hw]
            rintro ⟨-, hall⟩
            exact hall (a + b) (List.mem_cons_self _ _) hmem
        · have hrec : ilvInner labels a u (t :: ts) seen =
              ilvInner labels a u ts (insert (a + b) seen) := by
            simp [ilvInner, hlt, hv, hmem]
          constructor
          · intro s2 hs
            rw [hrec] at hs
            obtain ⟨hnd, hdisj, hmem2⟩ := (ih (insert (a + b) seen)).1 s2 hs
            rw [hw]
            refine ⟨?_, ?_, ?_⟩
            · refine List.nodup_cons.mpr ⟨?_, hnd⟩
              intro hab
              exact (hdisj _ hab) (Finset.mem_insert_self _ _)
            · intro w hwm
              rcases List.mem_cons.mp hwm with rfl | hwm
              · exact hmem
              · intro hws
                exact (hdisj w hwm) (Finset.mem_insert_of_mem hws)
            · intro w
              rw [hmem2 w, Finset.mem_insert]
              simp only [List.mem_cons]
              tauto
          · intro hs
            rw [hrec] at hs
            have := (ih (insert (a + b) seen)).2 hs
            rw [hw]
            rintro ⟨hnd, hall⟩
            apply this
            obtain ⟨hhd, htl⟩ := List.nodup_cons.mp hnd
            refine ⟨htl, fun w hwm hwi => ?_⟩
            rcases Finset.mem_insert.mp hwi with rfl | hws
            · exact hhd hwm
            · exact hall w (List.mem_cons_of_mem _ hwm) hws
      · have hw : innerWeights labels a u (t :: ts) =
            innerWeights labels a u ts := by
          simp [innerWeights, List.filterMap_cons, hlt, hv]
        constructor
        · intro s2 hs
          simp only [ilvInner, hlt, hv, Bool.false_eq_true, if_false] at hs
          rw [hw]; exact (ih seen).1 s2 hs
        · intro hs
          simp only [ilvInner, hlt, hv, Bool.false_eq_true, if_false] at hs
          rw [hw]; exact (ih seen).2 hs

lemma canonWeights_cons (labels : Labels) (u : Vertex) (nbrs : List Vertex)
    (rest : AdjList) :
    canonWeights labels ((u, nbrs) :: rest) =
      (match lookupL labels u with
       | none => []
       | some a => innerWeights labels a u nbrs) ++ canonWeights labels rest := by
  cases hu : lookupL labels u with
  | none => simp [canonWeights, canonPairs, List.flatMap_cons, hu]
  | some a =>
    simp only [canonWeights, canonPairs, List.flatMap_cons, hu, List.map_append]
    congr 1
    induction nbrs with
    | nil => simp [innerWeights]
    | cons t ts ihn =>
      cases ht : lookupL labels t with
      | none => simpa [innerWeights, List.filterMap_cons, ht] using ihn
      | some b =>
        by_cases hv : vLt u t
        · simp only [innerWeights, List.filterMap_cons, ht, hv, if_true]
          simp only [List.map_cons, pairWeight, hu, ht, Option.getD_some]
          simpa [innerWeights] using ihn
        · simpa [innerWeights, List.filterMap_cons, ht, hv] using ihn

lemma ilvOuter_spec (labels : Labels) :
    ∀ (items : AdjList) (seen : Finset Nat),
      ilvOuter labels items seen = true ↔
        ((canonWeights labels items).Nodup ∧
          ∀ w ∈ canonWeights labels items, w ∉ seen) := by
  intro items
  induction items with
  | nil =>
    intro seen
    simp [ilvOuter, canonWeights, canonPairs]
  | cons hd rest ih =>
    intro seen
    obtain ⟨u, nbrs⟩ := hd
    rw [canonWeights_cons]
    cases hu : lookupL labels u with
    | none => simpa [ilvOuter, hu] using ih seen
    | some a =>
      simp only [hu]
      cases hin : ilvInner labels a u nbrs seen with
      | none =>
        have hneg := (ilvInner_spec labels a u nbrs seen).2 hin
        simp only [ilvOuter, hu, hin, Bool.false_eq_true, false_iff]
        rintro ⟨hnd, hall⟩
        apply hneg
        rw [List.nodup_append] at hnd
        exact ⟨hnd.1, fun w hw => hall w (List.mem_append_left _ hw)⟩
      | some seen2 =>
        obtain ⟨hnd1, hdisj1, hmem2⟩ :=
          (ilvInner_spec labels a u nbrs seen).1 seen2 hin
        have : ilvOuter labels ((u, nbrs) :: rest) seen =
            ilvOuter labels rest seen2 := by
          simp [ilvOuter, hu, hin]
        rw [this, ih seen2, List.nodup_append]
        constructor
        · rintro ⟨hnd2, hall2⟩
          refine ⟨⟨hnd1, hnd2, ?_⟩, ?_⟩
          · intro w hw1 hw2
            exact (hall2 w hw2) ((hmem2 w).mpr (Or.inr hw1))
          · intro w hw
            rcases List.mem_append.mp hw with hw1 | hw2
            · exact hdisj1 w hw1
            · intro hws
              exact (hall2 w hw2) ((hmem2 w).mpr (Or.inl hws))
        · rintro ⟨⟨hn1, hn2, hdis⟩, hall⟩
          refine ⟨hn2, fun w hw2 hws2 => ?_⟩
          rcases (hmem2 w).mp hws2 with hws | hw1
          · exact (hall w (List.mem_append_right _ hw2)) hws
          · exact hdis hw1 hw2

/-- The full scan succeeds exactly when the canonical weight enumeration has
no duplicates. -/
theorem is_labeling_valid_iff_nodup (adj : AdjList) (labels : Labels) :
    is_labeling_valid adj labels = true ↔ (canonWeights labels adj).Nodup := by
  rw [is_labeling_valid, ilvOuter_spec]
  simp

lemma mem_canonPairs_of (labels : Labels) (adj : AdjList) (u v : Vertex)
    (hv : v ∈ nbrsOf adj u) (hu : (lookupL labels u).isSome)
    (hb : (lookupL labels v).isSome) (hlt : vLt u v = true) :
    (u, v) ∈ canonPairs labels adj := by
  have hns : ∃ ns, lookupL adj u = some ns ∧ v ∈ ns := by
    cases hl : lookupL adj u with
    | none => rw [nbrsOf, hl] at hv; simp at hv
    | some ns => exact ⟨ns, rfl, by rwa [nbrsOf, hl] at hv⟩
  obtain ⟨ns, hl, hvns⟩ := hns
  rw [canonPairs, List.mem_flatMap]
  refine ⟨(u, ns), mem_of_lookupL adj u ns hl, ?_⟩
  obtain ⟨a, ha⟩ := Option.isSome_iff_exists.mp hu
  obtain ⟨b, hbb⟩ := Option.isSome_iff_exists.mp hb
  simp only [ha]
  rw [List.mem_filterMap]
  exact ⟨v, hvns, by simp [hbb, hlt]⟩

lemma mem_keysOf_of_mem_canonPairs (labels : Labels) (items : AdjList)
    (p : Vertex × Vertex) (h : p ∈ canonPairs labels items) :
    p.1 ∈ keysOf items := by
  rw [canonPairs, List.mem_flatMap] at h
  obtain ⟨q, hq, hpq⟩ := h
  cases hl : lookupL labels q.1 with
  | none => simp [hl] at hpq
  | some a =>
    simp only [hl, List.mem_filterMap] at hpq
    obtain ⟨t, ht, hemit⟩ := hpq
    cases hlt : lookupL labels t with
    | none => simp [hlt] at hemit
    | some b =>
      simp only [hlt] at hemit
      by_cases hv : vLt q.1 t
      · simp only [hv, if_true, Option.some.injEq] at hemit
        subst hemit
        exact List.mem_map_of_mem Prod.fst hq
      · simp [hv] at hemit

lemma of_mem_canonPairs (labels : Labels) (adj : AdjList)
    (hkeys : (keysOf adj).Nodup) (p : Vertex × Vertex)
    (h : p ∈ canonPairs labels adj) :
    p.2 ∈ nbrsOf adj p.1 ∧ (lookupL labels p.1).isSome ∧
      (lookupL labels p.2).isSome ∧ vLt p.1 p.2 = true := by
  rw [canonPairs, List.mem_flatMap] at h
  obtain ⟨q, hq, hpq⟩ := h
  cases hl : lookupL labels q.1 with
  | none => simp [hl] at hpq
  | some a =>
    simp only [hl, List.mem_filterMap] at hpq
    obtain ⟨t, ht, hemit⟩ := hpq
    cases hlt : lookupL labels t with
    | none => simp [hlt] at hemit
    | some b =>
      simp only [hlt] at hemit
      by_cases hv : vLt q.1 t
      · simp only [hv, if_true, Option.some.injEq] at hemit
        subst hemit
        obtain ⟨u, ns⟩ := q
        have : lookupL adj u = some ns := lookupL_of_mem_nodup adj u ns hkeys hq
        exact ⟨by simpa [nbrsOf, this] using ht, by simp [hl], by simp [hlt], hv⟩
      · simp [hv] at hemit

/-- Soundness bridge: a labeling accepted by the source checker satisfies the
specification's validity property. -/
theorem validLabeling_of_checker (adj : AdjList) (labels : Labels)
    (h : is_labeling_valid adj labels = true) : ValidLabeling adj labels := by
  rw [is_labeling_valid_iff_nodup] at h
  intro u v u2 v2 a b a2 b2 hv hv2 hlt hlt2 hla hlb hla2 hlb2 hne
  have hp1 : (u, v) ∈ canonPairs labels adj :=
    mem_canonPairs_of labels adj u v hv (by simp [hla]) (by simp [hlb]) hlt
  have hp2 : (u2, v2) ∈ canonPairs labels adj :=
    mem_canonPairs_of labels adj u2 v2 hv2 (by simp [hla2]) (by simp [hlb2]) hlt2
  intro heq
  apply hne
  have hinj := List.inj_on_of_nodup_map (f := pairWeight labels)
    (l := canonPairs labels adj) h
  apply hinj hp1 hp2
  simp [pairWeight, hla, hlb, hla2, hlb2, heq]

lemma canonPairs_nodup (labels : Labels) (items : AdjList)
    (hkeys : (keysOf items).Nodup)
    (hentry : ∀ p ∈ items, (p.2 : List Vertex).Nodup) :
    (canonPairs labels items).Nodup := by
  induction items with
  | nil => simp [canonPairs]
  | cons hd rest ih =>
    obtain ⟨u, nbrs⟩ := hd
    simp only [keysOf, List.map_cons, List.nodup_cons] at hkeys
    have hrest : (canonPairs labels rest).Nodup :=
      ih hkeys.2 (fun p hp => hentry p (List.mem_cons_of_mem _ hp))
    have hseg : (canonPairs labels [(u, nbrs)]).Nodup := by
      simp only [canonPairs, List.flatMap_cons, List.flatMap_nil,
        List.append_nil]
      cases hl : lookupL labels u with
      | none => simp
      | some a =>
        simp only
        apply List.Nodup.filterMap
        · intro t1 t2 c h1 h2
          rw [Option.mem_def] at h1 h2
          have e1 : c = (u, t1) := by
            cases hl1 : lookupL labels t1 with
            | none => rw [hl1] at h1; simp at h1
            | some b1 =>
              rw [hl1] at h1
              by_cases hv1 : vLt u t1
              · simp only [hv1, if_true, Option.some.injEq] at h1
                exact h1.symm
              · simp [hv1] at h1
          have e2 : c = (u, t2) := by
            cases hl2 : lookupL labels t2 with
            | none => rw [hl2] at h2; simp at h2
            | some b2 =>
              rw [hl2] at h2
              by_cases hv2 : vLt u t2
              · simp only [hv2, if_true, Option.some.injEq] at h2
                exact h2.symm
              · simp [hv2] at h2
          rw [e1] at e2
          exact (Prod.mk.injEq .. ▸ e2).2
        · exact hentry (u, nbrs) (List.mem_cons_self _ _)
    have hcons : canonPairs labels ((u, nbrs) :: rest) =
        canonPairs labels [(u, nbrs)] ++ canonPairs labels rest := by
      simp [canonPairs, List.flatMap_cons]
    rw [hcons, List.nodup_append]
    refine ⟨hseg, hrest, ?_⟩
    intro p hp1 hp2
    have h1 : p.1 ∈ keysOf [(u, nbrs)] :=
      mem_keysOf_of_mem_canonPairs labels _ p hp1
    have h2 : p.1 ∈ keysOf rest :=
      mem_keysOf_of_mem_canonPairs labels rest p hp2
    simp only [keysOf, List.map_cons, List.map_nil, List.mem_singleton] at h1
    rw [h1] at h2
    exact hkeys.1 h2

/-- Completeness bridge: on an adjacency structure with no duplicate keys and
no duplicate neighbor entries, a labeling satisfying the specification's
validity property is accepted by the source checker. -/
theorem checker_of_validLabeling (adj : AdjList) (labels : Labels)
    (hkeys : (keysOf adj).Nodup)
    (hentry : ∀ p ∈ adj, (p.2 : List Vertex).Nodup)
    (h : ValidLabeling adj labels) : is_labeling_valid adj labels = true := by
  rw [is_labeling_valid_iff_nodup]
  apply List.Nodup.map_on _ (canonPairs_nodup labels adj hkeys hentry)
  intro p hp q hq hw
  by_contra hne
  obtain ⟨hp1, hp2, hp3, hp4⟩ := of_mem_canonPairs labels adj hkeys p hp
  obtain ⟨hq1, hq2, hq3, hq4⟩ := of_mem_canonPairs labels adj hkeys q hq
  obtain ⟨a, ha⟩ := Option.isSome_iff_exists.mp hp2
  obtain ⟨b, hb⟩ := Option.isSome_iff_exists.mp hp3
  obtain ⟨a2, ha2⟩ := Option.isSome_iff_exists.mp hq2
  obtain ⟨b2, hb2⟩ := Option.isSome_iff_exists.mp hq3
  refine h p.1 p.2 q.1 q.2 a b a2 b2 hp1 hq1 hp4 hq4 ha hb ha2 hb2 ?_ ?_
  · intro hpe
    apply hne
    obtain ⟨p1, p2⟩ := p
    obtain ⟨q1, q2⟩ := q
    simpa using hpe
  · simpa [pairWeight, ha, hb, ha2, hb2] using hw

lemma btScanEv_fst (callback : Option Observer) (labels2 : Labels)
    (used : List Bool) (label : Nat) (v : Vertex) (nbrs : List Vertex) :
    (btScanEv callback labels2 used label v nbrs).1 =
      btScan labels2 used label nbrs := by
  induction nbrs with
  | nil => simp [btScanEv, btScan]
  | cons nb rest ih =>
    cases hnb : lookupL labels2 nb with
    | none => simp [btScanEv, btScan, hnb, ih]
    | some bl =>
      by_cases hw : getW used (label + bl)
      · simp [btScanEv, btScan, hnb, hw]
      · simp [btScanEv, btScan, hnb, hw, ih]

lemma btLabelLoopEv_fst (callback : Option Observer) (adj : AdjList)
    (v : Vertex)
    (childEv : Labels → List Bool → Option Labels × List StepEvent)
    (child : Labels → List Bool → Option Labels)
    (hchild : ∀ l u, (childEv l u).1 = child l u) :
    ∀ (cands : List Nat) (labels : Labels) (used : List Bool),
      (btLabelLoopEv callback adj v childEv cands labels used).1 =
        btLabelLoop adj v child cands labels used := by
  intro cands
  induction cands with
  | nil =>
    intro labels used
    simp only [btLabelLoopEv, btLabelLoop]
    split <;> rfl
  | cons label cands2 ih =>
    intro labels used
    simp only [btLabelLoopEv, btLabelLoop, btScanEv_fst]
    cases hscan : btScan (insertL labels v label) used label (nbrsOf adj v) with
    | none => simpa using ih (insertL labels v label) used
    | some new_weights =>
      simp only
      rw [hchild (insertL labels v label) (markWeights used new_weights)]
      cases child (insertL labels v label) (markWeights used new_weights) with
      | some r => rfl
      | none =>
        simpa using ih (insertL labels v label)
          (unmarkWeights (markWeights used new_weights) new_weights)

theorem backtrack_ev_fst (callback : Option Observer) (adj : AdjList)
    (k : Nat) :
    ∀ (rem : List Vertex) (labels : Labels) (used : List Bool),
      (backtrack_k_labeling_generic_ev callback adj k labels rem used).1 =
        backtrack_k_labeling_generic adj k labels rem used := by
  intro rem
  induction rem with
  | nil =>
    intro labels used
    simp only [backtrack_k_labeling_generic_ev, backtrack_k_labeling_generic]
  | cons v rest ih =>
    intro labels used
    simp only [backtrack_k_labeling_generic_ev, backtrack_k_labeling_generic]
    exact btLabelLoopEv_fst callback adj v _ _ (fun l u => ih l u) _ labels used

lemma btLabelLoopTrace_fst (adj : AdjList) (v : Vertex)
    (childTr : Labels → List Bool → Option Labels × List (Labels × List Bool))
    (child : Labels → List Bool → Option Labels)
    (hchild : ∀ l u, (childTr l u).1 = child l u) :
    ∀ (cands : List Nat) (labels : Labels) (used : List Bool),
      (btLabelLoopTrace adj v childTr cands labels used).1 =
        btLabelLoop adj v child cands labels used := by
  intro cands
  induction cands with
  | nil => intro labels used; rfl
  | cons label cands2 ih =>
    intro labels used
    simp only [btLabelLoopTrace, btLabelLoop]
    cases hscan : btScan (insertL labels v label) used label (nbrsOf adj v) with
    | none => simpa using ih (insertL labels v label) used
    | some new_weights =>
      simp only
      rw [hchild (insertL labels v label) (markWeights used new_weights)]
      cases child (insertL labels v label) (markWeights used new_weights) with
      | some r => rfl
      | none =>
        simpa using ih (insertL labels v label)
          (unmarkWeights (markWeights used new_weights) new_weights)

theorem backtrack_trace_fst (adj : AdjList) (k : Nat) :
    ∀ (rem : List Vertex) (labels : Labels) (used : List Bool),
      (backtrack_trace adj k labels rem used).1 =
        backtrack_k_labeling_generic adj k labels rem used := by
  intro rem
  induction rem with
  | nil =>
    intro labels used
    simp only [backtrack_trace, backtrack_k_labeling_generic]
  | cons v rest ih =>
    intro labels used
    simp only [backtrack_trace, backtrack_k_labeling_generic]
    exact btLabelLoopTrace_fst adj v _ _ (fun l u => ih l u) _ labels used

lemma find_optimal_loop_ev_fst (on_step on_event : Option Observer)
    (adj : AdjList) (vertices : List Vertex) (k : Nat) (fuel : Nat) :
    (find_optimal_loop_ev on_step on_event adj vertices k fuel).1 =
      find_optimal_loop adj vertices k fuel := by
  induction fuel generalizing k with
  | zero => rfl
  | succ fuel2 ih =>
    simp only [find_optimal_loop_ev, find_optimal_loop, backtrack_ev_fst]
    cases backtrack_k_labeling_generic adj k []
      vertices (init_used_weights (2 * k + 1)) with
    | some labeling =>
      by_cases hv : is_labeling_valid adj labeling <;> simp [hv, ih]
    | none => simpa using ih (k + 1)

example :
    ((find_optimal_k_labeling "circulant" ⟨some 6, some 1⟩ none none 1).1 =
      .ok (some (2, [(.node 0, 1), (.node 1, 1), (.node 2, 1), (.node 3, 1),
        (.node 4, 1), (.node 5, 1)]))) := by rfl

example :
    ((find_optimal_k_labeling "ladder" ⟨some 3, none⟩ none none 5).1 =
      .error .valueError) := by rfl

lemma undirCount_symm (E : List (Vertex × Vertex)) (z w : Vertex) :
    undirCount E z w = undirCount E w z := Nat.add_comm _ _

lemma undirCount_append (E1 E2 : List (Vertex × Vertex)) (z w : Vertex) :
    undirCount (E1 ++ E2) z w = undirCount E1 z w + undirCount E2 z w := by
  simp only [undirCount, List.count_append]
  omega

lemma undirCount_cons (e : Vertex × Vertex) (rest : List (Vertex × Vertex))
    (z w : Vertex) :
    undirCount (e :: rest) z w = undirCount rest z w
      + (if e = (z, w) then 1 else 0) + (if e = (w, z) then 1 else 0) := by
  simp only [undirCount, List.count_cons, beq_iff_eq]
  omega

lemma nbrsOf_cons_self (w2 : Vertex) (ns : List Vertex) (rest : AdjList) :
    nbrsOf ((w2, ns) :: rest) w2 = ns := by
  simp [nbrsOf, lookupL]

lemma nbrsOf_cons_ne (w2 : Vertex) (ns : List Vertex) (rest : AdjList)
    (z : Vertex) (hz : z ≠ w2) : nbrsOf ((w2, ns) :: rest) z = nbrsOf rest z := by
  simp [nbrsOf, lookupL, hz]

lemma nbrsOf_dappend (g : AdjList) (u v z : Vertex) :
    nbrsOf (dappend g u v) z =
      if z = u then nbrsOf g z ++ [v] else nbrsOf g z := by
  induction g with
  | nil =>
    by_cases h : z = u
    · subst h; simp [dappend, nbrsOf, lookupL]
    · simp [dappend, nbrsOf, lookupL, h]
  | cons hd rest ih =>
    obtain ⟨w2, ns⟩ := hd
    by_cases huw : u = w2
    · subst huw
      by_cases hz : z = u
      · subst hz
        simp [dappend, nbrsOf_cons_self]
      · simp [dappend, nbrsOf_cons_ne _ _ _ _ hz, hz]
    · simp only [dappend, if_neg huw]
      by_cases hz : z = w2
      · subst hz
        have hzu : z ≠ u := fun h => huw h.symm
        simp [nbrsOf_cons_self, hzu]
      · rw [nbrsOf_cons_ne _ _ _ _ hz, nbrsOf_cons_ne _ _ _ _ hz, ih]

lemma nbrCount_addEdgePair (g : AdjList) (e : Vertex × Vertex)
    (z w : Vertex) :
    nbrCount (addEdgePair g e) z w = nbrCount g z w
      + (if e = (z, w) then 1 else 0)
      + (if e = (w, z) then 1 else 0) := by
  obtain ⟨a, b⟩ := e
  simp only [nbrCount, addEdgePair, nbrsOf_dappend, Prod.mk.injEq]
  by_cases hzb : z = b <;> by_cases hza : z = a <;>
    by_cases hwa : w = a <;> by_cases hwb : w = b <;>
    simp_all [List.count_append, List.count_singleton, beq_iff_eq,
      Prod.mk.injEq, eq_comm]

lemma nbrCount_foldl_addEdgePair (L : List (Vertex × Vertex)) (g : AdjList)
    (z w : Vertex) :
    nbrCount (L.foldl addEdgePair g) z w =
      nbrCount g z w + undirCount L z w := by
  induction L generalizing g with
  | nil => simp [undirCount]
  | cons e rest ih =>
    rw [List.foldl_cons, ih, nbrCount_addEdgePair, undirCount_cons]
    omega

lemma nbrsOf_eraseNbr (g : AdjList) (u v z : Vertex) :
    nbrsOf (eraseNbr g u v) z =
      if z = u then (nbrsOf g z).erase v else nbrsOf g z := by
  induction g with
  | nil =>
    by_cases h : z = u <;> simp [eraseNbr, nbrsOf, lookupL, h]
  | cons hd rest ih =>
    obtain ⟨w2, ns⟩ := hd
    by_cases huw : u = w2
    · subst huw
      by_cases hz : z = u
      · subst hz; simp [eraseNbr, nbrsOf_cons_self]
      · simp [eraseNbr, nbrsOf_cons_ne _ _ _ _ hz, hz]
    · simp only [eraseNbr, if_neg huw]
      by_cases hz : z = w2
      · subst hz
        have hzu : z ≠ u := fun h => huw h.symm
        simp [nbrsOf_cons_self, hzu]
      · rw [nbrsOf_cons_ne _ _ _ _ hz, nbrsOf_cons_ne _ _ _ _ hz, ih]

lemma nbrCount_removeEdgeStep (g : AdjList) (e : Vertex × Vertex)
    (z w : Vertex) :
    nbrCount (removeEdgeStep g e) z w = nbrCount g z w
      - ((if e = (z, w) then 1 else 0)
        + (if e = (w, z) then 1 else 0)) := by
  obtain ⟨a, b⟩ := e
  simp only [nbrCount, removeEdgeStep, nbrsOf_eraseNbr, Prod.mk.injEq]
  by_cases hzb : z = b <;> by_cases hza : z = a <;>
    by_cases hwa : w = a <;> by_cases hwb : w = b <;>
    simp_all [List.count_erase, beq_iff_eq, Prod.mk.injEq, eq_comm] <;>
    omega

lemma nbrCount_foldl_remove (L : List (Vertex × Vertex)) (g : AdjList)
    (z w : Vertex) :
    nbrCount (L.foldl removeEdgeStep g) z w =
      nbrCount g z w - undirCount L z w := by
  induction L generalizing g with
  | nil => simp [undirCount]
  | cons e rest ih =>
    rw [List.foldl_cons, ih, nbrCount_removeEdgeStep, undirCount_cons]
    omega

lemma keysOf_addKeyEmpty_mem (g : AdjList) (u z : Vertex) :
    z ∈ keysOf (addKeyEmpty g u) ↔ z ∈ keysOf g ∨ z = u := by
  induction g with
  | nil => simp [addKeyEmpty, keysOf]
  | cons hd rest ih =>
    obtain ⟨w2, ns⟩ := hd
    by_cases huw : u = w2
    · subst huw; simp [addKeyEmpty, keysOf]; tauto
    · simp only [addKeyEmpty, if_neg huw]
      simp [keysOf] at ih ⊢
      tauto

lemma nbrsOf_addKeyEmpty_fresh (g : AdjList) (u : Vertex)
    (hu : u ∉ keysOf g) (z : Vertex) :
    nbrsOf (addKeyEmpty g u) z = nbrsOf g z := by
  induction g with
  | nil =>
    by_cases h : z = u
    · subst h; simp [addKeyEmpty, nbrsOf, lookupL]
    · simp [addKeyEmpty, nbrsOf, lookupL, h]
  | cons hd rest ih =>
    obtain ⟨w2, ns⟩ := hd
    simp only [keysOf, List.map_cons, List.mem_cons] at hu
    push_neg at hu
    have huw : u ≠ w2 := hu.1
    simp only [addKeyEmpty, if_neg huw]
    by_cases hz : z = w2
    · subst hz; simp [nbrsOf_cons_self]
    · rw [nbrsOf_cons_ne _ _ _ _ hz, nbrsOf_cons_ne _ _ _ _ hz]
      exact ih (by simpa [keysOf] using hu.2)

lemma keysOf_dappend_mem (g : AdjList) (u v z : Vertex) :
    z ∈ keysOf (dappend g u v) ↔ z ∈ keysOf g ∨ z = u := by
  induction g with
  | nil => simp [dappend, keysOf]
  | cons hd rest ih =>
    obtain ⟨w2, ns⟩ := hd
    by_cases huw : u = w2
    · subst huw; simp [dappend, keysOf]; tauto
    · simp only [dappend, if_neg huw]
      simp [keysOf] at ih ⊢
      tauto

lemma keysOf_addEdgePair_mem (g : AdjList) (e : Vertex × Vertex) (z : Vertex) :
    z ∈ keysOf (addEdgePair g e) ↔ z ∈ keysOf g ∨ z = e.1 ∨ z = e.2 := by
  rw [show addEdgePair g e = dappend (dappend g e.1 e.2) e.2 e.1 from rfl,
    keysOf_dappend_mem, keysOf_dappend_mem]
  tauto

lemma keys_foldl_addEdgePair_mem (L : List (Vertex × Vertex)) (g : AdjList)
    (z : Vertex) :
    z ∈ keysOf (L.foldl addEdgePair g) ↔
      z ∈ keysOf g ∨ ∃ e ∈ L, z = e.1 ∨ z = e.2 := by
  induction L generalizing g with
  | nil => simp
  | cons e rest ih =>
    simp only [List.foldl_cons, ih, keysOf_addEdgePair_mem, List.mem_cons]
    constructor
    · rintro ((h | h | h) | ⟨e2, he2, h⟩)
      · exact Or.inl h
      · exact Or.inr ⟨e, Or.inl rfl, Or.inl h⟩
      · exact Or.inr ⟨e, Or.inl rfl, Or.inr h⟩
      · exact Or.inr ⟨e2, Or.inr he2, h⟩
    · rintro (h | ⟨e2, (rfl | he2), h⟩)
      · exact Or.inl (Or.inl h)
      · exact Or.inl (Or.inr h)
      · exact Or.inr ⟨e2, he2, h⟩

lemma keysOf_dappend_eq (g : AdjList) (u v : Vertex) :
    keysOf (dappend g u v) =
      if u ∈ keysOf g then keysOf g else keysOf g ++ [u] := by
  induction g with
  | nil => simp [dappend, keysOf]
  | cons hd rest ih =>
    obtain ⟨w2, ns⟩ := hd
    by_cases huw : u = w2
    · subst huw; simp [dappend, keysOf]
    · simp only [dappend, if_neg huw, keysOf, List.map_cons] at ih ⊢
      rw [ih]
      have : (u ∈ w2 :: List.map Prod.fst rest) ↔
          (u ∈ List.map Prod.fst rest) := by
        simp [List.mem_cons, huw]
      by_cases hm : u ∈ List.map Prod.fst rest <;> simp [hm, this]

lemma keysOf_addKeyEmpty_eq (g : AdjList) (u : Vertex) :
    keysOf (addKeyEmpty g u) =
      if u ∈ keysOf g then keysOf g else keysOf g ++ [u] := by
  induction g with
  | nil => simp [addKeyEmpty, keysOf]
  | cons hd rest ih =>
    obtain ⟨w2, ns⟩ := hd
    by_cases huw : u = w2
    · subst huw; simp [addKeyEmpty, keysOf]
    · simp only [addKeyEmpty, if_neg huw, keysOf, List.map_cons] at ih ⊢
      rw [ih]
      have : (u ∈ w2 :: List.map Prod.fst rest) ↔
          (u ∈ List.map Prod.fst rest) := by
        simp [List.mem_cons, huw]
      by_cases hm : u ∈ List.map Prod.fst rest <;> simp [hm, this]

lemma keysOf_eraseNbr_eq (g : AdjList) (u v : Vertex) :
    keysOf (eraseNbr g u v) = keysOf g := by
  induction g with
  | nil => simp [eraseNbr]
  | cons hd rest ih =>
    obtain ⟨w2, ns⟩ := hd
    by_cases huw : u = w2
    · subst huw; simp [eraseNbr, keysOf]
    · simp only [eraseNbr, if_neg huw, keysOf, List.map_cons] at ih ⊢
      rw [ih]

lemma keysNodup_dappend (g : AdjList) (u v : Vertex)
    (h : (keysOf g).Nodup) : (keysOf (dappend g u v)).Nodup := by
  rw [keysOf_dappend_eq]
  by_cases hm : u ∈ keysOf g
  · simpa [hm] using h
  · simp only [hm, if_false]
    simpa [List.nodup_append, hm] using h

lemma keysNodup_addEdgePair (g : AdjList) (e : Vertex × Vertex)
    (h : (keysOf g).Nodup) : (keysOf (addEdgePair g e)).Nodup :=
  keysNodup_dappend _ _ _ (keysNodup_dappend _ _ _ h)

lemma keysNodup_foldl_addEdgePair (L : List (Vertex × Vertex)) (g : AdjList)
    (h : (keysOf g).Nodup) : (keysOf (L.foldl addEdgePair g)).Nodup := by
  induction L generalizing g with
  | nil => exact h
  | cons e rest ih => exact ih _ (keysNodup_addEdgePair _ _ h)

lemma keysNodup_addKeyEmpty (g : AdjList) (u : Vertex)
    (h : (keysOf g).Nodup) : (keysOf (addKeyEmpty g u)).Nodup := by
  rw [keysOf_addKeyEmpty_eq]
  by_cases hm : u ∈ keysOf g
  · simpa [hm] using h
  · simp only [hm, if_false]
    simpa [List.nodup_append, hm] using h

lemma keysNodup_foldl_remove (L : List (Vertex × Vertex)) (g : AdjList)
    (h : (keysOf g).Nodup) : (keysOf (L.foldl removeEdgeStep g)).Nodup := by
  induction L generalizing g with
  | nil => exact h
  | cons e rest ih =>
    apply ih
    simp only [removeEdgeStep, keysOf_eraseNbr_eq]
    exact h

theorem mt_keys_nodup (n : Nat) :
    (keysOf (create_mongolian_tent_graph n)).Nodup := by
  by_cases hn : n = 0
  · subst hn; simp [create_mongolian_tent_graph, keysOf]
  · rw [create_mongolian_tent_graph, if_neg hn]
    apply keysNodup_foldl_addEdgePair
    apply keysNodup_addKeyEmpty
    rw [generate_ladder_graph, if_neg hn]
    apply keysNodup_foldl_addEdgePair
    simp [keysOf]

theorem circ_keys_nodup (n r : Nat) :
    (keysOf (generate_circulant_graph n r)).Nodup := by
  rw [generate_circulant_graph]
  split
  · apply keysNodup_foldl_remove
    apply keysNodup_foldl_addEdgePair
    simp [keysOf]
  · simp [keysOf]

lemma ladder_edge_list_eq (n : Nat) :
    ladder_edge_list n =
      ((List.range' 1 (n - 1)).flatMap fun i => [hEdge 1 i, hEdge 2 i, hEdge 3 i])
        ++ ((List.range' 1 n).flatMap fun i => [vEdge1 i, vEdge2 i]) := rfl

lemma apex_edge_list_eq (n : Nat) :
    apex_edge_list n = (List.range' 1 n).map aEdge := rfl

lemma count_flatMap_three (f g h : Nat → Vertex × Vertex)
    (l : List Nat) (x : Vertex × Vertex) :
    (l.flatMap fun i => [f i, g i, h i]).count x =
      (l.map f).count x + (l.map g).count x + (l.map h).count x := by
  induction l with
  | nil => simp
  | cons a rest ih =>
    simp only [List.flatMap_cons, List.map_cons, List.count_append,
      List.count_cons, List.count_nil, ih]
    omega

lemma count_flatMap_two (f g : Nat → Vertex × Vertex)
    (l : List Nat) (x : Vertex × Vertex) :
    (l.flatMap fun i => [f i, g i]).count x =
      (l.map f).count x + (l.map g).count x := by
  induction l with
  | nil => simp
  | cons a rest ih =>
    simp only [List.flatMap_cons, List.map_cons, List.count_append,
      List.count_cons, List.count_nil, ih]
    omega

lemma undirCount_flatMap_three (f g h : Nat → Vertex × Vertex)
    (l : List Nat) (z w : Vertex) :
    undirCount (l.flatMap fun i => [f i, g i, h i]) z w =
      undirCount (l.map f) z w + undirCount (l.map g) z w +
        undirCount (l.map h) z w := by
  unfold undirCount
  rw [count_flatMap_three f g h l (z, w), count_flatMap_three f g h l (w, z)]
  omega

lemma undirCount_flatMap_two (f g : Nat → Vertex × Vertex)
    (l : List Nat) (z w : Vertex) :
    undirCount (l.flatMap fun i => [f i, g i]) z w =
      undirCount (l.map f) z w + undirCount (l.map g) z w := by
  unfold undirCount
  rw [count_flatMap_two f g l (z, w), count_flatMap_two f g l (w, z)]
  omega

lemma count_map_le_one (F : Nat → Vertex × Vertex)
    (l : List Nat) (hl : l.Nodup)
    (hF : ∀ x ∈ l, ∀ y ∈ l, F x = F y → x = y) (b : Vertex × Vertex) :
    (l.map F).count b ≤ 1 := by
  induction l with
  | nil => simp
  | cons a rest ih =>
    obtain ⟨hna, hnrest⟩ := List.nodup_cons.mp hl
    simp only [List.map_cons, List.count_cons]
    by_cases hb : (F a == b) = true
    · have hbe : b = F a := by
        have := eq_of_beq hb
        exact this.symm
      have hnm : b ∉ rest.map F := by
        intro hm
        obtain ⟨y, hy, hFy⟩ := List.mem_map.mp hm
        have hya : y = a := hF y (List.mem_cons_of_mem _ hy) a
          (List.mem_cons_self _ _) (by rw [hFy, hbe])
        subst hya
        exact hna hy
      rw [List.count_eq_zero_of_not_mem hnm, if_pos hb]
    · rw [if_neg hb, Nat.add_zero]
      exact ih hnrest fun x hx y hy hxy =>
        hF x (List.mem_cons_of_mem _ hx) y (List.mem_cons_of_mem _ hy) hxy

lemma undirCount_map_le_one (F : Nat → Vertex × Vertex) (l : List Nat)
    (hl : l.Nodup) (hF : ∀ x ∈ l, ∀ y ∈ l, F x = F y → x = y)
    (hrev : ∀ x ∈ l, ∀ y ∈ l, F x ≠ ((F y).2, (F y).1)) (z w : Vertex) :
    undirCount (l.map F) z w ≤ 1 := by
  have h1 := count_map_le_one F l hl hF (z, w)
  have h2 := count_map_le_one F l hl hF (w, z)
  by_cases p1 : 0 < (l.map F).count (z, w)
  · by_cases p2 : 0 < (l.map F).count (w, z)
    · exfalso
      obtain ⟨x, hx, hFx⟩ := List.mem_map.mp (List.count_pos_iff.mp p1)
      obtain ⟨y, hy, hFy⟩ := List.mem_map.mp (List.count_pos_iff.mp p2)
      exact hrev x hx y hy (by rw [hFx, hFy])
    · simp only [undirCount]
      omega
  · simp only [undirCount]
    omega

/-- Membership in an undirected pair count: one of the two orientations
occurs in the list. -/
lemma undirCount_pos (E : List (Vertex × Vertex)) (z w : Vertex)
    (h : 0 < undirCount E z w) : (z, w) ∈ E ∨ (w, z) ∈ E := by
  simp only [undirCount] at h
  by_cases h1 : 0 < E.count (z, w)
  · exact Or.inl (List.count_pos_iff.mp h1)
  · exact Or.inr (List.count_pos_iff.mp (by omega))

lemma edgeSig_hEdge (r i : Nat) : edgeSig (hEdge r i) = 10 + r := by
  simp [edgeSig, hEdge]

lemma edgeSig_hEdge_rev (r i : Nat) :
    edgeSig ((hEdge r i).2, (hEdge r i).1) = 20 + r := by
  simp [edgeSig, hEdge]
  omega

lemma edgeSig_vEdge1 (i : Nat) : edgeSig (vEdge1 i) = 31 := by
  simp [edgeSig, vEdge1]

lemma edgeSig_vEdge1_rev (i : Nat) :
    edgeSig ((vEdge1 i).2, (vEdge1 i).1) = 41 := by
  simp [edgeSig, vEdge1]

lemma edgeSig_vEdge2 (i : Nat) : edgeSig (vEdge2 i) = 32 := by
  simp [edgeSig, vEdge2]

lemma edgeSig_vEdge2_rev (i : Nat) :
    edgeSig ((vEdge2 i).2, (vEdge2 i).1) = 42 := by
  simp [edgeSig, vEdge2]

lemma edgeSig_aEdge (i : Nat) : edgeSig (aEdge i) = 50 := rfl

lemma edgeSig_aEdge_rev (i : Nat) :
    edgeSig ((aEdge i).2, (aEdge i).1) = 51 := rfl

lemma sig_of_undirCount_pos (F : Nat → Vertex × Vertex) (l : List Nat)
    (sf sr : Nat) (hf : ∀ i, edgeSig (F i) = sf)
    (hr : ∀ i, edgeSig ((F i).2, (F i).1) = sr) (z w : Vertex)
    (h : 0 < undirCount (l.map F) z w) :
    edgeSig (z, w) = sf ∨ edgeSig (z, w) = sr := by
  rcases undirCount_pos _ _ _ h with hm | hm
  · obtain ⟨i, _, he⟩ := List.mem_map.mp hm
    left
    rw [← he, hf i]
  · obtain ⟨i, _, he⟩ := List.mem_map.mp hm
    right
    have hz : (z, w) = ((F i).2, (F i).1) := by rw [he]
    rw [hz, hr i]

lemma nodup_range1 (s m : Nat) : (List.range' s m).Nodup :=
  List.nodup_range' _ _

lemma undir_hEdge_le_one (r s m : Nat) (z w : Vertex) :
    undirCount ((List.range' s m).map (hEdge r)) z w ≤ 1 := by
  apply undirCount_map_le_one
  · exact nodup_range1 s m
  · intro x _ y _ hxy
    simp only [hEdge, Prod.mk.injEq, Vertex.coord.injEq] at hxy
    omega
  · intro x _ y _ hxy
    simp only [hEdge, Prod.mk.injEq, Vertex.coord.injEq] at hxy
    omega

lemma undir_vEdge1_le_one (s m : Nat) (z w : Vertex) :
    undirCount ((List.range' s m).map vEdge1) z w ≤ 1 := by
  apply undirCount_map_le_one
  · exact nodup_range1 s m
  · intro x _ y _ hxy
    simp only [vEdge1, Prod.mk.injEq, Vertex.coord.injEq] at hxy
    omega
  · intro x _ y _ hxy
    simp only [vEdge1, Prod.mk.injEq, Vertex.coord.injEq] at hxy
    omega

lemma undir_vEdge2_le_one (s m : Nat) (z w : Vertex) :
    undirCount ((List.range' s m).map vEdge2) z w ≤ 1 := by
  apply undirCount_map_le_one
  · exact nodup_range1 s m
  · intro x _ y _ hxy
    simp only [vEdge2, Prod.mk.injEq, Vertex.coord.injEq] at hxy
    omega
  · intro x _ y _ hxy
    simp only [vEdge2, Prod.mk.injEq, Vertex.coord.injEq] at hxy
    omega

lemma undir_aEdge_le_one (s m : Nat) (z w : Vertex) :
    undirCount ((List.range' s m).map aEdge) z w ≤ 1 := by
  apply undirCount_map_le_one
  · exact nodup_range1 s m
  · intro x _ y _ hxy
    simp only [aEdge, Prod.mk.injEq, Vertex.coord.injEq] at hxy
    omega
  · intro x _ y _ hxy
    simp [aEdge, Prod.mk.injEq] at hxy

/-- Every unordered pair occurs at most once among the Mongolian Tent
edges. -/
lemma mt_undir_le_one (n : Nat) (z w : Vertex) :
    undirCount (ladder_edge_list n ++ apex_edge_list n) z w ≤ 1 := by
  rw [ladder_edge_list_eq, apex_edge_list_eq, undirCount_append,
    undirCount_append, undirCount_flatMap_three, undirCount_flatMap_two]
  have hb1 := undir_hEdge_le_one 1 1 (n - 1) z w
  have hb2 := undir_hEdge_le_one 2 1 (n - 1) z w
  have hb3 := undir_hEdge_le_one 3 1 (n - 1) z w
  have hb4 := undir_vEdge1_le_one 1 n z w
  have hb5 := undir_vEdge2_le_one 1 n z w
  have hb6 := undir_aEdge_le_one 1 n z w
  have k1 :
      undirCount ((List.range' 1 (n - 1)).map (hEdge 1)) z w = 0 ∨
        edgeSig (z, w) = 11 ∨ edgeSig (z, w) = 21 := by
    by_cases h : 0 < undirCount ((List.range' 1 (n - 1)).map (hEdge 1)) z w
    · exact Or.inr (sig_of_undirCount_pos _ _ _ _ (edgeSig_hEdge 1)
        (edgeSig_hEdge_rev 1) z w h)
    · exact Or.inl (by omega)
  have k2 :
      undirCount ((List.range' 1 (n - 1)).map (hEdge 2)) z w = 0 ∨
        edgeSig (z, w) = 12 ∨ edgeSig (z, w) = 22 := by
    by_cases h : 0 < undirCount ((List.range' 1 (n - 1)).map (hEdge 2)) z w
    · exact Or.inr (sig_of_undirCount_pos _ _ _ _ (edgeSig_hEdge 2)
        (edgeSig_hEdge_rev 2) z w h)
    · exact Or.inl (by omega)
  have k3 :
      undirCount ((List.range' 1 (n - 1)).map (hEdge 3)) z w = 0 ∨
        edgeSig (z, w) = 13 ∨ edgeSig (z, w) = 23 := by
    by_cases h : 0 < undirCount ((List.range' 1 (n - 1)).map (hEdge 3)) z w
    · exact Or.inr (sig_of_undirCount_pos _ _ _ _ (edgeSig_hEdge 3)
        (edgeSig_hEdge_rev 3) z w h)
    · exact Or.inl (by omega)
  have k4 :
      undirCount ((List.range' 1 n).map vEdge1) z w = 0 ∨
        edgeSig (z, w) = 31 ∨ edgeSig (z, w) = 41 := by
    by_cases h : 0 < undirCount ((List.range' 1 n).map vEdge1) z w
    · exact Or.inr (sig_of_undirCount_pos _ _ _ _ edgeSig_vEdge1
        edgeSig_vEdge1_rev z w h)
    · exact Or.inl (by omega)
  have k5 :
      undirCount ((List.range' 1 n).map vEdge2) z w = 0 ∨
        edgeSig (z, w) = 32 ∨ edgeSig (z, w) = 42 := by
    by_cases h : 0 < undirCount ((List.range' 1 n).map vEdge2) z w
    · exact Or.inr (sig_of_undirCount_pos _ _ _ _ edgeSig_vEdge2
        edgeSig_vEdge2_rev z w h)
    · exact Or.inl (by omega)
  have k6 :
      undirCount ((List.range' 1 n).map aEdge) z w = 0 ∨
        edgeSig (z, w) = 50 ∨ edgeSig (z, w) = 51 := by
    by_cases h : 0 < undirCount ((List.range' 1 n).map aEdge) z w
    · exact Or.inr (sig_of_undirCount_pos _ _ _ _ edgeSig_aEdge
        edgeSig_aEdge_rev z w h)
    · exact Or.inl (by omega)
  omega

lemma ladder_edges_no_apex (n : Nat) (e : Vertex × Vertex)
    (he : e ∈ ladder_edge_list n) :
    e.1 ≠ Vertex.apex ∧ e.2 ≠ Vertex.apex := by
  rw [ladder_edge_list_eq] at he
  rcases List.mem_append.mp he with h | h
  · obtain ⟨i, _, hi⟩ := List.mem_flatMap.mp h
    simp only [List.mem_cons, List.mem_singleton] at hi
    rcases hi with rfl | rfl | rfl | hi
    · simp [hEdge]
    · simp [hEdge]
    · simp [hEdge]
    · simp at hi
  · obtain ⟨i, _, hi⟩ := List.mem_flatMap.mp h
    simp only [List.mem_cons, List.mem_singleton] at hi
    rcases hi with rfl | rfl | hi
    · simp [vEdge1]
    · simp [vEdge2]
    · simp at hi

lemma apex_not_mem_ladder_keys (n : Nat) :
    Vertex.apex ∉ keysOf (generate_ladder_graph n) := by
  intro hmem
  by_cases hn : n = 0
  · subst hn; simp [generate_ladder_graph, keysOf] at hmem
  · rw [generate_ladder_graph, if_neg hn, keys_foldl_addEdgePair_mem] at hmem
    rcases hmem with h | ⟨e, he, h⟩
    · simp [keysOf] at h
    · have := ladder_edges_no_apex n e he
      rcases h with h | h
      · exact this.1 h.symm
      · exact this.2 h.symm

lemma mt_nbrCount_eq (n : Nat) (hn : n ≠ 0) (z w : Vertex) :
    nbrCount (create_mongolian_tent_graph n) z w =
      undirCount (ladder_edge_list n ++ apex_edge_list n) z w := by
  rw [create_mongolian_tent_graph, if_neg hn, nbrCount_foldl_addEdgePair]
  have hstep : nbrCount (addKeyEmpty (generate_ladder_graph n) .apex) z w =
      nbrCount (generate_ladder_graph n) z w := by
    unfold nbrCount
    rw [nbrsOf_addKeyEmpty_fresh _ _ (apex_not_mem_ladder_keys n)]
  rw [hstep, generate_ladder_graph, if_neg hn, nbrCount_foldl_addEdgePair,
    undirCount_append]
  have : nbrCount [] z w = 0 := by simp [nbrCount, nbrsOf, lookupL]
  omega

theorem mt_nbrCount_le_one (n : Nat) (z w : Vertex) :
    nbrCount (create_mongolian_tent_graph n) z w ≤ 1 := by
  by_cases hn : n = 0
  · subst hn; simp [create_mongolian_tent_graph, nbrCount, nbrsOf, lookupL]
  · rw [mt_nbrCount_eq n hn]
    exact mt_undir_le_one n z w

theorem mt_nbrCount_symm (n : Nat) (z w : Vertex) :
    nbrCount (create_mongolian_tent_graph n) z w =
      nbrCount (create_mongolian_tent_graph n) w z := by
  by_cases hn : n = 0
  · subst hn; simp [create_mongolian_tent_graph, nbrCount, nbrsOf, lookupL]
  · rw [mt_nbrCount_eq n hn, mt_nbrCount_eq n hn]
    exact undirCount_symm _ z w

lemma adjSym_of_count_symm (adj : AdjList)
    (h : ∀ z w, nbrCount adj z w = nbrCount adj w z) : AdjSym adj := by
  intro u v hv
  have hpos : 0 < nbrCount adj u v := List.count_pos_iff.mpr hv
  rw [h] at hpos
  exact List.count_pos_iff.mp hpos

theorem mt_adjSym (n : Nat) : AdjSym (create_mongolian_tent_graph n) :=
  adjSym_of_count_symm _ (mt_nbrCount_symm n)

lemma entry_nodup_of_count_le_one (adj : AdjList)
    (hkeys : (keysOf adj).Nodup) (hc : ∀ z w, nbrCount adj z w ≤ 1) :
    ∀ p ∈ adj, (p.2 : List Vertex).Nodup := by
  intro p hp
  obtain ⟨u, ns⟩ := p
  have hl : lookupL adj u = some ns := lookupL_of_mem_nodup adj u ns hkeys hp
  have hns : nbrsOf adj u = ns := by simp [nbrsOf, hl]
  rw [List.nodup_iff_count_le_one]
  intro w
  have := hc u w
  rwa [nbrCount, hns] at this

theorem mt_entry_nodup (n : Nat) :
    ∀ p ∈ create_mongolian_tent_graph n, (p.2 : List Vertex).Nodup :=
  entry_nodup_of_count_le_one _ (mt_keys_nodup n) (mt_nbrCount_le_one n)

/-! ### Circulant graph structure -/

lemma mod_shift_inj (n a s1 s2 : Nat) (h1 : s1 < n) (h2 : s2 < n)
    (h : (a + s1) % n = (a + s2) % n) : s1 = s2 := by
  have hmod : s1 % n = s2 % n := Nat.ModEq.add_left_cancel' a h
  rwa [Nat.mod_eq_of_lt h1, Nat.mod_eq_of_lt h2] at hmod

lemma count_flatMap_zero (f : Nat → List (Vertex × Vertex)) (l : List Nat)
    (x : Vertex × Vertex) (h : ∀ s ∈ l, (f s).count x = 0) :
    (l.flatMap f).count x = 0 := by
  induction l with
  | nil => simp
  | cons s rest ih =>
    simp only [List.flatMap_cons, List.count_append]
    rw [h s (List.mem_cons_self _ _), ih fun t ht =>
      h t (List.mem_cons_of_mem _ ht)]

lemma count_flatMap_le_one_of (f : Nat → List (Vertex × Vertex))
    (l : List Nat) (x : Vertex × Vertex) (hnd : l.Nodup)
    (hone : ∀ s ∈ l, (f s).count x ≤ 1)
    (huniq : ∀ s1 ∈ l, ∀ s2 ∈ l,
      0 < (f s1).count x → 0 < (f s2).count x → s1 = s2) :
    (l.flatMap f).count x ≤ 1 := by
  induction l with
  | nil => simp
  | cons s rest ih =>
    obtain ⟨hns, hnrest⟩ := List.nodup_cons.mp hnd
    simp only [List.flatMap_cons, List.count_append]
    by_cases hpos : 0 < (f s).count x
    · have hz : ((rest.flatMap f).count x) = 0 := by
        apply count_flatMap_zero
        intro t ht
        by_contra hne
        have : 0 < (f t).count x := Nat.pos_of_ne_zero hne
        have hts : t = s := huniq t (List.mem_cons_of_mem _ ht) s
          (List.mem_cons_self _ _) this hpos
        subst hts
        exact hns ht
      rw [hz]
      have := hone s (List.mem_cons_self _ _)
      omega
    · have := ih hnrest
        (fun t ht => hone t (List.mem_cons_of_mem _ ht))
        (fun t1 ht1 t2 ht2 p1 p2 => huniq t1 (List.mem_cons_of_mem _ ht1)
          t2 (List.mem_cons_of_mem _ ht2) p1 p2)
      omega

lemma circulant_build_list_eq (n : Nat) :
    circulant_build_list n =
      (List.range' 1 (n / 2)).flatMap fun s =>
        (List.range n).map (circEdge n s) := rfl

lemma mem_circ_map (n s : Nat) (p : Vertex × Vertex)
    (h : p ∈ (List.range n).map (circEdge n s)) :
    ∃ a, a < n ∧ p = (.node a, .node ((a + s) % n)) := by
  obtain ⟨a, ha, he⟩ := List.mem_map.mp h
  exact ⟨a, List.mem_range.mp ha, he.symm⟩

lemma count_circ_build_le_one (n : Nat) (x : Vertex × Vertex) :
    (circulant_build_list n).count x ≤ 1 := by
  rw [circulant_build_list_eq]
  apply count_flatMap_le_one_of
  · exact nodup_range1 1 (n / 2)
  · intro s _
    apply count_map_le_one _ _ (List.nodup_range n)
    intro i _ j _ hij
    simpa [circEdge, Vertex.node.injEq] using
      congrArg (fun q => q.1) hij
  · intro s1 hs1 s2 hs2 p1 p2
    obtain ⟨a1, ha1, he1⟩ := mem_circ_map n s1 x (List.count_pos_iff.mp p1)
    obtain ⟨a2, ha2, he2⟩ := mem_circ_map n s2 x (List.count_pos_iff.mp p2)
    rw [he1] at he2
    simp only [Prod.mk.injEq, Vertex.node.injEq] at he2
    obtain ⟨haa, hbb⟩ := he2
    subst haa
    have hs1b : s1 < n := by
      have := List.mem_range'_1.mp hs1
      omega
    have hs2b : s2 < n := by
      have := List.mem_range'_1.mp hs2
      omega
    exact mod_shift_inj n a1 s1 s2 hs1b hs2b hbb

lemma circ_nbrCount_eq (n r : Nat) (hval : 6 ≤ n ∧ n ≤ 50 ∧ n % 2 = 0)
    (z w : Vertex) :
    nbrCount (generate_circulant_graph n r) z w =
      undirCount (circulant_build_list n) z w -
        undirCount (circulant_remove_list n) z w := by
  rw [generate_circulant_graph, if_pos hval, nbrCount_foldl_remove,
    nbrCount_foldl_addEdgePair]
  have : nbrCount [] z w = 0 := by simp [nbrCount, nbrsOf, lookupL]
  omega

lemma circ_build_two_remove (n : Nat) (heven : n % 2 = 0) (z w : Vertex)
    (h2 : undirCount (circulant_build_list n) z w = 2) :
    0 < undirCount (circulant_remove_list n) z w := by
  have hle1 := count_circ_build_le_one n (z, w)
  have hle2 := count_circ_build_le_one n (w, z)
  have hc1 : 0 < (circulant_build_list n).count (z, w) := by
    unfold undirCount at h2; omega
  have hc2 : 0 < (circulant_build_list n).count (w, z) := by
    unfold undirCount at h2; omega
  rw [circulant_build_list_eq] at hc1 hc2
  obtain ⟨s1, hs1, hm1⟩ := List.mem_flatMap.mp (List.count_pos_iff.mp hc1)
  obtain ⟨s2, hs2, hm2⟩ := List.mem_flatMap.mp (List.count_pos_iff.mp hc2)
  obtain ⟨a, ha, he1⟩ := mem_circ_map n s1 _ hm1
  obtain ⟨b, hb, he2⟩ := mem_circ_map n s2 _ hm2
  have hz : z = .node a := by
    have := congrArg Prod.fst he1
    simpa using this
  have hw : w = Vertex.node ((a + s1) % n) := by
    have := congrArg Prod.snd he1
    simpa using this
  have hw2 : w = .node b := by
    have := congrArg Prod.fst he2
    simpa using this
  have hz2 : z = Vertex.node ((b + s2) % n) := by
    have := congrArg Prod.snd he2
    simpa using this
  have hbval : b = (a + s1) % n := by
    rw [hw] at hw2
    simpa [Vertex.node.injEq] using hw2.symm
  have haval : a = (b + s2) % n := by
    rw [hz] at hz2
    simpa [Vertex.node.injEq] using hz2
  obtain ⟨hs1lo, hs1hi⟩ :
      1 ≤ s1 ∧ s1 < 1 + n / 2 := List.mem_range'_1.mp hs1
  obtain ⟨hs2lo, hs2hi⟩ :
      1 ≤ s2 ∧ s2 < 1 + n / 2 := List.mem_range'_1.mp hs2
  have h3 : (a + (s1 + s2)) % n = a := by
    have e1 : a + (s1 + s2) = (a + s1) + s2 := by omega
    rw [e1, ← Nat.mod_add_mod, ← hbval, ← haval]
  have h4 : (s1 + s2) % n = 0 := by
    have h5 : (a + 0) % n = (a + (s1 + s2)) % n := by
      rw [Nat.add_zero, h3]
      exact Nat.mod_eq_of_lt ha
    have h6 : 0 % n = (s1 + s2) % n := Nat.ModEq.add_left_cancel' a h5
    rw [Nat.zero_mod] at h6
    exact h6.symm
  have hsum : s1 + s2 = n := by
    rcases Nat.lt_or_ge (s1 + s2) n with hlt | hge
    · rw [Nat.mod_eq_of_lt hlt] at h4
      omega
    · have : s1 + s2 ≤ n := by omega
      omega
  have hs1half : s1 = n / 2 := by omega
  have hmem : (z, w) ∈ circulant_remove_list n := by
    rw [circulant_remove_list]
    apply List.mem_flatMap.mpr
    refine ⟨n / 2, by simp, ?_⟩
    apply List.mem_map.mpr
    refine ⟨a, List.mem_range.mpr ha, ?_⟩
    rw [hz, hw, hs1half]
  have := List.count_pos_iff.mpr hmem
  unfold undirCount
  omega

theorem circ_nbrCount_le_one (n r : Nat) (z w : Vertex) :
    nbrCount (generate_circulant_graph n r) z w ≤ 1 := by
  by_cases hval : 6 ≤ n ∧ n ≤ 50 ∧ n % 2 = 0
  · rw [circ_nbrCount_eq n r hval]
    have hle1 := count_circ_build_le_one n (z, w)
    have hle2 := count_circ_build_le_one n (w, z)
    have hb : undirCount (circulant_build_list n) z w ≤ 2 := by
      unfold undirCount; omega
    by_cases h2 : undirCount (circulant_build_list n) z w = 2
    · have := circ_build_two_remove n hval.2.2 z w h2
      omega
    · omega
  · rw [generate_circulant_graph, if_neg hval]
    simp [nbrCount, nbrsOf, lookupL]

theorem circ_nbrCount_symm (n r : Nat) (z w : Vertex) :
    nbrCount (generate_circulant_graph n r) z w =
      nbrCount (generate_circulant_graph n r) w z := by
  by_cases hval : 6 ≤ n ∧ n ≤ 50 ∧ n % 2 = 0
  · rw [circ_nbrCount_eq n r hval, circ_nbrCount_eq n r hval,
      undirCount_symm, undirCount_symm (circulant_remove_list n)]
  · rw [generate_circulant_graph, if_neg hval]
    simp [nbrCount, nbrsOf, lookupL]

theorem circ_adjSym (n r : Nat) : AdjSym (generate_circulant_graph n r) :=
  adjSym_of_count_symm _ (circ_nbrCount_symm n r)

theorem circ_entry_nodup (n r : Nat) :
    ∀ p ∈ generate_circulant_graph n r, (p.2 : List Vertex).Nodup :=
  entry_nodup_of_count_le_one _ (circ_keys_nodup n r)
    (circ_nbrCount_le_one n r)

lemma ladder_edges_ne (n : Nat) (e : Vertex × Vertex)
    (he : e ∈ ladder_edge_list n) : e.1 ≠ e.2 := by
  rw [ladder_edge_list_eq] at he
  rcases List.mem_append.mp he with h | h
  · obtain ⟨i, _, hi⟩ := List.mem_flatMap.mp h
    simp only [List.mem_cons, List.mem_singleton] at hi
    rcases hi with rfl | rfl | rfl | hi
    · simp [hEdge]
    · simp [hEdge]
    · simp [hEdge]
    · simp at hi
  · obtain ⟨i, _, hi⟩ := List.mem_flatMap.mp h
    simp only [List.mem_cons, List.mem_singleton] at hi
    rcases hi with rfl | rfl | hi
    · simp [vEdge1]
    · simp [vEdge2]
    · simp at hi

lemma apex_edges_ne (n : Nat) (e : Vertex × Vertex)
    (he : e ∈ apex_edge_list n) : e.1 ≠ e.2 := by
  rw [apex_edge_list_eq] at he
  obtain ⟨i, _, hi⟩ := List.mem_map.mp he
  rw [← hi]
  simp [aEdge]

theorem mt_no_self (n : Nat) (z : Vertex) :
    z ∉ nbrsOf (create_mongolian_tent_graph n) z := by
  intro hmem
  have hpos : 0 < nbrCount (create_mongolian_tent_graph n) z z :=
    List.count_pos_iff.mpr hmem
  by_cases hn : n = 0
  · subst hn
    simp [create_mongolian_tent_graph, nbrCount, nbrsOf, lookupL] at hpos
  · rw [mt_nbrCount_eq n hn] at hpos
    have h0 : (ladder_edge_list n ++ apex_edge_list n).count (z, z) = 0 := by
      apply List.count_eq_zero_of_not_mem
      intro hm
      rcases List.mem_append.mp hm with h | h
      · exact ladder_edges_ne n _ h rfl
      · exact apex_edges_ne n _ h rfl
    unfold undirCount at hpos
    rw [h0] at hpos
    simp at hpos

theorem circ_no_self (n r : Nat) (z : Vertex) :
    z ∉ nbrsOf (generate_circulant_graph n r) z := by
  intro hmem
  have hpos : 0 < nbrCount (generate_circulant_graph n r) z z :=
    List.count_pos_iff.mpr hmem
  by_cases hval : 6 ≤ n ∧ n ≤ 50 ∧ n % 2 = 0
  · rw [circ_nbrCount_eq n r hval] at hpos
    have h0 : (circulant_build_list n).count (z, z) = 0 := by
      apply List.count_eq_zero_of_not_mem
      intro hm
      rw [circulant_build_list_eq] at hm
      obtain ⟨s, hs, hmm⟩ := List.mem_flatMap.mp hm
      obtain ⟨a, ha, he⟩ := mem_circ_map n s _ hmm
      have hz1 : z = Vertex.node a := by
        have := congrArg Prod.fst he
        simpa using this
      have hz2 : z = Vertex.node ((a + s) % n) := by
        have := congrArg Prod.snd he
        simpa using this
      rw [hz1] at hz2
      have haa : a = (a + s) % n := by
        simpa [Vertex.node.injEq] using hz2
      obtain ⟨hslo, hshi⟩ : 1 ≤ s ∧ s < 1 + n / 2 := List.mem_range'_1.mp hs
      have hsn : s < n := by omega
      have h5 : (a + 0) % n = (a + s) % n := by
        rw [Nat.add_zero, Nat.mod_eq_of_lt ha]
        exact haa
      have h6 : 0 % n = s % n := Nat.ModEq.add_left_cancel' a h5
      rw [Nat.zero_mod, Nat.mod_eq_of_lt hsn] at h6
      omega
    unfold undirCount at hpos
    rw [h0] at hpos
    simp at hpos
  · rw [generate_circulant_graph, if_neg hval] at hpos
    simp [nbrCount, nbrsOf, lookupL] at hpos

/-! ### Mask pointwise lemmas -/

lemma getD_out_of_range (l : List Bool) (w : Nat) (h : l.length ≤ w) :
    l.getD w false = false := by
  rw [List.getD_eq_getElem?_getD, List.getElem?_eq_none (by omega)]
  rfl

lemma length_markWeights (used : List Bool) (ws : List Nat) :
    (markWeights used ws).length = used.length := by
  induction ws generalizing used with
  | nil => rfl
  | cons w rest ih =>
    simp only [markWeights, List.foldl_cons, setW] at ih ⊢
    rw [ih, List.length_set]

lemma length_unmarkWeights (used : List Bool) (ws : List Nat) :
    (unmarkWeights used ws).length = used.length := by
  induction ws generalizing used with
  | nil => rfl
  | cons w rest ih =>
    simp only [unmarkWeights, List.foldl_cons, setW] at ih ⊢
    rw [ih, List.length_set]

lemma getD_markWeights (used : List Bool) (ws : List Nat) (w : Nat) :
    (markWeights used ws).getD w false =
      (used.getD w false || decide (w ∈ ws ∧ w < used.length)) := by
  induction ws generalizing used with
  | nil => simp [markWeights]
  | cons w2 rest ih =>
    simp only [markWeights, List.foldl_cons] at ih ⊢
    rw [ih (setW used w2 true)]
    simp only [setW, List.length_set]
    by_cases hw2 : w = w2
    · subst hw2
      by_cases hr : w < used.length
      · rw [getD_set_self used w true hr]
        simp [hr]
      · rw [List.set_eq_of_length_le (by omega)]
        simp [hr]
    · rw [getD_set_ne used w2 w true hw2]
      by_cases hm : w ∈ rest <;> by_cases hr : w < used.length <;>
        simp [hm, hr, hw2]

lemma getD_unmarkWeights (used : List Bool) (ws : List Nat) (w : Nat) :
    (unmarkWeights used ws).getD w false =
      (used.getD w false && !decide (w ∈ ws)) := by
  induction ws generalizing used with
  | nil => simp [unmarkWeights]
  | cons w2 rest ih =>
    simp only [unmarkWeights, List.foldl_cons] at ih ⊢
    rw [ih (setW used w2 false)]
    simp only [setW]
    by_cases hw2 : w = w2
    · subst hw2
      by_cases hr : w < used.length
      · rw [getD_set_self used w false hr]
        simp
      · rw [List.set_eq_of_length_le (by omega), getD_out_of_range _ _ (by omega)]
        simp
    · rw [getD_set_ne used w2 w false hw2]
      by_cases hm : w ∈ rest <;> simp [hm, hw2]

lemma getW_markWeights (used : List Bool) (ws : List Nat) (w : Nat) :
    getW (markWeights used ws) w =
      (getW used w || decide (w ∈ ws ∧ w < used.length)) := by
  simp only [getW, length_markWeights, getD_markWeights]
  by_cases hr : w < used.length <;> by_cases hm : w ∈ ws <;>
    simp [hr, hm]

lemma unmark_mark_restore (used : List Bool) (ws : List Nat)
    (h : ∀ w ∈ ws, used.getD w false = false) :
    unmarkWeights (markWeights used ws) ws = used := by
  apply List.ext_getElem
  · rw [length_unmarkWeights, length_markWeights]
  · intro i h1 h2
    have e1 : (unmarkWeights (markWeights used ws) ws).getD i false =
        ((used.getD i false || decide (i ∈ ws ∧ i < used.length)) &&
          !decide (i ∈ ws)) := by
      rw [getD_unmarkWeights, getD_markWeights]
    have e2 : ∀ (l : List Bool) (j : Nat) (hj : j < l.length),
        l.getD j false = l[j] := by
      intro l j hj
      rw [List.getD_eq_getElem?_getD, List.getElem?_eq_getElem hj]
      rfl
    rw [← e2 _ _ h1, ← e2 _ _ h2, e1]
    by_cases hm : i ∈ ws
    · rw [h i hm]
      simp [hm]
    · simp [hm]

lemma btScan_some (labels2 : Labels) (used : List Bool) (label : Nat) :
    ∀ nbrs ws, btScan labels2 used label nbrs = some ws →
      ws = scanWeights labels2 label nbrs ∧ ∀ w ∈ ws, getW used w = false := by
  intro nbrs
  induction nbrs with
  | nil =>
    intro ws h
    simp only [btScan, Option.some.injEq] at h
    subst h
    simp [scanWeights]
  | cons nb rest ih =>
    intro ws h
    cases hnb : lookupL labels2 nb with
    | none =>
      simp only [btScan, hnb] at h
      obtain ⟨h1, h2⟩ := ih ws h
      refine ⟨?_, h2⟩
      rw [h1]
      simp [scanWeights, hnb]
    | some bl =>
      simp only [btScan, hnb] at h
      by_cases hg : getW used (label + bl) = true
      · rw [if_pos hg] at h
        exact absurd h (by simp)
      · rw [if_neg hg] at h
        cases hrec : btScan labels2 used label rest with
        | none => rw [hrec] at h; exact absurd h (by simp)
        | some ws2 =>
          rw [hrec] at h
          obtain ⟨h1, h2⟩ := ih ws2 hrec
          simp only [Option.map_some', Option.some.injEq] at h
          subst h
          constructor
          · rw [h1]
            simp [scanWeights, hnb]
          · intro w hw
            rcases List.mem_cons.mp hw with rfl | hw2
            · simpa using hg
            · exact h2 w hw2

lemma btScan_none (labels2 : Labels) (used : List Bool) (label : Nat) :
    ∀ nbrs, btScan labels2 used label nbrs = none →
      ∃ w ∈ scanWeights labels2 label nbrs, getW used w = true := by
  intro nbrs
  induction nbrs with
  | nil => intro h; simp [btScan] at h
  | cons nb rest ih =>
    intro h
    cases hnb : lookupL labels2 nb with
    | none =>
      simp only [btScan, hnb] at h
      obtain ⟨w, hw1, hw2⟩ := ih h
      refine ⟨w, ?_, hw2⟩
      simp only [scanWeights] at hw1 ⊢
      rw [List.filterMap_cons, hnb]
      exact hw1
    | some bl =>
      simp only [btScan, hnb] at h
      by_cases hg : getW used (label + bl) = true
      · refine ⟨label + bl, ?_, hg⟩
        simp only [scanWeights]
        rw [List.filterMap_cons, hnb]
        simp
      · rw [if_neg hg] at h
        cases hrec : btScan labels2 used label rest with
        | none =>
          obtain ⟨w, hw1, hw2⟩ := ih hrec
          refine ⟨w, ?_, hw2⟩
          simp only [scanWeights] at hw1 ⊢
          rw [List.filterMap_cons, hnb]
          exact List.mem_cons_of_mem _ hw1
        | some ws2 => rw [hrec] at h; simp at h

lemma btScan_complete (labels2 : Labels) (used : List Bool) (label : Nat) :
    ∀ nbrs, (∀ w ∈ scanWeights labels2 label nbrs, getW used w = false) →
      btScan labels2 used label nbrs =
        some (scanWeights labels2 label nbrs) := by
  intro nbrs
  induction nbrs with
  | nil => intro h; simp [btScan, scanWeights]
  | cons nb rest ih =>
    intro h
    cases hnb : lookupL labels2 nb with
    | none =>
      have hsw : scanWeights labels2 label (nb :: rest) =
          scanWeights labels2 label rest := by
        simp [scanWeights, hnb]
      rw [hsw] at h ⊢
      simp only [btScan, hnb]
      exact ih h
    | some bl =>
      have hsw : scanWeights labels2 label (nb :: rest) =
          (label + bl) :: scanWeights labels2 label rest := by
        simp [scanWeights, hnb]
      rw [hsw] at h ⊢
      have hhd : getW used (label + bl) = false := h _ (List.mem_cons_self _ _)
      simp only [btScan, hnb, hhd]
      simp only [Bool.false_eq_true, if_false]
      rw [ih (fun w hw => h w (List.mem_cons_of_mem _ hw))]
      rfl

lemma insertL_insertL {α : Type} (d : List (Vertex × α)) (v : Vertex)
    (a b : α) : insertL (insertL d v a) v b = insertL d v b := by
  induction d with
  | nil => simp [insertL]
  | cons hd tl ih =>
    obtain ⟨u, c⟩ := hd
    by_cases h : v = u
    · subst h; simp [insertL]
    · simp [insertL, h, ih]

lemma labelsRange_insert (labels : Labels) (k : Nat) (v : Vertex) (l : Nat)
    (hrange : LabelsRange k labels) (h1 : 1 ≤ l) (h2 : l ≤ k) :
    LabelsRange k (insertL labels v l) := by
  intro u a ha
  by_cases hu : u = v
  · subst hu
    rw [lookupL_insertL_self] at ha
    obtain rfl := (Option.some.injEq _ _).mp ha
    exact ⟨h1, h2⟩
  · exact hrange u a (by rwa [lookupL_insertL_ne _ _ _ _ hu] at ha)

lemma agreesUpto_insert (E labels : Labels) (v : Vertex) (l : Nat)
    (h : agreesUpto E labels) (hE : lookupL E v = some l) :
    agreesUpto E (insertL labels v l) := by
  intro u a ha
  by_cases hu : u = v
  · subst hu
    rw [lookupL_insertL_self] at ha
    obtain rfl := (Option.some.injEq _ _).mp ha
    exact hE
  · exact h u a (by rwa [lookupL_insertL_ne _ _ _ _ hu] at ha)

lemma validLabeling_mono (adj : AdjList) (E labels : Labels)
    (hE : ValidLabeling adj E) (h : agreesUpto E labels) :
    ValidLabeling adj labels := by
  intro u v u2 v2 a b a2 b2 hv hv2 hlt hlt2 hla hlb hla2 hlb2 hne
  exact hE u v u2 v2 a b a2 b2 hv hv2 hlt hlt2
    (h u a hla) (h v b hlb) (h u2 a2 hla2) (h v2 b2 hlb2) hne

lemma realized_ne_unlabeled (adj : AdjList) (labels : Labels)
    (p : Vertex × Vertex) (v : Vertex) (hv : lookupL labels v = none)
    (h : RealizedPair adj labels p) : p.1 ≠ v ∧ p.2 ≠ v := by
  obtain ⟨_, _, h3, h4⟩ := h
  constructor
  · intro he; rw [he, hv] at h3; simp at h3
  · intro he; rw [he, hv] at h4; simp at h4

lemma pairWeight_insert_of_old (labels : Labels) (v : Vertex) (l : Nat)
    (p : Vertex × Vertex) (h1 : p.1 ≠ v) (h2 : p.2 ≠ v) :
    pairWeight (insertL labels v l) p = pairWeight labels p := by
  rw [pairWeight, pairWeight, lookupL_insertL_ne _ _ _ _ h1,
    lookupL_insertL_ne _ _ _ _ h2]

lemma realized_insert_iff (adj : AdjList) (labels : Labels) (v : Vertex)
    (l : Nat) (hv : lookupL labels v = none) (p : Vertex × Vertex) :
    RealizedPair adj (insertL labels v l) p ↔
      RealizedPair adj labels p
      ∨ (p.1 = v ∧ p.2 ≠ v ∧ p.2 ∈ nbrsOf adj v ∧ vLt v p.2 = true ∧
          (lookupL labels p.2).isSome = true)
      ∨ (p.2 = v ∧ p.1 ≠ v ∧ v ∈ nbrsOf adj p.1 ∧ vLt p.1 v = true ∧
          (lookupL labels p.1).isSome = true) := by
  obtain ⟨x, y⟩ := p
  simp only [RealizedPair]
  constructor
  · rintro ⟨hadj, hlt, hx, hy⟩
    by_cases hxv : x = v
    · subst hxv
      by_cases hyv : y = x
      · subst hyv
        rw [vLt_irrefl] at hlt
        exact absurd hlt (by simp)
      · rw [lookupL_insertL_ne _ _ _ _ hyv] at hy
        exact Or.inr (Or.inl ⟨rfl, hyv, hadj, hlt, hy⟩)
    · rw [lookupL_insertL_ne _ _ _ _ hxv] at hx
      by_cases hyv : y = v
      · subst hyv
        exact Or.inr (Or.inr ⟨rfl, hxv, hadj, hlt, hx⟩)
      · rw [lookupL_insertL_ne _ _ _ _ hyv] at hy
        exact Or.inl ⟨hadj, hlt, hx, hy⟩
  · rintro (⟨hadj, hlt, hx, hy⟩ | ⟨hx, hyne, hadj, hlt, hy⟩ |
      ⟨hy, hxne, hadj, hlt, hx⟩)
    · obtain ⟨hx2, hy2⟩ := realized_ne_unlabeled adj labels (x, y) v hv
        ⟨hadj, hlt, hx, hy⟩
      rw [lookupL_insertL_ne _ _ _ _ hx2, lookupL_insertL_ne _ _ _ _ hy2]
      exact ⟨hadj, hlt, hx, hy⟩
    · subst hx
      rw [lookupL_insertL_self, lookupL_insertL_ne _ _ _ _ hyne]
      exact ⟨hadj, hlt, by simp, hy⟩
    · subst hy
      rw [lookupL_insertL_self, lookupL_insertL_ne _ _ _ _ hxne]
      exact ⟨hadj, hlt, hx, by simp⟩

lemma new_pair_weight_mem (adj : AdjList) (labels : Labels) (v : Vertex)
    (l : Nat) (hsym : AdjSym adj) (p : Vertex × Vertex)
    (hnew : (p.1 = v ∧ p.2 ≠ v ∧ p.2 ∈ nbrsOf adj v ∧ vLt v p.2 = true ∧
        (lookupL labels p.2).isSome = true)
      ∨ (p.2 = v ∧ p.1 ≠ v ∧ v ∈ nbrsOf adj p.1 ∧ vLt p.1 v = true ∧
        (lookupL labels p.1).isSome = true)) :
    pairWeight (insertL labels v l) p ∈
      scanWeights (insertL labels v l) l (nbrsOf adj v) := by
  obtain ⟨x, y⟩ := p
  rcases hnew with ⟨hx, hyne, hadj, _, hy⟩ | ⟨hy, hxne, hadj, _, hx⟩
  · subst hx
    simp only at hyne hadj hy ⊢
    obtain ⟨b, hb⟩ := Option.isSome_iff_exists.mp hy
    have hw : pairWeight (insertL labels x l) (x, y) = l + b := by
      rw [pairWeight]
      simp [lookupL_insertL_self, lookupL_insertL_ne _ _ _ _ hyne, hb]
    rw [hw, scanWeights, List.mem_filterMap]
    exact ⟨y, hadj, by simp [lookupL_insertL_ne _ _ _ _ hyne, hb]⟩
  · subst hy
    simp only at hxne hadj hx ⊢
    obtain ⟨b, hb⟩ := Option.isSome_iff_exists.mp hx
    have hw : pairWeight (insertL labels y l) (x, y) = l + b := by
      rw [pairWeight]
      simp [lookupL_insertL_self, lookupL_insertL_ne _ _ _ _ hxne, hb]
      omega
    rw [hw, scanWeights, List.mem_filterMap]
    exact ⟨x, hsym x y hadj, by simp [lookupL_insertL_ne _ _ _ _ hxne, hb]⟩

lemma scan_weight_realized (adj : AdjList) (labels : Labels) (v : Vertex)
    (l : Nat) (hsym : AdjSym adj) (hself : v ∉ nbrsOf adj v) (w : Nat)
    (hw : w ∈ scanWeights (insertL labels v l) l (nbrsOf adj v)) :
    ∃ p, (p.1 = v ∨ p.2 = v) ∧ RealizedPair adj (insertL labels v l) p ∧
      pairWeight (insertL labels v l) p = w := by
  rw [scanWeights, List.mem_filterMap] at hw
  obtain ⟨u, hu, hmap⟩ := hw
  have hune : u ≠ v := fun he => hself (he ▸ hu)
  cases hlu : lookupL (insertL labels v l) u with
  | none => rw [hlu] at hmap; simp at hmap
  | some b =>
    rw [hlu] at hmap
    simp only [Option.map_some', Option.some.injEq] at hmap
    by_cases h1 : vLt v u = true
    · refine ⟨(v, u), Or.inl rfl, ⟨hu, h1, ?_, ?_⟩, ?_⟩
      · simp [lookupL_insertL_self]
      · simp [hlu]
      · rw [pairWeight, lookupL_insertL_self, hlu]
        simpa using hmap
    · by_cases h2 : vLt u v = true
      · refine ⟨(u, v), Or.inr rfl, ⟨hsym v u hu, h2, ?_, ?_⟩, ?_⟩
        · simp [hlu]
        · simp [lookupL_insertL_self]
        · rw [pairWeight, lookupL_insertL_self, hlu]
          simp only [Option.getD_some]
          omega
      · exact absurd (vLt_trichotomy u v (by simpa using h2) (by simpa using h1))
          hune

lemma scanWeights_le (labels : Labels) (v : Vertex) (l k : Nat)
    (nbrs : List Vertex) (hrange : LabelsRange k labels) (hl : l ≤ k) :
    ∀ w ∈ scanWeights (insertL labels v l) l nbrs, w ≤ 2 * k := by
  intro w hw
  rw [scanWeights, List.mem_filterMap] at hw
  obtain ⟨u, _, hmap⟩ := hw
  cases hlu : lookupL (insertL labels v l) u with
  | none => rw [hlu] at hmap; simp at hmap
  | some b =>
    rw [hlu] at hmap
    simp only [Option.map_some', Option.some.injEq] at hmap
    have hb : b ≤ k := by
      by_cases hu : u = v
      · subst hu
        rw [lookupL_insertL_self] at hlu
        obtain rfl := (Option.some.injEq _ _).mp hlu
        exact hl
      · rw [lookupL_insertL_ne _ _ _ _ hu] at hlu
        exact (hrange u b hlu).2
    omega

lemma trackerOK_commit (adj : AdjList) (labels : Labels) (used : List Bool)
    (k : Nat) (v : Vertex) (l : Nat) (ws : List Nat)
    (hsym : AdjSym adj) (hself : v ∉ nbrsOf adj v)
    (hv : lookupL labels v = none)
    (hlen : used.length = 2 * k + 1)
    (hrange : LabelsRange k labels) (hlk : l ≤ k)
    (hOK : trackerOK adj labels used)
    (hscan : btScan (insertL labels v l) used l (nbrsOf adj v) = some ws) :
    trackerOK adj (insertL labels v l) (markWeights used ws) := by
  obtain ⟨hws, _⟩ := btScan_some _ _ _ _ _ hscan
  intro w
  rw [getW_markWeights]
  constructor
  · intro h
    rcases Bool.or_eq_true_iff.mp h with h1 | h1
    · obtain ⟨p, hp, hpw⟩ := (hOK w).mp h1
      obtain ⟨h2, h3⟩ := realized_ne_unlabeled adj labels p v hv hp
      exact ⟨p, (realized_insert_iff adj labels v l hv p).mpr (Or.inl hp),
        by rw [pairWeight_insert_of_old _ _ _ _ h2 h3]; exact hpw⟩
    · have hmem : w ∈ ws := (And.left (by simpa using h1))
      rw [hws] at hmem
      obtain ⟨p, _, hp1, hp2⟩ :=
        scan_weight_realized adj labels v l hsym hself w hmem
      exact ⟨p, hp1, hp2⟩
  · rintro ⟨p, hp, hpw⟩
    rcases (realized_insert_iff adj labels v l hv p).mp hp with h1 | h1
    · obtain ⟨h2, h3⟩ := realized_ne_unlabeled adj labels p v hv h1
      rw [pairWeight_insert_of_old _ _ _ _ h2 h3] at hpw
      have : getW used w = true := (hOK w).mpr ⟨p, h1, hpw⟩
      simp [this]
    · have hmem : pairWeight (insertL labels v l) p ∈
          scanWeights (insertL labels v l) l (nbrsOf adj v) :=
        new_pair_weight_mem adj labels v l hsym p h1
      rw [hpw, ← hws] at hmem
      have hle : w ≤ 2 * k := by
        rw [← hpw]
        exact scanWeights_le labels v l k (nbrsOf adj v) hrange hlk _
          (by rw [← hws]; exact (hpw ▸ hmem))
      have : decide (w ∈ ws ∧ w < used.length) = true := by
        rw [decide_eq_true_iff]
        exact ⟨hmem, by omega⟩
      simp [this]

lemma trackerOK_init (adj : AdjList) (len : Nat) :
    trackerOK adj [] (init_used_weights len) := by
  intro w
  rw [getW_init]
  constructor
  · intro h; simp at h
  · rintro ⟨p, ⟨_, _, h3, _⟩, _⟩
    simp [lookupL] at h3

lemma getD_false_of_getW_false (used : List Bool) (w : Nat)
    (h : getW used w = false) : used.getD w false = false := by
  rw [getW] at h
  by_cases hr : w < used.length
  · simpa [hr] using h
  · exact getD_out_of_range used w (by omega)

lemma btLabelLoop_some (adj : AdjList) (v : Vertex)
    (child : Labels → List Bool → Option Labels) (labels : Labels) :
    ∀ cands labels0 used0 L,
      (∀ x, insertL labels0 v x = insertL labels v x) →
      btLabelLoop adj v child cands labels0 used0 = some L →
      ∃ l, l ∈ cands ∧ ∃ used2, child (insertL labels v l) used2 = some L := by
  intro cands
  induction cands with
  | nil =>
    intro labels0 used0 L hcol h
    simp [btLabelLoop] at h
  | cons label cs ih =>
    intro labels0 used0 L hcol h
    have hcol2 : ∀ x, insertL (insertL labels0 v label) v x =
        insertL labels v x := by
      intro x
      rw [insertL_insertL, hcol]
    cases hscan : btScan (insertL labels0 v label) used0 label (nbrsOf adj v)
      with
    | none =>
      simp only [btLabelLoop, hscan] at h
      obtain ⟨l, hl, hrest⟩ := ih _ _ _ hcol2 h
      exact ⟨l, List.mem_cons_of_mem _ hl, hrest⟩
    | some ws =>
      simp only [btLabelLoop, hscan] at h
      cases hchild : child (insertL labels0 v label) (markWeights used0 ws)
        with
      | some r =>
        rw [hchild] at h
        obtain rfl := (Option.some.injEq _ _).mp h
        rw [hcol] at hchild
        exact ⟨label, List.mem_cons_self _ _, markWeights used0 ws, hchild⟩
      | none =>
        rw [hchild] at h
        obtain ⟨l, hl, hrest⟩ := ih _ _ _ hcol2 h
        exact ⟨l, List.mem_cons_of_mem _ hl, hrest⟩

/-- Soundness of the generic backtracker: a returned labeling passes the
validity checker, its domain extends the entry labeling by exactly the
processed vertices, and every newly assigned label lies in `{1, ..., k}`. -/
lemma backtrack_sound (adj : AdjList) (k : Nat) :
    ∀ rem labels used L,
      backtrack_k_labeling_generic adj k labels rem used = some L →
      is_labeling_valid adj L = true ∧
      (∀ u, (lookupL L u).isSome = true ↔
        u ∈ rem ∨ (lookupL labels u).isSome = true) ∧
      (∀ u a, lookupL L u = some a →
        lookupL labels u = some a ∨ (u ∈ rem ∧ 1 ≤ a ∧ a ≤ k)) := by
  intro rem
  induction rem with
  | nil =>
    intro labels used L h
    rw [backtrack_k_labeling_generic] at h
    by_cases hval : is_labeling_valid adj labels = true
    · rw [if_pos hval] at h
      obtain rfl := (Option.some.injEq _ _).mp h
      refine ⟨hval, fun u => by simp, fun u a ha => Or.inl ha⟩
    · rw [if_neg hval] at h
      exact absurd h (by simp)
  | cons v rest ih =>
    intro labels used L h
    rw [backtrack_k_labeling_generic] at h
    obtain ⟨l, hl, used2, hchild⟩ :=
      btLabelLoop_some adj v _ labels _ labels used L (fun x => rfl) h
    obtain ⟨hlo, hhi⟩ := List.mem_range'_1.mp hl
    obtain ⟨h1, h2, h3⟩ := ih (insertL labels v l) used2 L hchild
    refine ⟨h1, ?_, ?_⟩
    · intro u
      rw [h2 u]
      by_cases hu : u = v
      · subst hu
        simp [lookupL_insertL_self]
      · rw [lookupL_insertL_ne _ _ _ _ hu]
        simp only [List.mem_cons]
        tauto
    · intro u a ha
      rcases h3 u a ha with hcase | ⟨hmem, hbnd⟩
      · by_cases hu : u = v
        · subst hu
          rw [lookupL_insertL_self] at hcase
          obtain rfl := (Option.some.injEq _ _).mp hcase
          exact Or.inr ⟨List.mem_cons_self _ _, hlo, by omega⟩
        · rw [lookupL_insertL_ne _ _ _ _ hu] at hcase
          exact Or.inl hcase
      · exact Or.inr ⟨List.mem_cons_of_mem _ hmem, hbnd⟩

lemma validLabeling_realized_distinct (adj : AdjList) (labels : Labels)
    (h : ValidLabeling adj labels) :
    ∀ p q, RealizedPair adj labels p → RealizedPair adj labels q → p ≠ q →
      pairWeight labels p ≠ pairWeight labels q := by
  rintro ⟨u, v⟩ ⟨u2, v2⟩ ⟨h1, h2, h3, h4⟩ ⟨g1, g2, g3, g4⟩ hne
  obtain ⟨a, ha⟩ := Option.isSome_iff_exists.mp h3
  obtain ⟨b, hb⟩ := Option.isSome_iff_exists.mp h4
  obtain ⟨a2, ha2⟩ := Option.isSome_iff_exists.mp g3
  obtain ⟨b2, hb2⟩ := Option.isSome_iff_exists.mp g4
  have := h u v u2 v2 a b a2 b2 h1 g1 h2 g2 ha hb ha2 hb2 hne
  rw [pairWeight, pairWeight, ha, hb, ha2, hb2]
  simpa using this

lemma btLabelLoop_complete (adj : AdjList) (v : Vertex)
    (child : Labels → List Bool → Option Labels)
    (labels : Labels) (used : List Bool) (lv : Nat)
    (hsym : AdjSym adj) (hself : v ∉ nbrsOf adj v)
    (hv : lookupL labels v = none)
    (htr : trackerOK adj labels used)
    (hgood : ∀ p q, RealizedPair adj (insertL labels v lv) p →
        RealizedPair adj (insertL labels v lv) q → p ≠ q →
        pairWeight (insertL labels v lv) p ≠
          pairWeight (insertL labels v lv) q)
    (hchild : ∀ ws,
        btScan (insertL labels v lv) used lv (nbrsOf adj v) = some ws →
        child (insertL labels v lv) (markWeights used ws) ≠ none) :
    ∀ cands labels0,
      (∀ x, insertL labels0 v x = insertL labels v x) →
      lv ∈ cands →
      btLabelLoop adj v child cands labels0 used ≠ none := by
  intro cands
  induction cands with
  | nil => intro labels0 _ hmem; simp at hmem
  | cons label cs ih =>
    intro labels0 hcol hmem hnone
    have hcol2 : ∀ x, insertL (insertL labels0 v label) v x =
        insertL labels v x := by
      intro x
      rw [insertL_insertL, hcol]
    by_cases heq : label = lv
    · subst heq
      cases hscan : btScan (insertL labels0 v label) used label (nbrsOf adj v)
        with
      | none =>
        rw [hcol] at hscan
        obtain ⟨w, hwmem, hwused⟩ := btScan_none _ _ _ _ hscan
        obtain ⟨p, hpOld, hpw⟩ := (htr w).mp hwused
        obtain ⟨hp1, hp2⟩ := realized_ne_unlabeled adj labels p v hv hpOld
        obtain ⟨q, hqv, hq, hqw⟩ :=
          scan_weight_realized adj labels v label hsym hself w hwmem
        have hpnew : RealizedPair adj (insertL labels v label) p :=
          (realized_insert_iff adj labels v label hv p).mpr (Or.inl hpOld)
        have hpw2 : pairWeight (insertL labels v label) p = w := by
          rw [pairWeight_insert_of_old _ _ _ _ hp1 hp2]
          exact hpw
        have hpq : p ≠ q := by
          intro he
          subst he
          rcases hqv with h | h
          · exact hp1 h
          · exact hp2 h
        exact hgood p q hpnew hq hpq (by rw [hpw2, hqw])
      | some ws =>
        simp only [btLabelLoop, hscan] at hnone
        rw [hcol] at hscan
        cases hchild2 : child (insertL labels0 v label) (markWeights used ws)
          with
        | some r => rw [hchild2] at hnone; simp at hnone
        | none =>
          rw [hcol] at hchild2
          exact hchild ws hscan hchild2
    · have hmem2 : lv ∈ cs := by
        rcases List.mem_cons.mp hmem with h | h
        · exact absurd h.symm heq
        · exact h
      cases hscan : btScan (insertL labels0 v label) used label (nbrsOf adj v)
        with
      | none =>
        simp only [btLabelLoop, hscan] at hnone
        exact ih _ hcol2 hmem2 hnone
      | some ws =>
        simp only [btLabelLoop, hscan] at hnone
        cases hchild2 : child (insertL labels0 v label) (markWeights used ws)
          with
        | some r => rw [hchild2] at hnone; simp at hnone
        | none =>
          rw [hchild2] at hnone
          obtain ⟨_, hfree⟩ := btScan_some _ _ _ _ _ hscan
          have hrestore :
              unmarkWeights (markWeights used ws) ws = used :=
            unmark_mark_restore used ws
              (fun w hw => getD_false_of_getW_false used w (hfree w hw))
          rw [hrestore] at hnone
          exact ih _ hcol2 hmem2 hnone

/-- Completeness of the generic backtracker: if the entry state is consistent
and some total valid assignment `E` within `{1, ..., k}` extends it, the
search does not fail. -/
lemma backtrack_complete (adj : AdjList) (k : Nat)
    (hsym : AdjSym adj) (hself : ∀ u, u ∉ nbrsOf adj u)
    (hkeys : (keysOf adj).Nodup)
    (hentry : ∀ p ∈ adj, (p.2 : List Vertex).Nodup)
    (E : Labels) (hEvalid : ValidLabeling adj E) :
    ∀ rem labels used,
      used.length = 2 * k + 1 →
      trackerOK adj labels used →
      LabelsRange k labels →
      agreesUpto E labels →
      (∀ u ∈ rem, lookupL labels u = none) →
      rem.Nodup →
      (∀ u ∈ rem, ∃ a, lookupL E u = some a ∧ 1 ≤ a ∧ a ≤ k) →
      backtrack_k_labeling_generic adj k labels rem used ≠ none := by
  intro rem
  induction rem with
  | nil =>
    intro labels used _ _ _ hagree _ _ _
    rw [backtrack_k_labeling_generic]
    have hval : is_labeling_valid adj labels = true :=
      checker_of_validLabeling adj labels hkeys hentry
        (validLabeling_mono adj E labels hEvalid hagree)
    rw [if_pos hval]
    simp
  | cons v rest ih =>
    intro labels used hlen htr hrange hagree hunl hnd hremE
    rw [backtrack_k_labeling_generic]
    obtain ⟨lv, hEv, hlv1, hlvk⟩ := hremE v (List.mem_cons_self _ _)
    have hv : lookupL labels v = none := hunl v (List.mem_cons_self _ _)
    have hagree2 : agreesUpto E (insertL labels v lv) :=
      agreesUpto_insert E labels v lv hagree hEv
    have hgood :=
      validLabeling_realized_distinct adj (insertL labels v lv)
        (validLabeling_mono adj E _ hEvalid hagree2)
    apply btLabelLoop_complete adj v _ labels used lv hsym (hself v) hv htr
      hgood ?_ (List.range' 1 k) labels (fun x => rfl)
      (List.mem_range'_1.mpr ⟨hlv1, by omega⟩)
    intro ws hscan
    apply ih (insertL labels v lv) (markWeights used ws)
    · rw [length_markWeights, hlen]
    · exact trackerOK_commit adj labels used k v lv ws hsym (hself v) hv hlen
        hrange hlvk htr hscan
    · exact labelsRange_insert labels k v lv hrange hlv1 hlvk
    · exact hagree2
    · intro u hu
      have hune : u ≠ v := by
        intro he
        subst he
        exact (List.nodup_cons.mp hnd).1 hu
      rw [lookupL_insertL_ne _ _ _ _ hune]
      exact hunl u (List.mem_cons_of_mem _ hu)
    · exact (List.nodup_cons.mp hnd).2
    · intro u hu
      exact hremE u (List.mem_cons_of_mem _ hu)

lemma feasibleK_mono_set (adj : AdjList) (vs vs2 : List Vertex) (k : Nat)
    (hsub : ∀ v ∈ vs2, v ∈ vs) (h : FeasibleK adj vs k) :
    FeasibleK adj vs2 k := by
  obtain ⟨E, h1, h2⟩ := h
  exact ⟨E, h1, fun v hv => h2 v (hsub v hv)⟩

/-- A root call of the backtracker succeeds exactly when a valid complete
in-range labeling exists (on a symmetric, loop-free, duplicate-free
adjacency structure). -/
lemma backtrack_root_iff_feasible (adj : AdjList) (k : Nat)
    (vs : List Vertex)
    (hsym : AdjSym adj) (hself : ∀ u, u ∉ nbrsOf adj u)
    (hkeys : (keysOf adj).Nodup)
    (hentry : ∀ p ∈ adj, (p.2 : List Vertex).Nodup)
    (hnd : vs.Nodup) :
    backtrack_k_labeling_generic adj k [] vs
        (init_used_weights (2 * k + 1)) ≠ none ↔
      FeasibleK adj vs k := by
  constructor
  · intro h
    cases hres : backtrack_k_labeling_generic adj k [] vs
        (init_used_weights (2 * k + 1)) with
    | none => exact absurd hres h
    | some L =>
      obtain ⟨h1, h2, h3⟩ := backtrack_sound adj k vs [] _ L hres
      refine ⟨L, validLabeling_of_checker adj L h1, ?_⟩
      intro v hv
      have hsome : (lookupL L v).isSome = true :=
        (h2 v).mpr (Or.inl hv)
      obtain ⟨a, ha⟩ := Option.isSome_iff_exists.mp hsome
      rcases h3 v a ha with hc | ⟨_, hb1, hb2⟩
      · simp [lookupL] at hc
      · exact ⟨a, ha, hb1, hb2⟩
  · intro h
    obtain ⟨E, hEvalid, hErange⟩ := h
    apply backtrack_complete adj k hsym hself hkeys hentry E hEvalid vs [] _
    · simp [init_used_weights]
    · exact trackerOK_init adj _
    · intro v a hva; simp [lookupL] at hva
    · intro v a hva; simp [lookupL] at hva
    · intro u _; simp [lookupL]
    · exact hnd
    · exact hErange

/-- The increasing-k loop returns the first `k` at or above its entry value
for which the backtracking search succeeds, together with that search's
labeling. -/
lemma find_optimal_loop_some (adj : AdjList) (vs : List Vertex) :
    ∀ fuel k0 k L, find_optimal_loop adj vs k0 fuel = some (k, L) →
      k0 ≤ k ∧
      backtrack_k_labeling_generic adj k [] vs
        (init_used_weights (2 * k + 1)) = some L ∧
      ∀ k2, k0 ≤ k2 → k2 < k →
        backtrack_k_labeling_generic adj k2 [] vs
          (init_used_weights (2 * k2 + 1)) = none := by
  intro fuel
  induction fuel with
  | zero => intro k0 k L h; simp [find_optimal_loop] at h
  | succ fuel2 ih =>
    intro k0 k L h
    rw [find_optimal_loop] at h
    cases hres : backtrack_k_labeling_generic adj k0 [] vs
        (init_used_weights (2 * k0 + 1)) with
    | some lab =>
      simp only [hres] at h
      have hval : is_labeling_valid adj lab = true :=
        (backtrack_sound adj k0 vs [] _ lab hres).1
      rw [if_pos hval] at h
      obtain ⟨rfl, rfl⟩ := Prod.mk.injEq _ _ _ _ ▸
        (Option.some.injEq _ _).mp h
      refine ⟨Nat.le_refl _, hres, ?_⟩
      intro k2 h1 h2
      omega
    | none =>
      simp only [hres] at h
      obtain ⟨h1, h2, h3⟩ := ih (k0 + 1) k L h
      refine ⟨by omega, h2, ?_⟩
      intro k2 hk1 hk2
      by_cases hk0 : k2 = k0
      · subst hk0; exact hres
      · exact h3 k2 (by omega) hk2

lemma btLabelLoopTrace_invariant (adj : AdjList) (v : Vertex) (k : Nat)
    (rest : List Vertex)
    (child : Labels → List Bool → Option Labels × List (Labels × List Bool))
    (labels : Labels) (used : List Bool)
    (hsym : AdjSym adj) (hself : v ∉ nbrsOf adj v)
    (hv : lookupL labels v = none)
    (hlen : used.length = 2 * k + 1)
    (htr : trackerOK adj labels used)
    (hrange : LabelsRange k labels)
    (hrest : ∀ u ∈ rest, lookupL labels u = none)
    (hvrest : v ∉ rest)
    (hchild : ∀ l2 u2, u2.length = 2 * k + 1 → trackerOK adj l2 u2 →
        LabelsRange k l2 → (∀ u ∈ rest, lookupL l2 u = none) →
        ∀ s ∈ (child l2 u2).2, trackerOK adj s.1 s.2) :
    ∀ cands labels0,
      (∀ x, insertL labels0 v x = insertL labels v x) →
      (∀ l ∈ cands, 1 ≤ l ∧ l ≤ k) →
      ∀ s ∈ (btLabelLoopTrace adj v child cands labels0 used).2,
        trackerOK adj s.1 s.2 := by
  intro cands
  induction cands with
  | nil =>
    intro labels0 _ _ s hs
    simp [btLabelLoopTrace] at hs
  | cons label cs ih =>
    intro labels0 hcol hcands s hs
    obtain ⟨hl1, hlk⟩ := hcands label (List.mem_cons_self _ _)
    have hcol2 : ∀ x, insertL (insertL labels0 v label) v x =
        insertL labels v x := by
      intro x
      rw [insertL_insertL, hcol]
    have hcands2 : ∀ l ∈ cs, 1 ≤ l ∧ l ≤ k :=
      fun l hl => hcands l (List.mem_cons_of_mem _ hl)
    cases hscan : btScan (insertL labels0 v label) used label (nbrsOf adj v)
      with
    | none =>
      simp only [btLabelLoopTrace, hscan] at hs
      exact ih _ hcol2 hcands2 s hs
    | some ws =>
      have hscan2 : btScan (insertL labels v label) used label
          (nbrsOf adj v) = some ws := by rw [← hcol]; exact hscan
      have hchildOK : ∀ s2 ∈ (child (insertL labels0 v label)
          (markWeights used ws)).2, trackerOK adj s2.1 s2.2 := by
        rw [hcol]
        apply hchild
        · rw [length_markWeights, hlen]
        · exact trackerOK_commit adj labels used k v label ws hsym hself hv
            hlen hrange hlk htr hscan2
        · exact labelsRange_insert labels k v label hrange hl1 hlk
        · intro u hu
          have hune : u ≠ v := fun he => hvrest (he ▸ hu)
          rw [lookupL_insertL_ne _ _ _ _ hune]
          exact hrest u hu
      cases hc1 : (child (insertL labels0 v label) (markWeights used ws)).1
        with
      | some r =>
        simp only [btLabelLoopTrace, hscan, hc1] at hs
        exact hchildOK s hs
      | none =>
        simp only [btLabelLoopTrace, hscan, hc1, List.mem_append] at hs
        rcases hs with hs | hs
        · exact hchildOK s hs
        · obtain ⟨_, hfree⟩ := btScan_some _ _ _ _ _ hscan
          have hrestore :
              unmarkWeights (markWeights used ws) ws = used :=
            unmark_mark_restore used ws
              (fun w hw => getD_false_of_getW_false used w (hfree w hw))
          rw [hrestore] at hs
          exact ih _ hcol2 hcands2 s hs

/-- Tracker consistency at every recorded state of the exact search: at
entry of each recursive call (after each commit, and after each undo via the
next recorded state) the used-weight mask is exactly the set of weights of
currently realized edges. -/
lemma backtrack_trace_invariant (adj : AdjList) (k : Nat)
    (hsym : AdjSym adj) (hself : ∀ u, u ∉ nbrsOf adj u) :
    ∀ rem labels used,
      used.length = 2 * k + 1 →
      trackerOK adj labels used →
      LabelsRange k labels →
      (∀ u ∈ rem, lookupL labels u = none) →
      rem.Nodup →
      ∀ s ∈ (backtrack_trace adj k labels rem used).2,
        trackerOK adj s.1 s.2 := by
  intro rem
  induction rem with
  | nil =>
    intro labels used _ htr _ _ _ s hs
    simp only [backtrack_trace, List.mem_singleton] at hs
    subst hs
    exact htr
  | cons v rest ih =>
    intro labels used hlen htr hrange hunl hnd s hs
    simp only [backtrack_trace, List.mem_cons] at hs
    rcases hs with rfl | hs
    · exact htr
    · refine btLabelLoopTrace_invariant adj v k rest _ labels used hsym
        (hself v) (hunl v (List.mem_cons_self _ _)) hlen htr hrange
        (fun u hu => hunl u (List.mem_cons_of_mem _ hu))
        (List.nodup_cons.mp hnd).1 ?_ (List.range' 1 k) labels
        (fun x => rfl) ?_ s hs
      · intro l2 u2 c1 c2 c3 c4
        exact ih l2 u2 c1 c2 c3 c4 (List.nodup_cons.mp hnd).2
      · intro l hl
        obtain ⟨h1, h2⟩ := List.mem_range'_1.mp hl
        exact ⟨h1, by omega⟩

lemma eraseKey_insertL_fresh {α : Type} (d : List (Vertex × α)) (v : Vertex)
    (a : α) (hv : lookupL d v = none) : eraseKey (insertL d v a) v = d := by
  induction d with
  | nil => simp [insertL, eraseKey]
  | cons hd tl ih =>
    obtain ⟨u, b⟩ := hd
    by_cases h : v = u
    · subst h; simp [lookupL] at hv
    · rw [lookupL] at hv
      rw [if_neg h] at hv
      simp [insertL, eraseKey, h, ih hv]

lemma iavLoop_spec (labels2 : Labels) (cl : Nat) (used : Finset Nat) :
    ∀ nbrs newly,
      ((scanWeights labels2 cl nbrs).Nodup ∧
          (∀ w ∈ scanWeights labels2 cl nbrs, w ∉ used ∧ w ∉ newly) →
        iavLoop labels2 cl used nbrs newly =
          (true, newly ∪ (scanWeights labels2 cl nbrs).toFinset))
      ∧ ((iavLoop labels2 cl used nbrs newly).1 = true →
          (scanWeights labels2 cl nbrs).Nodup ∧
          ∀ w ∈ scanWeights labels2 cl nbrs, w ∉ used ∧ w ∉ newly) := by
  intro nbrs
  induction nbrs with
  | nil =>
    intro newly
    constructor
    · intro _
      simp [iavLoop, scanWeights]
    · intro _
      simp [scanWeights]
  | cons nb rest ih =>
    intro newly
    cases hnb : lookupL labels2 nb with
    | none =>
      have hsw : scanWeights labels2 cl (nb :: rest) =
          scanWeights labels2 cl rest := by
        simp [scanWeights, hnb]
      constructor
      · intro h
        rw [hsw] at h ⊢
        simp only [iavLoop, hnb]
        exact (ih newly).1 h
      · intro h
        rw [hsw]
        simp only [iavLoop, hnb] at h
        exact (ih newly).2 h
    | some b =>
      have hsw : scanWeights labels2 cl (nb :: rest) =
          (cl + b) :: scanWeights labels2 cl rest := by
        simp [scanWeights, hnb]
      by_cases hc : cl + b ∈ used ∨ cl + b ∈ newly
      · constructor
        · intro h
          rw [hsw] at h
          have := h.2 (cl + b) (List.mem_cons_self _ _)
          tauto
        · intro h
          simp only [iavLoop, hnb, if_pos hc] at h
          simp at h
      · constructor
        · intro h
          rw [hsw] at h ⊢
          simp only [iavLoop, hnb, if_neg hc]
          have hrest : (scanWeights labels2 cl rest).Nodup ∧
              ∀ w ∈ scanWeights labels2 cl rest,
                w ∉ used ∧ w ∉ insert (cl + b) newly := by
            refine ⟨(List.nodup_cons.mp h.1).2, ?_⟩
            intro w hw
            refine ⟨(h.2 w (List.mem_cons_of_mem _ hw)).1, ?_⟩
            rw [Finset.mem_insert]
            push_neg
            refine ⟨?_, (h.2 w (List.mem_cons_of_mem _ hw)).2⟩
            intro he
            exact (List.nodup_cons.mp h.1).1 (he ▸ hw)
          rw [(ih (insert (cl + b) newly)).1 hrest]
          refine congrArg _ ?_
          rw [List.toFinset_cons]
          ext x
          simp only [Finset.mem_union, Finset.mem_insert, List.mem_toFinset]
          tauto
        · intro h
          simp only [iavLoop, hnb, if_neg hc] at h
          obtain ⟨h1, h2⟩ := (ih (insert (cl + b) newly)).2 h
          rw [hsw]
          constructor
          · rw [List.nodup_cons]
            refine ⟨?_, h1⟩
            intro hmem
            exact (h2 _ hmem).2 (Finset.mem_insert_self _ _)
          · intro w hw
            rcases List.mem_cons.mp hw with rfl | hw2
            · tauto
            · obtain ⟨g1, g2⟩ := h2 w hw2
              refine ⟨g1, ?_⟩
              intro hn
              exact g2 (Finset.mem_insert_of_mem hn)

lemma vLt_asymm (u v : Vertex) (h1 : vLt u v = true) (h2 : vLt v u = true) :
    False := by
  rw [vLt, keyLt_eq_true_iff] at h1 h2
  omega

lemma validLabeling_of_distinctRealized (adj : AdjList) (labels : Labels)
    (h : DistinctRealized adj labels) : ValidLabeling adj labels := by
  intro u v u2 v2 a b a2 b2 hv hv2 hlt hlt2 ha hb ha2 hb2 hne heq
  exact h (u, v) (u2, v2) ⟨hv, hlt, by simp [ha], by simp [hb]⟩
    ⟨hv2, hlt2, by simp [ha2], by simp [hb2]⟩ hne
    (by simp [pairWeight, ha, hb, ha2, hb2, heq])

lemma one_le_count_filterMap (f : Vertex → Option Nat) (l : List Vertex)
    (u : Vertex) (w : Nat) (h1 : u ∈ l) (hf : f u = some w) :
    1 ≤ (l.filterMap f).count w :=
  List.count_pos_iff.mpr (List.mem_filterMap.mpr ⟨u, h1, hf⟩)

lemma two_le_count_filterMap (f : Vertex → Option Nat) :
    ∀ (l : List Vertex) (u1 u2 : Vertex) (w : Nat), u1 ≠ u2 →
      u1 ∈ l → u2 ∈ l → f u1 = some w → f u2 = some w →
      2 ≤ (l.filterMap f).count w := by
  intro l
  induction l with
  | nil => intro u1 u2 w _ h1 _ _ _; simp at h1
  | cons a rest ih =>
    intro u1 u2 w hne h1 h2 hf1 hf2
    rcases List.mem_cons.mp h1 with rfl | h1r
    · have h2r : u2 ∈ rest := by
        rcases List.mem_cons.mp h2 with rfl | h
        · exact absurd rfl hne
        · exact h
      rw [List.filterMap_cons, hf1, List.count_cons]
      have := one_le_count_filterMap f rest u2 w h2r hf2
      simp only [beq_self_eq_true, if_pos]
      omega
    · rcases List.mem_cons.mp h2 with rfl | h2r
      · rw [List.filterMap_cons, hf2, List.count_cons]
        have := one_le_count_filterMap f rest u1 w h1r hf1
        simp only [beq_self_eq_true, if_pos]
        omega
      · have := ih u1 u2 w hne h1r h2r hf1 hf2
        rw [List.filterMap_cons]
        cases hf : f a with
        | none => exact this
        | some b =>
          rw [List.count_cons]
          omega

lemma exists_dup_of_not_nodup_filterMap (f : Vertex → Option Nat) :
    ∀ l : List Vertex, l.Nodup → ¬(l.filterMap f).Nodup →
      ∃ u1 u2 w, u1 ≠ u2 ∧ u1 ∈ l ∧ u2 ∈ l ∧
        f u1 = some w ∧ f u2 = some w := by
  intro l
  induction l with
  | nil => intro _ h; simp at h
  | cons a rest ih =>
    intro hnd h
    obtain ⟨ha, hrest⟩ := List.nodup_cons.mp hnd
    rw [List.filterMap_cons] at h
    cases hf : f a with
    | none =>
      rw [hf] at h
      obtain ⟨u1, u2, w, g⟩ := ih hrest h
      exact ⟨u1, u2, w, g.1, List.mem_cons_of_mem _ g.2.1,
        List.mem_cons_of_mem _ g.2.2.1, g.2.2.2⟩
    | some b =>
      rw [hf] at h
      rw [List.nodup_cons] at h
      push_neg at h
      by_cases hb : b ∈ rest.filterMap f
      · obtain ⟨u2, hu2, hfu2⟩ := List.mem_filterMap.mp hb
        have hne : a ≠ u2 := fun he => ha (he ▸ hu2)
        exact ⟨a, u2, b, hne, List.mem_cons_self _ _,
          List.mem_cons_of_mem _ hu2, hf, hfu2⟩
      · obtain ⟨u1, u2, w, g⟩ := ih hrest (h hb)
        exact ⟨u1, u2, w, g.1, List.mem_cons_of_mem _ g.2.1,
          List.mem_cons_of_mem _ g.2.2.1, g.2.2.2⟩

lemma realized_of_labeled_neighbor (adj : AdjList) (labels : Labels)
    (v : Vertex) (lv : Nat) (u : Vertex) (b : Nat) (hsym : AdjSym adj)
    (hune : u ≠ v) (hu : u ∈ nbrsOf adj v) (hb : lookupL labels u = some b) :
    ∃ p, (p = (v, u) ∨ p = (u, v)) ∧
      RealizedPair adj (insertL labels v lv) p ∧
      pairWeight (insertL labels v lv) p = lv + b := by
  by_cases h1 : vLt v u = true
  · refine ⟨(v, u), Or.inl rfl, ⟨hu, h1, ?_, ?_⟩, ?_⟩
    · simp [lookupL_insertL_self]
    · simp [lookupL_insertL_ne _ _ _ _ hune, hb]
    · rw [pairWeight, lookupL_insertL_self, lookupL_insertL_ne _ _ _ _ hune,
        hb]
      rfl
  · by_cases h2 : vLt u v = true
    · refine ⟨(u, v), Or.inr rfl, ⟨hsym v u hu, h2, ?_, ?_⟩, ?_⟩
      · simp [lookupL_insertL_ne _ _ _ _ hune, hb]
      · simp [lookupL_insertL_self]
      · rw [pairWeight, lookupL_insertL_self, lookupL_insertL_ne _ _ _ _ hune,
          hb]
        simp [Nat.add_comm]
    · exact absurd (vLt_trichotomy u v (by simpa using h2) (by simpa using h1))
        hune

lemma new_pair_data (adj : AdjList) (labels : Labels) (v : Vertex) (lv : Nat)
    (hsym : AdjSym adj) (p : Vertex × Vertex)
    (hnew : (p.1 = v ∧ p.2 ≠ v ∧ p.2 ∈ nbrsOf adj v ∧ vLt v p.2 = true ∧
        (lookupL labels p.2).isSome = true)
      ∨ (p.2 = v ∧ p.1 ≠ v ∧ v ∈ nbrsOf adj p.1 ∧ vLt p.1 v = true ∧
        (lookupL labels p.1).isSome = true)) :
    ∃ u b, u ≠ v ∧ u ∈ nbrsOf adj v ∧ lookupL labels u = some b ∧
      pairWeight (insertL labels v lv) p = lv + b ∧
      (p = (v, u) ∨ p = (u, v)) := by
  obtain ⟨x, y⟩ := p
  rcases hnew with ⟨hx, hyne, hadj, _, hy⟩ | ⟨hy, hxne, hadj, _, hx⟩
  · subst hx
    simp only at hyne hadj hy ⊢
    obtain ⟨b, hb⟩ := Option.isSome_iff_exists.mp hy
    refine ⟨y, b, hyne, hadj, hb, ?_, Or.inl rfl⟩
    rw [pairWeight, lookupL_insertL_self, lookupL_insertL_ne _ _ _ _ hyne, hb]
    rfl
  · subst hy
    simp only at hxne hadj hx ⊢
    obtain ⟨b, hb⟩ := Option.isSome_iff_exists.mp hx
    refine ⟨x, b, hxne, hsym x y hadj, hb, ?_, Or.inr rfl⟩
    rw [pairWeight, lookupL_insertL_self, lookupL_insertL_ne _ _ _ _ hxne, hb]
    simp [Nat.add_comm]

lemma iav_true_parts (adj : AdjList) (labels : Labels) (v : Vertex)
    (used : Finset Nat) (lv : Nat) (newly : Finset Nat)
    (hv : lookupL labels v = none)
    (h : is_assignment_valid adj v (insertL labels v lv) used =
      (true, newly)) :
    newly = (scanWeights (insertL labels v lv) lv (nbrsOf adj v)).toFinset ∧
    (scanWeights (insertL labels v lv) lv (nbrsOf adj v)).Nodup ∧
    ∀ w ∈ scanWeights (insertL labels v lv) lv (nbrsOf adj v), w ∉ used := by
  have hcl : (lookupL (insertL labels v lv) v).getD 0 = lv := by
    rw [lookupL_insertL_self]; rfl
  rw [is_assignment_valid, hcl] at h
  have h1 : (iavLoop (insertL labels v lv) lv used (nbrsOf adj v) ∅).1 =
      true := by rw [h]
  obtain ⟨hnd, hfresh⟩ :=
    (iavLoop_spec (insertL labels v lv) lv used (nbrsOf adj v) ∅).2 h1
  have heq := (iavLoop_spec (insertL labels v lv) lv used (nbrsOf adj v) ∅).1
    ⟨hnd, hfresh⟩
  rw [heq] at h
  have : newly =
      ∅ ∪ (scanWeights (insertL labels v lv) lv (nbrsOf adj v)).toFinset :=
    ((Prod.mk.injEq _ _ _ _).mp h.symm).2
  refine ⟨by rw [this, Finset.empty_union], hnd, ?_⟩
  intro w hw
  exact (hfresh w hw).1

lemma usedOK_commit (adj : AdjList) (labels : Labels) (used : Finset Nat)
    (v : Vertex) (lv : Nat) (newly : Finset Nat)
    (hsym : AdjSym adj) (hself : v ∉ nbrsOf adj v)
    (hv : lookupL labels v = none)
    (hOK : usedSetOK adj labels used)
    (hiav : is_assignment_valid adj v (insertL labels v lv) used =
      (true, newly)) :
    usedSetOK adj (insertL labels v lv) (used ∪ newly) := by
  obtain ⟨hnewly, _, _⟩ := iav_true_parts adj labels v used lv newly hv hiav
  intro w
  rw [Finset.mem_union, hnewly, List.mem_toFinset]
  constructor
  · rintro (h1 | h1)
    · obtain ⟨p, hp, hpw⟩ := (hOK w).mp h1
      obtain ⟨h2, h3⟩ := realized_ne_unlabeled adj labels p v hv hp
      exact ⟨p, (realized_insert_iff adj labels v lv hv p).mpr (Or.inl hp),
        by rw [pairWeight_insert_of_old _ _ _ _ h2 h3]; exact hpw⟩
    · obtain ⟨p, _, hp1, hp2⟩ :=
        scan_weight_realized adj labels v lv hsym hself w h1
      exact ⟨p, hp1, hp2⟩
  · rintro ⟨p, hp, hpw⟩
    rcases (realized_insert_iff adj labels v lv hv p).mp hp with h1 | h1
    · obtain ⟨h2, h3⟩ := realized_ne_unlabeled adj labels p v hv h1
      rw [pairWeight_insert_of_old _ _ _ _ h2 h3] at hpw
      exact Or.inl ((hOK w).mpr ⟨p, h1, hpw⟩)
    · exact Or.inr (hpw ▸ new_pair_weight_mem adj labels v lv hsym p h1)

lemma distinct_commit (adj : AdjList) (labels : Labels) (used : Finset Nat)
    (v : Vertex) (lv : Nat) (newly : Finset Nat)
    (hsym : AdjSym adj) (hself : v ∉ nbrsOf adj v)
    (hv : lookupL labels v = none)
    (hOK : usedSetOK adj labels used)
    (hdis : DistinctRealized adj labels)
    (hiav : is_assignment_valid adj v (insertL labels v lv) used =
      (true, newly)) :
    DistinctRealized adj (insertL labels v lv) := by
  obtain ⟨_, hnd, hfresh⟩ := iav_true_parts adj labels v used lv newly hv hiav
  intro p q hp hq hpq heq
  rcases (realized_insert_iff adj labels v lv hv p).mp hp with h1 | h1 <;>
    rcases (realized_insert_iff adj labels v lv hv q).mp hq with h2 | h2
  · obtain ⟨ha, hb⟩ := realized_ne_unlabeled adj labels p v hv h1
    obtain ⟨hc, hd⟩ := realized_ne_unlabeled adj labels q v hv h2
    rw [pairWeight_insert_of_old _ _ _ _ ha hb,
      pairWeight_insert_of_old _ _ _ _ hc hd] at heq
    exact hdis p q h1 h2 hpq heq
  · obtain ⟨ha, hb⟩ := realized_ne_unlabeled adj labels p v hv h1
    have hpu : pairWeight (insertL labels v lv) p ∈ used := by
      rw [pairWeight_insert_of_old _ _ _ _ ha hb]
      exact (hOK _).mpr ⟨p, h1, rfl⟩
    have hqs := new_pair_weight_mem adj labels v lv hsym q h2
    rw [← heq] at hqs
    exact hfresh _ hqs hpu
  · obtain ⟨hc, hd⟩ := realized_ne_unlabeled adj labels q v hv h2
    have hqu : pairWeight (insertL labels v lv) q ∈ used := by
      rw [pairWeight_insert_of_old _ _ _ _ hc hd]
      exact (hOK _).mpr ⟨q, h2, rfl⟩
    have hps := new_pair_weight_mem adj labels v lv hsym p h1
    rw [heq] at hps
    exact hfresh _ hps hqu
  · obtain ⟨up, bp, hupne, hupadj, hupb, hwp, hpform⟩ :=
      new_pair_data adj labels v lv hsym p h1
    obtain ⟨uq, bq, huqne, huqadj, huqb, hwq, hqform⟩ :=
      new_pair_data adj labels v lv hsym q h2
    by_cases huu : up = uq
    · subst huu
      apply hpq
      rcases hpform with rfl | rfl <;> rcases hqform with rfl | rfl
      · rfl
      · exact absurd (vLt_asymm v up hp.2.1 hq.2.1) id
      · exact absurd (vLt_asymm v up hq.2.1 hp.2.1) id
      · rfl
    · have hfp : ((lookupL labels up).map (fun b => lv + b)) =
          some (pairWeight (insertL labels v lv) p) := by
        rw [hupb, hwp]
        rfl
      have hfq : ((lookupL labels uq).map (fun b => lv + b)) =
          some (pairWeight (insertL labels v lv) p) := by
        rw [huqb, heq, hwq]
        rfl
      have hcount := two_le_count_filterMap
        (fun u => (lookupL labels u).map (fun b => lv + b))
        (nbrsOf adj v) up uq _ huu hupadj huqadj hfp hfq
      have hscaneq : scanWeights (insertL labels v lv) lv (nbrsOf adj v) =
          (nbrsOf adj v).filterMap
            (fun u => (lookupL labels u).map (fun b => lv + b)) := by
        rw [scanWeights]
        apply List.filterMap_congr
        intro u hu
        have hune : u ≠ v := fun he => hself (he ▸ hu)
        rw [lookupL_insertL_ne _ _ _ _ hune]
      rw [← hscaneq] at hcount
      have := List.nodup_iff_count_le_one.mp hnd
        (pairWeight (insertL labels v lv) p)
      omega

lemma nbrsOf_nodup_of_entry (adj : AdjList)
    (hentry : ∀ p ∈ adj, (p.2 : List Vertex).Nodup) :
    ∀ u, (nbrsOf adj u).Nodup := by
  intro u
  rw [nbrsOf]
  cases hl : lookupL adj u with
  | none => simp
  | some ns => exact hentry (u, ns) (mem_of_lookupL adj u ns hl)

lemma bbLabelLoop_some (adj : AdjList) (v : Vertex)
    (child : Labels → Finset Nat → Option Labels) :
    ∀ cands labels used L, lookupL labels v = none →
      bbLabelLoop adj v child cands labels used = some L →
      ∃ l ∈ cands, ∃ newly,
        is_assignment_valid adj v (insertL labels v l) used = (true, newly) ∧
        child (insertL labels v l) (used ∪ newly) = some L := by
  intro cands
  induction cands with
  | nil =>
    intro labels used L _ h
    simp [bbLabelLoop] at h
  | cons label cs ih =>
    intro labels used L hv h
    have hkey : v ∉ keysOf labels :=
      (lookupL_eq_none_iff_not_mem_keys labels v).mp hv
    have herase : eraseKey (insertL labels v label) v = labels :=
      eraseKey_insertL_fresh labels v label hv
    cases hiav : is_assignment_valid adj v (insertL labels v label) used with
    | mk bres newlyr =>
      cases bres with
      | true =>
        simp only [bbLabelLoop, hiav] at h
        cases hchild : child (insertL labels v label) (used ∪ newlyr) with
        | some r =>
          rw [hchild] at h
          obtain rfl := (Option.some.injEq _ _).mp h
          exact ⟨label, List.mem_cons_self _ _, newlyr, hiav, hchild⟩
        | none =>
          rw [hchild, herase] at h
          obtain ⟨l, hl, g⟩ := ih labels used L hv h
          exact ⟨l, List.mem_cons_of_mem _ hl, g⟩
      | false =>
        simp only [bbLabelLoop, hiav, herase] at h
        obtain ⟨l, hl, g⟩ := ih labels used L hv h
        exact ⟨l, List.mem_cons_of_mem _ hl, g⟩

/-- Soundness of `_solve_recursive`: a returned labeling keeps all realized
edge weights pairwise distinct, its domain extends the entry labeling by the
remaining vertex order, and new labels lie in `{1, ..., k}`. -/
lemma solve_recursive_sound (adj : AdjList) (k : Nat)
    (hsym : AdjSym adj) (hself : ∀ u, u ∉ nbrsOf adj u) :
    ∀ order labels used L,
      usedSetOK adj labels used →
      DistinctRealized adj labels →
      (∀ u ∈ order, lookupL labels u = none) →
      order.Nodup →
      solve_recursive adj k order labels used = some L →
      DistinctRealized adj L ∧
      (∀ u, (lookupL L u).isSome = true ↔
        u ∈ order ∨ (lookupL labels u).isSome = true) ∧
      (∀ u a, lookupL L u = some a →
        lookupL labels u = some a ∨ (u ∈ order ∧ 1 ≤ a ∧ a ≤ k)) := by
  intro order
  induction order with
  | nil =>
    intro labels used L _ hdis _ _ h
    rw [solve_recursive] at h
    obtain rfl := (Option.some.injEq _ _).mp h
    exact ⟨hdis, fun u => by simp, fun u a ha => Or.inl ha⟩
  | cons v rest ih =>
    intro labels used L hOK hdis hunl hnd h
    rw [solve_recursive] at h
    have hv : lookupL labels v = none := hunl v (List.mem_cons_self _ _)
    obtain ⟨l, hl, newly, hiav, hchild⟩ :=
      bbLabelLoop_some adj v _ (List.range' 1 k) labels used L hv h
    obtain ⟨hlo, hhi⟩ := List.mem_range'_1.mp hl
    have hOK2 := usedOK_commit adj labels used v l newly hsym (hself v) hv hOK
      hiav
    have hdis2 := distinct_commit adj labels used v l newly hsym (hself v) hv
      hOK hdis hiav
    have hunl2 : ∀ u ∈ rest, lookupL (insertL labels v l) u = none := by
      intro u hu
      have hune : u ≠ v := by
        intro he
        subst he
        exact (List.nodup_cons.mp hnd).1 hu
      rw [lookupL_insertL_ne _ _ _ _ hune]
      exact hunl u (List.mem_cons_of_mem _ hu)
    obtain ⟨h1, h2, h3⟩ := ih (insertL labels v l) (used ∪ newly) L hOK2 hdis2
      hunl2 (List.nodup_cons.mp hnd).2 hchild
    refine ⟨h1, ?_, ?_⟩
    · intro u
      rw [h2 u]
      by_cases hu : u = v
      · subst hu
        simp [lookupL_insertL_self]
      · rw [lookupL_insertL_ne _ _ _ _ hu]
        simp only [List.mem_cons]
        tauto
    · intro u a ha
      rcases h3 u a ha with hcase | ⟨hmem, hbnd⟩
      · by_cases hu : u = v
        · subst hu
          rw [lookupL_insertL_self] at hcase
          obtain rfl := (Option.some.injEq _ _).mp hcase
          exact Or.inr ⟨List.mem_cons_self _ _, hlo, by omega⟩
        · rw [lookupL_insertL_ne _ _ _ _ hu] at hcase
          exact Or.inl hcase
      · exact Or.inr ⟨List.mem_cons_of_mem _ hmem, hbnd⟩

lemma iav_succeeds (adj : AdjList) (labels : Labels) (used : Finset Nat)
    (v : Vertex) (lv : Nat) (E : Labels)
    (hsym : AdjSym adj) (hself : v ∉ nbrsOf adj v)
    (hnbrs : (nbrsOf adj v).Nodup)
    (hv : lookupL labels v = none)
    (hOK : usedSetOK adj labels used)
    (hEvalid : ValidLabeling adj E)
    (hagree2 : agreesUpto E (insertL labels v lv)) :
    (is_assignment_valid adj v (insertL labels v lv) used).1 = true := by
  have hgood := validLabeling_realized_distinct adj (insertL labels v lv)
    (validLabeling_mono adj E _ hEvalid hagree2)
  have hfresh : ∀ w ∈ scanWeights (insertL labels v lv) lv (nbrsOf adj v),
      w ∉ used ∧ w ∉ (∅ : Finset Nat) := by
    intro w hw
    refine ⟨?_, by simp⟩
    intro hused
    obtain ⟨p, hpOld, hpw⟩ := (hOK w).mp hused
    obtain ⟨hp1, hp2⟩ := realized_ne_unlabeled adj labels p v hv hpOld
    obtain ⟨q, hqv, hq, hqw⟩ :=
      scan_weight_realized adj labels v lv hsym hself w hw
    have hpnew : RealizedPair adj (insertL labels v lv) p :=
      (realized_insert_iff adj labels v lv hv p).mpr (Or.inl hpOld)
    have hpw2 : pairWeight (insertL labels v lv) p = w := by
      rw [pairWeight_insert_of_old _ _ _ _ hp1 hp2]
      exact hpw
    have hpq : p ≠ q := by
      intro he
      subst he
      rcases hqv with h | h
      · exact hp1 h
      · exact hp2 h
    exact hgood p q hpnew hq hpq (by rw [hpw2, hqw])
  have hnd : (scanWeights (insertL labels v lv) lv (nbrsOf adj v)).Nodup := by
    by_contra hnot
    obtain ⟨u1, u2, w, huu, hu1, hu2, hf1, hf2⟩ :=
      exists_dup_of_not_nodup_filterMap
        (fun u => (lookupL (insertL labels v lv) u).map (fun b => lv + b))
        (nbrsOf adj v) hnbrs hnot
    have hu1ne : u1 ≠ v := fun he => hself (he ▸ hu1)
    have hu2ne : u2 ≠ v := fun he => hself (he ▸ hu2)
    rw [lookupL_insertL_ne _ _ _ _ hu1ne] at hf1
    rw [lookupL_insertL_ne _ _ _ _ hu2ne] at hf2
    cases hb1 : lookupL labels u1 with
    | none => rw [hb1] at hf1; simp at hf1
    | some b1 =>
      cases hb2 : lookupL labels u2 with
      | none => rw [hb2] at hf2; simp at hf2
      | some b2 =>
        rw [hb1] at hf1
        rw [hb2] at hf2
        simp only [Option.map_some', Option.some.injEq] at hf1 hf2
        obtain ⟨p1, hp1form, hp1, hw1⟩ := realized_of_labeled_neighbor adj
          labels v lv u1 b1 hsym hu1ne hu1 hb1
        obtain ⟨p2, hp2form, hp2, hw2⟩ := realized_of_labeled_neighbor adj
          labels v lv u2 b2 hsym hu2ne hu2 hb2
        have hne : p1 ≠ p2 := by
          rcases hp1form with rfl | rfl <;> rcases hp2form with rfl | rfl <;>
            intro he <;> simp only [Prod.mk.injEq] at he
          · exact huu (he.2)
          · exact hu1ne (he.2)
          · exact hu1ne (he.1)
          · exact huu (he.1)
        exact hgood p1 p2 hp1 hp2 hne (by rw [hw1, hw2, hf1, hf2])
  have hcl : (lookupL (insertL labels v lv) v).getD 0 = lv := by
    rw [lookupL_insertL_self]; rfl
  rw [is_assignment_valid, hcl,
    (iavLoop_spec (insertL labels v lv) lv used (nbrsOf adj v) ∅).1
      ⟨hnd, hfresh⟩]

lemma bbLabelLoop_complete (adj : AdjList) (v : Vertex)
    (child : Labels → Finset Nat → Option Labels)
    (labels : Labels) (used : Finset Nat) (lv : Nat)
    (hv : lookupL labels v = none)
    (hiavT : (is_assignment_valid adj v (insertL labels v lv) used).1 = true)
    (hchild : ∀ newly,
        is_assignment_valid adj v (insertL labels v lv) used =
          (true, newly) →
        child (insertL labels v lv) (used ∪ newly) ≠ none) :
    ∀ cands, lv ∈ cands →
      bbLabelLoop adj v child cands labels used ≠ none := by
  intro cands
  induction cands with
  | nil => intro hmem; simp at hmem
  | cons label cs ih =>
    intro hmem hnone
    have herase : eraseKey (insertL labels v label) v = labels :=
      eraseKey_insertL_fresh labels v label hv
    by_cases heq : label = lv
    · subst heq
      cases hiav : is_assignment_valid adj v (insertL labels v label) used
        with
      | mk bres newlyr =>
        cases bres with
        | true =>
          simp only [bbLabelLoop, hiav] at hnone
          cases hchild2 : child (insertL labels v label) (used ∪ newlyr) with
          | some r => rw [hchild2] at hnone; simp at hnone
          | none => exact hchild newlyr hiav hchild2
        | false =>
          rw [hiav] at hiavT
          simp at hiavT
    · have hmem2 : lv ∈ cs := by
        rcases List.mem_cons.mp hmem with h | h
        · exact absurd h.symm heq
        · exact h
      cases hiav : is_assignment_valid adj v (insertL labels v label) used
        with
      | mk bres newlyr =>
        cases bres with
        | true =>
          simp only [bbLabelLoop, hiav] at hnone
          cases hchild2 : child (insertL labels v label) (used ∪ newlyr) with
          | some r => rw [hchild2] at hnone; simp at hnone
          | none =>
            rw [hchild2, herase] at hnone
            exact ih hmem2 hnone
        | false =>
          simp only [bbLabelLoop, hiav, herase] at hnone
          exact ih hmem2 hnone

/-- Completeness of `_solve_recursive`: if some total valid assignment
within `{1, ..., k}` extends the current state, the search does not fail. -/
lemma solve_recursive_complete (adj : AdjList) (k : Nat)
    (hsym : AdjSym adj) (hself : ∀ u, u ∉ nbrsOf adj u)
    (hnbrs : ∀ u, (nbrsOf adj u).Nodup)
    (E : Labels) (hEvalid : ValidLabeling adj E) :
    ∀ order labels used,
      usedSetOK adj labels used →
      agreesUpto E labels →
      (∀ u ∈ order, lookupL labels u = none) →
      order.Nodup →
      (∀ u ∈ order, ∃ a, lookupL E u = some a ∧ 1 ≤ a ∧ a ≤ k) →
      solve_recursive adj k order labels used ≠ none := by
  intro order
  induction order with
  | nil =>
    intro labels used _ _ _ _ _
    rw [solve_recursive]
    simp
  | cons v rest ih =>
    intro labels used hOK hagree hunl hnd hremE
    rw [solve_recursive]
    obtain ⟨lv, hEv, hlv1, hlvk⟩ := hremE v (List.mem_cons_self _ _)
    have hv : lookupL labels v = none := hunl v (List.mem_cons_self _ _)
    have hagree2 : agreesUpto E (insertL labels v lv) :=
      agreesUpto_insert E labels v lv hagree hEv
    apply bbLabelLoop_complete adj v _ labels used lv hv
      (iav_succeeds adj labels used v lv E hsym (hself v) (hnbrs v) hv hOK
        hEvalid hagree2) ?_ (List.range' 1 k)
      (List.mem_range'_1.mpr ⟨hlv1, by omega⟩)
    intro newly hiav
    apply ih (insertL labels v lv) (used ∪ newly)
    · exact usedOK_commit adj labels used v lv newly hsym (hself v) hv hOK
        hiav
    · exact hagree2
    · intro u hu
      have hune : u ≠ v := by
        intro he
        subst he
        exact (List.nodup_cons.mp hnd).1 hu
      rw [lookupL_insertL_ne _ _ _ _ hune]
      exact hunl u (List.mem_cons_of_mem _ hu)
    · exact (List.nodup_cons.mp hnd).2
    · intro u hu
      exact hremE u (List.mem_cons_of_mem _ hu)

/-- A root call of `_solve_recursive` succeeds exactly when a valid complete
in-range labeling of the order list exists. -/
lemma solve_root_iff_feasible (adj : AdjList) (k : Nat) (order : List Vertex)
    (hsym : AdjSym adj) (hself : ∀ u, u ∉ nbrsOf adj u)
    (hentry : ∀ p ∈ adj, (p.2 : List Vertex).Nodup)
    (hnd : order.Nodup) :
    solve_recursive adj k order [] ∅ ≠ none ↔ FeasibleK adj order k := by
  have hOK0 : usedSetOK adj [] (∅ : Finset Nat) := by
    intro w
    constructor
    · intro h; simp at h
    · rintro ⟨p, ⟨_, _, h3, _⟩, _⟩
      simp [lookupL] at h3
  constructor
  · intro h
    cases hres : solve_recursive adj k order [] ∅ with
    | none => exact absurd hres h
    | some L =>
      have hdis0 : DistinctRealized adj [] := by
        rintro p q ⟨_, _, h3, _⟩ _ _
        simp [lookupL] at h3
      obtain ⟨h1, h2, h3⟩ := solve_recursive_sound adj k hsym hself order []
        ∅ L hOK0 hdis0 (fun u _ => rfl) hnd hres
      refine ⟨L, validLabeling_of_distinctRealized adj L h1, ?_⟩
      intro u hu
      have hsome : (lookupL L u).isSome = true := (h2 u).mpr (Or.inl hu)
      obtain ⟨a, ha⟩ := Option.isSome_iff_exists.mp hsome
      rcases h3 u a ha with hc | ⟨_, hb1, hb2⟩
      · simp [lookupL] at hc
      · exact ⟨a, ha, hb1, hb2⟩
  · intro h
    obtain ⟨E, hEvalid, hErange⟩ := h
    exact solve_recursive_complete adj k hsym hself
      (nbrsOf_nodup_of_entry adj hentry) E hEvalid order [] ∅ hOK0
      (fun v a hva => by simp [lookupL] at hva) (fun u _ => rfl) hnd hErange

/-- The `find_es` loop returns the first `k` at or above its entry value for
which the branch-and-bound search succeeds. -/
lemma find_es_loop_some (adj : AdjList) (order : List Vertex) :
    ∀ fuel k0 k L, find_es_loop adj order k0 fuel = some (k, L) →
      k0 ≤ k ∧ solve_recursive adj k order [] ∅ = some L ∧
      ∀ k2, k0 ≤ k2 → k2 < k → solve_recursive adj k2 order [] ∅ = none := by
  intro fuel
  induction fuel with
  | zero => intro k0 k L h; simp [find_es_loop] at h
  | succ fuel2 ih =>
    intro k0 k L h
    cases hres : solve_recursive adj k0 order [] ∅ with
    | some lab =>
      simp only [find_es_loop, hres] at h
      obtain ⟨rfl, rfl⟩ := Prod.mk.injEq _ _ _ _ ▸
        (Option.some.injEq _ _).mp h
      refine ⟨Nat.le_refl _, hres, ?_⟩
      intro k2 h1 h2
      omega
    | none =>
      simp only [find_es_loop, hres] at h
      obtain ⟨h1, h2, h3⟩ := ih (k0 + 1) k L h
      refine ⟨by omega, h2, ?_⟩
      intro k2 hk1 hk2
      by_cases hk0 : k2 = k0
      · subst hk0; exact hres
      · exact h3 k2 (by omega) hk2

lemma mt_keys_mem (n : Nat) (hn : n ≠ 0) (z : Vertex) :
    z ∈ keysOf (create_mongolian_tent_graph n) ↔
      z = Vertex.apex ∨
      ∃ r c, 1 ≤ r ∧ r ≤ 3 ∧ 1 ≤ c ∧ c ≤ n ∧ z = Vertex.coord r c := by
  rw [create_mongolian_tent_graph, if_neg hn, keys_foldl_addEdgePair_mem,
    keysOf_addKeyEmpty_mem, generate_ladder_graph, if_neg hn,
    keys_foldl_addEdgePair_mem]
  constructor
  · rintro (((h | ⟨e, he, hz⟩) | h) | ⟨e, he, hz⟩)
    · simp [keysOf] at h
    · rw [ladder_edge_list_eq] at he
      rcases List.mem_append.mp he with h | h
      · obtain ⟨i, hi, hie⟩ := List.mem_flatMap.mp h
        obtain ⟨hi1, hi2⟩ := List.mem_range'_1.mp hi
        simp only [List.mem_cons, List.mem_singleton] at hie
        rcases hie with rfl | rfl | rfl | hie
        · rcases hz with rfl | rfl
          · exact Or.inr ⟨1, i, by omega, by omega, by omega, by omega, rfl⟩
          · exact Or.inr ⟨1, i + 1, by omega, by omega, by omega, by omega,
              rfl⟩
        · rcases hz with rfl | rfl
          · exact Or.inr ⟨2, i, by omega, by omega, by omega, by omega, rfl⟩
          · exact Or.inr ⟨2, i + 1, by omega, by omega, by omega, by omega,
              rfl⟩
        · rcases hz with rfl | rfl
          · exact Or.inr ⟨3, i, by omega, by omega, by omega, by omega, rfl⟩
          · exact Or.inr ⟨3, i + 1, by omega, by omega, by omega, by omega,
              rfl⟩
        · simp at hie
      · obtain ⟨i, hi, hie⟩ := List.mem_flatMap.mp h
        obtain ⟨hi1, hi2⟩ := List.mem_range'_1.mp hi
        simp only [List.mem_cons, List.mem_singleton] at hie
        rcases hie with rfl | rfl | hie
        · rcases hz with rfl | rfl
          · exact Or.inr ⟨1, i, by omega, by omega, by omega, by omega, rfl⟩
          · exact Or.inr ⟨2, i, by omega, by omega, by omega, by omega, rfl⟩
        · rcases hz with rfl | rfl
          · exact Or.inr ⟨2, i, by omega, by omega, by omega, by omega, rfl⟩
          · exact Or.inr ⟨3, i, by omega, by omega, by omega, by omega, rfl⟩
        · simp at hie
    · exact Or.inl h
    · rw [apex_edge_list_eq] at he
      obtain ⟨i, hi, hie⟩ := List.mem_map.mp he
      obtain ⟨hi1, hi2⟩ := List.mem_range'_1.mp hi
      rw [← hie] at hz
      rcases hz with rfl | rfl
      · exact Or.inl rfl
      · exact Or.inr ⟨1, i, by omega, by omega, by omega, by omega, rfl⟩
  · rintro (rfl | ⟨r, c, hr1, hr3, hc1, hcn, rfl⟩)
    · exact Or.inl (Or.inr rfl)
    · have hcmem : c ∈ List.range' 1 n := List.mem_range'_1.mpr ⟨hc1, by omega⟩
      have hr123 : r = 1 ∨ r = 2 ∨ r = 3 := by omega
      refine Or.inl (Or.inl (Or.inr ?_))
      rw [ladder_edge_list_eq]
      rcases hr123 with rfl | rfl | rfl
      · refine ⟨vEdge1 c, List.mem_append.mpr (Or.inr ?_), Or.inl rfl⟩
        exact List.mem_flatMap.mpr ⟨c, hcmem, by simp⟩
      · refine ⟨vEdge1 c, List.mem_append.mpr (Or.inr ?_), Or.inr ?_⟩
        · exact List.mem_flatMap.mpr ⟨c, hcmem, by simp⟩
        · rfl
      · refine ⟨vEdge2 c, List.mem_append.mpr (Or.inr ?_), Or.inr ?_⟩
        · exact List.mem_flatMap.mpr ⟨c, hcmem, by simp⟩
        · rfl

lemma smart_order_mem (n : Nat) (z : Vertex) :
    z ∈ create_smart_vertex_order n ↔
      z = Vertex.apex ∨
      ∃ r c, 1 ≤ r ∧ r ≤ 3 ∧ 1 ≤ c ∧ c ≤ n ∧ z = Vertex.coord r c := by
  simp only [create_smart_vertex_order, List.mem_append, List.mem_singleton,
    List.mem_map, List.mem_range'_1]
  constructor
  · rintro (((rfl | ⟨j, hj, rfl⟩) | ⟨j, hj, rfl⟩) | ⟨j, hj, rfl⟩)
    · exact Or.inl rfl
    · exact Or.inr ⟨3, j, by omega, by omega, by omega, by omega, rfl⟩
    · exact Or.inr ⟨2, j, by omega, by omega, by omega, by omega, rfl⟩
    · exact Or.inr ⟨1, j, by omega, by omega, by omega, by omega, rfl⟩
  · rintro (rfl | ⟨r, c, hr1, hr3, hc1, hcn, rfl⟩)
    · exact Or.inl (Or.inl (Or.inl rfl))
    · have hr123 : r = 1 ∨ r = 2 ∨ r = 3 := by omega
      rcases hr123 with rfl | rfl | rfl
      · exact Or.inr ⟨c, ⟨hc1, by omega⟩, rfl⟩
      · exact Or.inl (Or.inr ⟨c, ⟨hc1, by omega⟩, rfl⟩)
      · exact Or.inl (Or.inl (Or.inr ⟨c, ⟨hc1, by omega⟩, rfl⟩))

lemma smart_order_nodup (n : Nat) : (create_smart_vertex_order n).Nodup := by
  have hmap : ∀ r : Nat,
      ((List.range' 1 n).map (fun j => Vertex.coord r j)).Nodup := by
    intro r
    apply List.Nodup.map
    · intro a b hab
      simpa using hab
    · exact List.nodup_range' _ _
  have h21 : (((List.range' 1 n).map (fun j => Vertex.coord 2 j)) ++
      ((List.range' 1 n).map (fun j => Vertex.coord 1 j))).Nodup := by
    apply List.Nodup.append (hmap 2) (hmap 1)
    intro a ha hb
    obtain ⟨j, _, rfl⟩ := List.mem_map.mp ha
    obtain ⟨j2, _, he⟩ := List.mem_map.mp hb
    simp at he
  have h321 : (((List.range' 1 n).map (fun j => Vertex.coord 3 j)) ++
      (((List.range' 1 n).map (fun j => Vertex.coord 2 j)) ++
        ((List.range' 1 n).map (fun j => Vertex.coord 1 j)))).Nodup := by
    apply List.Nodup.append (hmap 3) h21
    intro a ha hb
    obtain ⟨j, _, rfl⟩ := List.mem_map.mp ha
    rcases List.mem_append.mp hb with h | h
    · obtain ⟨j2, _, he⟩ := List.mem_map.mp h
      simp at he
    · obtain ⟨j2, _, he⟩ := List.mem_map.mp h
      simp at he
  rw [create_smart_vertex_order, List.append_assoc, List.append_assoc]
  refine List.Nodup.append (by simp) h321 ?_
  intro a ha hb
  rw [List.mem_singleton] at ha
  subst ha
  rcases List.mem_append.mp hb with h | h
  · obtain ⟨j, _, he⟩ := List.mem_map.mp h
    simp at he
  · rcases List.mem_append.mp h with h2 | h2 <;>
      · obtain ⟨j, _, he⟩ := List.mem_map.mp h2
        simp at he

lemma find_optimal_mt_inv (n : Nat) (os oe : Option Observer)
    (fuel k : Nat) (L : Labels) (hn : 1 ≤ n)
    (h : (find_optimal_k_labeling "mongolian_tent" ⟨some n, none⟩ os oe
      fuel).1 = .ok (some (k, L))) :
    find_optimal_loop (create_mongolian_tent_graph n)
      (degree_desc_order (create_mongolian_tent_graph n))
      (calculate_lower_bound n) fuel = some (k, L) := by
  rw [find_optimal_k_labeling, if_pos rfl] at h
  dsimp only at h
  rw [if_neg (by omega : ¬ n ≤ 0)] at h
  dsimp only at h
  rw [find_optimal_loop_ev_fst] at h
  exact Except.ok.inj h

lemma find_optimal_circ_inv (n r : Nat) (os oe : Option Observer)
    (fuel k : Nat) (L : Labels)
    (h : (find_optimal_k_labeling "circulant" ⟨some n, some r⟩ os oe
      fuel).1 = .ok (some (k, L))) :
    find_optimal_loop (generate_circulant_graph n r)
      (ascending_order (generate_circulant_graph n r))
      (calculate_circulant_lower_bound n r) fuel = some (k, L) := by
  rw [find_optimal_k_labeling, if_neg (by decide), if_pos rfl] at h
  dsimp only at h
  by_cases hg : n ≤ 0 ∨ r ≤ 0
  · rw [if_pos hg] at h
    simp at h
  · rw [if_neg hg] at h
    by_cases hadj : generate_circulant_graph n r = []
    · rw [if_pos hadj] at h
      simp at h
    · rw [if_neg hadj] at h
      rw [find_optimal_loop_ev_fst] at h
      exact Except.ok.inj h

/-- The exactness bundle for the Mongolian Tent entry point: the returned
`k` is at least the lower bound, admits a valid complete labeling, and is
the least such value at or above the lower bound. -/
lemma mt_exact (n : Nat) (os oe : Option Observer) (fuel k : Nat)
    (L : Labels) (hn : 1 ≤ n)
    (h : (find_optimal_k_labeling "mongolian_tent" ⟨some n, none⟩ os oe
      fuel).1 = .ok (some (k, L))) :
    calculate_lower_bound n ≤ k ∧
    FeasibleK (create_mongolian_tent_graph n)
      (keysOf (create_mongolian_tent_graph n)) k ∧
    ∀ k2, calculate_lower_bound n ≤ k2 → k2 < k →
      ¬ FeasibleK (create_mongolian_tent_graph n)
        (keysOf (create_mongolian_tent_graph n)) k2 := by
  have hloop := find_optimal_mt_inv n os oe fuel k L hn h
  obtain ⟨h1, h2, h3⟩ := find_optimal_loop_some _ _ fuel _ k L hloop
  have hperm := insertionSortBy_perm
    (fun u v => decide ((nbrsOf (create_mongolian_tent_graph n) v).length ≤
      (nbrsOf (create_mongolian_tent_graph n) u).length))
    (keysOf (create_mongolian_tent_graph n))
  have hordernd : (degree_desc_order (create_mongolian_tent_graph n)).Nodup :=
    hperm.nodup_iff.mpr (mt_keys_nodup n)
  have hiff := fun kk => backtrack_root_iff_feasible
    (create_mongolian_tent_graph n) kk
    (degree_desc_order (create_mongolian_tent_graph n))
    (mt_adjSym n) (mt_no_self n) (mt_keys_nodup n) (mt_entry_nodup n)
    hordernd
  refine ⟨h1, ?_, ?_⟩
  · apply feasibleK_mono_set _ _ _ _ (fun v hv => hperm.mem_iff.mpr hv)
    exact (hiff k).mp (by rw [h2]; simp)
  · intro k2 hk1 hk2 hfeas
    have : backtrack_k_labeling_generic (create_mongolian_tent_graph n) k2 []
        (degree_desc_order (create_mongolian_tent_graph n))
        (init_used_weights (2 * k2 + 1)) ≠ none :=
      (hiff k2).mpr
        (feasibleK_mono_set _ _ _ _ (fun v hv => hperm.mem_iff.mp hv) hfeas)
    exact this (h3 k2 hk1 hk2)

/-- The exactness bundle for the circulant entry point. -/
lemma circ_exact (n r : Nat) (os oe : Option Observer) (fuel k : Nat)
    (L : Labels)
    (h : (find_optimal_k_labeling "circulant" ⟨some n, some r⟩ os oe
      fuel).1 = .ok (some (k, L))) :
    calculate_circulant_lower_bound n r ≤ k ∧
    FeasibleK (generate_circulant_graph n r)
      (keysOf (generate_circulant_graph n r)) k ∧
    ∀ k2, calculate_circulant_lower_bound n r ≤ k2 → k2 < k →
      ¬ FeasibleK (generate_circulant_graph n r)
        (keysOf (generate_circulant_graph n r)) k2 := by
  have hloop := find_optimal_circ_inv n r os oe fuel k L h
  obtain ⟨h1, h2, h3⟩ := find_optimal_loop_some _ _ fuel _ k L hloop
  have hperm := insertionSortBy_perm
    (fun u v => !vLt v u) (keysOf (generate_circulant_graph n r))
  have hordernd : (ascending_order (generate_circulant_graph n r)).Nodup :=
    hperm.nodup_iff.mpr (circ_keys_nodup n r)
  have hiff := fun kk => backtrack_root_iff_feasible
    (generate_circulant_graph n r) kk
    (ascending_order (generate_circulant_graph n r))
    (circ_adjSym n r) (circ_no_self n r) (circ_keys_nodup n r)
    (circ_entry_nodup n r) hordernd
  refine ⟨h1, ?_, ?_⟩
  · apply feasibleK_mono_set _ _ _ _ (fun v hv => hperm.mem_iff.mpr hv)
    exact (hiff k).mp (by rw [h2]; simp)
  · intro k2 hk1 hk2 hfeas
    have : backtrack_k_labeling_generic (generate_circulant_graph n r) k2 []
        (ascending_order (generate_circulant_graph n r))
        (init_used_weights (2 * k2 + 1)) ≠ none :=
      (hiff k2).mpr
        (feasibleK_mono_set _ _ _ _ (fun v hv => hperm.mem_iff.mp hv) hfeas)
    exact this (h3 k2 hk1 hk2)

/-- The realized edge weights are exactly the full-scan weight list. -/
lemma mem_canonWeights_iff_realized (adj : AdjList)
    (hkeys : (keysOf adj).Nodup) (labels : Labels) (w : Nat) :
    w ∈ canonWeights labels adj ↔
      ∃ p, RealizedPair adj labels p ∧ pairWeight labels p = w := by
  rw [canonWeights, List.mem_map]
  constructor
  · rintro ⟨p, hp, hw⟩
    obtain ⟨h1, h2, h3, h4⟩ := of_mem_canonPairs labels adj hkeys p hp
    exact ⟨p, ⟨h1, h4, h2, h3⟩, hw⟩
  · rintro ⟨p, ⟨h1, h2, h3, h4⟩, hw⟩
    exact ⟨(p.1, p.2),
      mem_canonPairs_of labels adj p.1 p.2 h1 h3 h4 h2, hw⟩

lemma exists_dup_of_not_nodup_mapP (f : Vertex × Vertex → Nat) :
    ∀ l : List (Vertex × Vertex), l.Nodup → ¬(l.map f).Nodup →
      ∃ a b, a ∈ l ∧ b ∈ l ∧ a ≠ b ∧ f a = f b := by
  intro l
  induction l with
  | nil => intro _ h; simp at h
  | cons x rest ih =>
    intro hnd h
    obtain ⟨hx, hrest⟩ := List.nodup_cons.mp hnd
    rw [List.map_cons, List.nodup_cons] at h
    push_neg at h
    by_cases hmem : f x ∈ rest.map f
    · obtain ⟨b, hb, hfb⟩ := List.mem_map.mp hmem
      have hne : x ≠ b := fun he => hx (he ▸ hb)
      exact ⟨x, b, List.mem_cons_self _ _, List.mem_cons_of_mem _ hb, hne,
        hfb.symm⟩
    · obtain ⟨a, b, g1, g2, g3, g4⟩ := ih hrest (h hmem)
      exact ⟨a, b, List.mem_cons_of_mem _ g1, List.mem_cons_of_mem _ g2, g3,
        g4⟩

/-- Duplicate full-scan weights refute `DistinctRealized`. -/
lemma not_distinctRealized_of_dup_canonWeights (adj : AdjList)
    (hkeys : (keysOf adj).Nodup)
    (hentry : ∀ p ∈ adj, (p.2 : List Vertex).Nodup)
    (labels : Labels) (hdup : ¬ (canonWeights labels adj).Nodup) :
    ¬ DistinctRealized adj labels := by
  intro hdis
  rw [canonWeights] at hdup
  obtain ⟨a, b, ha, hb, hne, hfab⟩ :=
    exists_dup_of_not_nodup_mapP (pairWeight labels) (canonPairs labels adj)
      (canonPairs_nodup labels adj hkeys hentry) hdup
  obtain ⟨h1, h2, h3, h4⟩ := of_mem_canonPairs labels adj hkeys a ha
  obtain ⟨g1, g2, g3, g4⟩ := of_mem_canonPairs labels adj hkeys b hb
  exact hdis a b ⟨h1, h4, h2, h3⟩ ⟨g1, g4, g2, g3⟩ hne hfab

lemma bbLabelLoopTrace_invariant (adj : AdjList) (v : Vertex)
    (rest : List Vertex)
    (child : Labels → Finset Nat →
      Option Labels × List (Labels × Finset Nat))
    (labels : Labels) (used : Finset Nat)
    (hsym : AdjSym adj) (hself : v ∉ nbrsOf adj v)
    (hv : lookupL labels v = none)
    (hOK : usedSetOK adj labels used)
    (hdis : DistinctRealized adj labels)
    (hrest : ∀ u ∈ rest, lookupL labels u = none)
    (hvrest : v ∉ rest)
    (hchild : ∀ l2 u2, usedSetOK adj l2 u2 → DistinctRealized adj l2 →
        (∀ u ∈ rest, lookupL l2 u = none) →
        ∀ s ∈ (child l2 u2).2, DistinctRealized adj s.1) :
    ∀ cands, ∀ s ∈ (bbLabelLoopTrace adj v child cands labels used).2,
      DistinctRealized adj s.1 := by
  intro cands
  induction cands with
  | nil => intro s hs; simp [bbLabelLoopTrace] at hs
  | cons label cs ih =>
    intro s hs
    have herase : eraseKey (insertL labels v label) v = labels :=
      eraseKey_insertL_fresh labels v label hv
    cases hiav : is_assignment_valid adj v (insertL labels v label) used with
    | mk bres newlyr =>
      cases bres with
      | true =>
        have hOK2 := usedOK_commit adj labels used v label newlyr hsym hself
          hv hOK hiav
        have hdis2 := distinct_commit adj labels used v label newlyr hsym
          hself hv hOK hdis hiav
        have hfresh2 : ∀ u ∈ rest, lookupL (insertL labels v label) u =
            none := by
          intro u hu
          have hune : u ≠ v := fun he => hvrest (he ▸ hu)
          rw [lookupL_insertL_ne _ _ _ _ hune]
          exact hrest u hu
        have hchildOK := hchild (insertL labels v label) (used ∪ newlyr)
          hOK2 hdis2 hfresh2
        cases hc1 : (child (insertL labels v label) (used ∪ newlyr)).1 with
        | some r =>
          simp only [bbLabelLoopTrace, hiav, hc1] at hs
          exact hchildOK s hs
        | none =>
          simp only [bbLabelLoopTrace, hiav, hc1, herase, List.mem_append]
            at hs
          rcases hs with hs | hs
          · exact hchildOK s hs
          · exact ih s hs
      | false =>
        simp only [bbLabelLoopTrace, hiav, herase] at hs
        exact ih s hs

/-- Weight distinctness at every recorded state of the branch-and-bound
search: the incremental check (including the `newly_formed_weights` set)
keeps all realized edge weights pairwise distinct at entry of every
recursive call. -/
lemma bb_trace_invariant (adj : AdjList) (k : Nat)
    (hsym : AdjSym adj) (hself : ∀ u, u ∉ nbrsOf adj u) :
    ∀ order labels used,
      usedSetOK adj labels used →
      DistinctRealized adj labels →
      (∀ u ∈ order, lookupL labels u = none) →
      order.Nodup →
      ∀ s ∈ (solve_recursive_trace adj k order labels used).2,
        DistinctRealized adj s.1 := by
  intro order
  induction order with
  | nil =>
    intro labels used _ hdis _ _ s hs
    simp only [solve_recursive_trace, List.mem_singleton] at hs
    subst hs
    exact hdis
  | cons v rest ih =>
    intro labels used hOK hdis hunl hnd s hs
    simp only [solve_recursive_trace, List.mem_cons] at hs
    rcases hs with rfl | hs
    · exact hdis
    · refine bbLabelLoopTrace_invariant adj v rest _ labels used hsym
        (hself v) (hunl v (List.mem_cons_self _ _)) hOK hdis
        (fun u hu => hunl u (List.mem_cons_of_mem _ hu))
        (List.nodup_cons.mp hnd).1 ?_ (List.range' 1 k) s hs
      intro l2 u2 c1 c2 c3 s2 hs2
      exact ih l2 u2 c1 c2 c3 (List.nodup_cons.mp hnd).2 s2 hs2

/-! ### No `SOLUTION_FOUND` event is ever emitted -/

lemma btScanEv_no_sf (callback : Option Observer) (labels2 : Labels)
    (used : List Bool) (label : Nat) (v : Vertex) :
    ∀ nbrs, ∀ e ∈ (btScanEv callback labels2 used label v nbrs).2,
      e.type ≠ EventType.solution_found := by
  intro nbrs
  induction nbrs with
  | nil => intro e he; simp [btScanEv] at he
  | cons nb rest ih =>
    intro e he
    cases hnb : lookupL labels2 nb with
    | none =>
      simp only [btScanEv, hnb] at he
      exact ih e he
    | some bl =>
      by_cases hg : getW used (label + bl) = true
      · simp only [btScanEv, hnb, hg, if_true, List.mem_singleton] at he
        subst he
        simp
      · simp only [btScanEv, hnb, hg, Bool.false_eq_true, if_false,
          List.mem_cons] at he
        rcases he with rfl | he
        · simp
        · exact ih e he

lemma btLabelLoopEv_no_sf (callback : Option Observer) (adj : AdjList)
    (v : Vertex)
    (childEv : Labels → List Bool → Option Labels × List StepEvent)
    (hchild : ∀ l u, ∀ e ∈ (childEv l u).2,
      e.type ≠ EventType.solution_found) :
    ∀ cands labels used,
      ∀ e ∈ (btLabelLoopEv callback adj v childEv cands labels used).2,
        e.type ≠ EventType.solution_found := by
  intro cands
  induction cands with
  | nil =>
    intro labels used e he
    by_cases hl : (lookupL labels v).isSome = true
    · simp only [btLabelLoopEv, hl, if_true, List.mem_singleton] at he
      subst he
      simp
    · simp only [btLabelLoopEv, hl, Bool.false_eq_true, if_false] at he
      simp at he
  | cons label cs ih =>
    intro labels used e he
    cases hscan : (btScanEv callback (insertL labels v label) used label v
        (nbrsOf adj v)).1 with
    | none =>
      simp only [btLabelLoopEv, hscan, List.mem_cons, List.mem_append] at he
      rcases he with rfl | he | he
      · simp
      · exact btScanEv_no_sf callback _ used label v (nbrsOf adj v) e he
      · exact ih _ _ e he
    | some ws =>
      cases hc : (childEv (insertL labels v label) (markWeights used ws)).1
        with
      | some r =>
        simp only [btLabelLoopEv, hscan, hc, List.mem_cons, List.mem_append]
          at he
        rcases he with rfl | he | he
        · simp
        · exact btScanEv_no_sf callback _ used label v (nbrsOf adj v) e he
        · exact hchild _ _ e he
      | none =>
        simp only [btLabelLoopEv, hscan, hc, List.mem_cons, List.mem_append]
          at he
        rcases he with rfl | ((he | he) | he)
        · simp
        · exact btScanEv_no_sf callback _ used label v (nbrsOf adj v) e he
        · exact hchild _ _ e he
        · exact ih _ _ e he

lemma backtrack_ev_no_sf (callback : Option Observer) (adj : AdjList)
    (k : Nat) :
    ∀ rem labels used,
      ∀ e ∈ (backtrack_k_labeling_generic_ev callback adj k labels rem
        used).2, e.type ≠ EventType.solution_found := by
  intro rem
  induction rem with
  | nil =>
    intro labels used e he
    simp [backtrack_k_labeling_generic_ev] at he
  | cons v rest ih =>
    intro labels used e he
    rw [backtrack_k_labeling_generic_ev] at he
    exact btLabelLoopEv_no_sf callback adj v _ (fun l u => ih l u) _ labels
      used e he

lemma find_optimal_loop_ev_no_sf (on_step on_event : Option Observer)
    (adj : AdjList) (vertices : List Vertex) :
    ∀ fuel k,
      ∀ e ∈ (find_optimal_loop_ev on_step on_event adj vertices k fuel).2,
        e.type ≠ EventType.solution_found := by
  intro fuel
  induction fuel with
  | zero => intro k e he; simp [find_optimal_loop_ev] at he
  | succ fuel2 ih =>
    intro k e he
    cases on_event with
    | some f =>
      cases hres : (backtrack_k_labeling_generic_ev (some f) adj k []
          vertices (init_used_weights (2 * k + 1))).1 with
      | some labeling =>
        simp only [find_optimal_loop_ev, hres] at he
        by_cases hval : is_labeling_valid adj labeling = true
        · rw [if_pos hval] at he
          exact backtrack_ev_no_sf (some f) adj k vertices [] _ e he
        · rw [if_neg hval] at he
          rcases List.mem_append.mp he with he | he
          · exact backtrack_ev_no_sf (some f) adj k vertices [] _ e he
          · exact ih (k + 1) e he
      | none =>
        simp only [find_optimal_loop_ev, hres] at he
        rcases List.mem_append.mp he with he | he
        · exact backtrack_ev_no_sf (some f) adj k vertices [] _ e he
        · exact ih (k + 1) e he
    | none =>
      cases hres : (backtrack_k_labeling_generic_ev on_step adj k []
          vertices (init_used_weights (2 * k + 1))).1 with
      | some labeling =>
        simp only [find_optimal_loop_ev, hres] at he
        by_cases hval : is_labeling_valid adj labeling = true
        · rw [if_pos hval] at he
          exact backtrack_ev_no_sf on_step adj k vertices [] _ e he
        · rw [if_neg hval] at he
          rcases List.mem_append.mp he with he | he
          · exact backtrack_ev_no_sf on_step adj k vertices [] _ e he
          · exact ih (k + 1) e he
      | none =>
        simp only [find_optimal_loop_ev, hres] at he
        rcases List.mem_append.mp he with he | he
        · exact backtrack_ev_no_sf on_step adj k vertices [] _ e he
        · exact ih (k + 1) e he

/-- No call of the exact entry point ever emits a `SOLUTION_FOUND` event:
the solver module never constructs one. -/
lemma find_optimal_no_sf (graph_type : String) (graph_params : GraphParams)
    (os oe : Option Observer) (fuel : Nat) :
    ∀ e ∈ (find_optimal_k_labeling graph_type graph_params os oe fuel).2,
      e.type ≠ EventType.solution_found := by
  intro e he
  rw [find_optimal_k_labeling] at he
  by_cases h1 : graph_type = "mongolian_tent"
  · rw [if_pos h1] at he
    cases hn : graph_params.n with
    | none => rw [hn] at he; simp at he
    | some ts =>
      rw [hn] at he
      by_cases hts : ts ≤ 0
      · simp only [hts, if_true] at he
        simp at he
      · simp only [hts, Bool.false_eq_true, if_false] at he
        exact find_optimal_loop_ev_no_sf os oe _ _ fuel _ e he
  · rw [if_neg h1] at he
    by_cases h2 : graph_type = "circulant"
    · rw [if_pos h2] at he
      cases hn : graph_params.n with
      | none => rw [hn] at he; simp at he
      | some n =>
        cases hr : graph_params.r with
        | none => rw [hn, hr] at he; simp at he
        | some r =>
          rw [hn, hr] at he
          by_cases hg : n ≤ 0 ∨ r ≤ 0
          · simp only [hg, if_true] at he
            simp at he
          · simp only [hg, if_false] at he
            by_cases hadj : generate_circulant_graph n r = []
            · simp only [hadj, if_true] at he
              simp at he
            · simp only [hadj, if_false] at he
              exact find_optimal_loop_ev_no_sf os oe _ _ fuel _ e he
    · rw [if_neg h2] at he
      simp at he

/-- The exact entry point's result does not depend on the attached
observers: emission happens behind `_maybe_emit`, which swallows any
callback exception. -/
lemma find_optimal_fst_indep (graph_type : String)
    (graph_params : GraphParams) (os oe os2 oe2 : Option Observer)
    (fuel : Nat) :
    (find_optimal_k_labeling graph_type graph_params os oe fuel).1 =
      (find_optimal_k_labeling graph_type graph_params os2 oe2 fuel).1 := by
  rw [find_optimal_k_labeling, find_optimal_k_labeling]
  by_cases h1 : graph_type = "mongolian_tent"
  · rw [if_pos h1, if_pos h1]
    cases hn : graph_params.n with
    | none => rfl
    | some ts =>
      by_cases hts : ts ≤ 0
      · simp [hts]
      · simp only [hts, Bool.false_eq_true, if_false]
        rw [find_optimal_loop_ev_fst, find_optimal_loop_ev_fst]
  · rw [if_neg h1, if_neg h1]
    by_cases h2 : graph_type = "circulant"
    · rw [if_pos h2, if_pos h2]
      cases hn : graph_params.n with
      | none => rfl
      | some n =>
        cases hr : graph_params.r with
        | none => rfl
        | some r =>
          dsimp only
          by_cases hg : n ≤ 0 ∨ r ≤ 0
          · rw [if_pos hg, if_pos hg]
          · simp only [hg, if_false]
            by_cases hadj : generate_circulant_graph n r = []
            · simp [hadj]
            · simp only [hadj, if_false]
              rw [find_optimal_loop_ev_fst, find_optimal_loop_ev_fst]
    · rw [if_neg h2, if_neg h2]

lemma ffPasses_valid (adj : AdjList) (graph_type : String) (k : Nat)
    (shuffleV : Nat → Nat → List Vertex → List Vertex)
    (labelOrder : Nat → Nat → Nat → List Nat) (fuel : Nat) :
    ∀ p l, ffPasses adj graph_type k shuffleV labelOrder fuel p =
        some (some l) →
      is_labeling_valid adj l = true := by
  intro p
  induction p with
  | zero => intro l h; simp [ffPasses] at h
  | succ p2 ih =>
    intro l h
    rw [ffPasses] at h
    cases hg : greedy_k_labeling adj k 1 none 3 graph_type (shuffleV p2)
        (labelOrder p2) fuel with
    | none => rw [hg] at h; simp at h
    | some res =>
      obtain ⟨result, fcr⟩ := res
      rw [hg] at h
      cases result with
      | some l2 =>
        dsimp only at h
        by_cases hcond : l2 ≠ [] ∧ is_labeling_valid adj l2 = true
        · rw [if_pos hcond] at h
          obtain rfl := (Option.some.injEq _ _).mp ((Option.some.injEq _ _).mp h)
          exact hcond.2
        · rw [if_neg hcond] at h
          exact ih l h
      | none =>
        dsimp only at h
        exact ih l h

lemma ffWhile_valid (adj : AdjList) (graph_type : String)
    (algorithm : String) (num_attempts : Nat) (tentSize : Option Nat)
    (shuffleVF : Nat → Nat → Nat → List Vertex → List Vertex)
    (labelOrderF : Nat → Nat → Nat → Nat → List Nat) (fuel : Nat) :
    ∀ steps k fc k2 l,
      ffWhile adj graph_type algorithm num_attempts tentSize shuffleVF
        labelOrderF fuel steps k fc = some (.ok (some (k2, l))) →
      is_labeling_valid adj l = true := by
  intro steps
  induction steps with
  | zero => intro k fc k2 l h; simp [ffWhile] at h
  | succ steps2 ih =>
    intro k fc k2 l h
    simp only [ffWhile] at h
    by_cases halg : algorithm = "fast"
    · rw [if_pos halg] at h
      cases hff : first_fit_greedy_k_labeling adj k graph_type with
      | some l1 =>
        rw [hff] at h
        dsimp only at h
        by_cases hcond : l1 ≠ [] ∧ is_labeling_valid adj l1 = true
        · rw [if_pos hcond] at h
          have := (Option.some.injEq _ _).mp h
          obtain ⟨rfl, rfl⟩ := Prod.mk.injEq _ _ _ _ ▸
            (Option.some.injEq _ _).mp ((Except.ok.injEq _ _).mp this)
          exact hcond.2
        · rw [if_neg hcond] at h
          cases hts : tentSize with
          | none => rw [hts] at h; dsimp only at h; simp at h
          | some ts =>
            rw [hts] at h
            dsimp only at h
            cases hp : ffPasses adj graph_type k (shuffleVF k)
                (labelOrderF k) fuel (max 2 (min 10 (ts / 2))) with
            | none => rw [hp] at h; dsimp only at h; simp at h
            | some pres =>
              rw [hp] at h
              cases pres with
              | some l2 =>
                dsimp only at h
                have := (Option.some.injEq _ _).mp h
                obtain ⟨rfl, rfl⟩ := Prod.mk.injEq _ _ _ _ ▸
                  (Option.some.injEq _ _).mp ((Except.ok.injEq _ _).mp this)
                exact ffPasses_valid adj graph_type k (shuffleVF k)
                  (labelOrderF k) fuel _ _ hp
              | none =>
                dsimp only at h
                rw [← hts] at h
                exact ih _ _ _ _ h
      | none =>
        rw [hff] at h
        dsimp only at h
        cases hts : tentSize with
        | none => rw [hts] at h; dsimp only at h; simp at h
        | some ts =>
          rw [hts] at h
          dsimp only at h
          cases hp : ffPasses adj graph_type k (shuffleVF k)
              (labelOrderF k) fuel (max 2 (min 10 (ts / 2))) with
          | none => rw [hp] at h; dsimp only at h; simp at h
          | some pres =>
            rw [hp] at h
            cases pres with
            | some l2 =>
              dsimp only at h
              have := (Option.some.injEq _ _).mp h
              obtain ⟨rfl, rfl⟩ := Prod.mk.injEq _ _ _ _ ▸
                (Option.some.injEq _ _).mp ((Except.ok.injEq _ _).mp this)
              exact ffPasses_valid adj graph_type k (shuffleVF k)
                (labelOrderF k) fuel _ _ hp
            | none =>
              dsimp only at h
              rw [← hts] at h
              exact ih _ _ _ _ h
    · rw [if_neg halg] at h
      cases hg : greedy_k_labeling adj k num_attempts (some fc) 3 graph_type
          (shuffleVF k 0) (labelOrderF k 0) fuel with
      | none => rw [hg] at h; simp at h
      | some res =>
        obtain ⟨result, fcr⟩ := res
        rw [hg] at h
        cases result with
        | some l1 =>
          dsimp only at h
          by_cases hcond : l1 ≠ [] ∧ is_labeling_valid adj l1 = true
          · rw [if_pos hcond] at h
            have := (Option.some.injEq _ _).mp h
            obtain ⟨rfl, rfl⟩ := Prod.mk.injEq _ _ _ _ ▸
              (Option.some.injEq _ _).mp ((Except.ok.injEq _ _).mp this)
            exact hcond.2
          · rw [if_neg hcond] at h
            exact ih _ _ _ _ h
        | none =>
          dsimp only at h
          exact ih _ _ _ _ h

lemma find_feasible_mt_valid (ts mult na : Nat) (alg : String)
    (sv : Nat → Nat → Nat → List Vertex → List Vertex)
    (lo : Nat → Nat → Nat → Nat → List Nat) (fuel k : Nat) (l : Labels)
    (h : find_feasible_k_labeling "mongolian_tent" ⟨some ts, none⟩ mult na
      alg sv lo fuel = some (.ok (some (k, l)))) :
    is_labeling_valid (create_mongolian_tent_graph ts) l = true := by
  rw [find_feasible_k_labeling, if_pos rfl] at h
  dsimp only at h
  by_cases hts : ts ≤ 0
  · rw [if_pos hts] at h
    simp at h
  · rw [if_neg hts] at h
    rw [ffCore] at h
    by_cases hm : mult < 1
    · rw [if_pos hm] at h
      simp at h
    · rw [if_neg hm] at h
      exact ffWhile_valid _ _ _ _ _ _ _ _ _ _ _ _ _ h

lemma find_feasible_circ_valid (n r mult na : Nat) (alg : String)
    (sv : Nat → Nat → Nat → List Vertex → List Vertex)
    (lo : Nat → Nat → Nat → Nat → List Nat) (fuel k : Nat) (l : Labels)
    (h : find_feasible_k_labeling "circulant" ⟨some n, some r⟩ mult na alg
      sv lo fuel = some (.ok (some (k, l)))) :
    is_labeling_valid (generate_circulant_graph n r) l = true := by
  rw [find_feasible_k_labeling, if_neg (by decide), if_pos rfl] at h
  dsimp only at h
  by_cases hg : n ≤ 0 ∨ r ≤ 0
  · rw [if_pos hg] at h
    simp at h
  · rw [if_neg hg] at h
    by_cases hadj : generate_circulant_graph n r = []
    · rw [if_pos hadj] at h
      simp at h
    · rw [if_neg hadj] at h
      rw [ffCore] at h
      by_cases hm : mult < 1
      · rw [if_pos hm] at h
        simp at h
      · rw [if_neg hm] at h
        exact ffWhile_valid _ _ _ _ _ _ _ _ _ _ _ _ _ h

lemma circ_nonempty_guard (n r : Nat)
    (h : generate_circulant_graph n r ≠ []) :
    6 ≤ n ∧ n ≤ 50 ∧ n % 2 = 0 := by
  by_contra hg
  rw [generate_circulant_graph, if_neg hg] at h
  exact h rfl

/-- In fast mode on a non-mongolian-tent path, whenever the deterministic
first-fit pass does not return a valid nonempty labeling at the current
`k`, the `passes` computation reads the unassigned local `tent_size` and the
call errors out instead of running the randomized passes. -/
lemma ffWhile_fast_nameError (adj : AdjList) (graph_type : String)
    (na : Nat) (sv : Nat → Nat → Nat → List Vertex → List Vertex)
    (lo : Nat → Nat → Nat → Nat → List Nat) (fuel : Nat)
    (steps k : Nat) (fc : Vertex → Nat) (hsteps : 1 ≤ steps)
    (hff : match first_fit_greedy_k_labeling adj k graph_type with
      | none => True
      | some l => l = [] ∨ is_labeling_valid adj l = false) :
    ffWhile adj graph_type "fast" na none sv lo fuel steps k fc =
      some (.error .nameError) := by
  obtain ⟨s, rfl⟩ : ∃ s, steps = s + 1 :=
    ⟨steps - 1, by omega⟩
  simp only [ffWhile, if_pos rfl]
  cases hffr : first_fit_greedy_k_labeling adj k graph_type with
  | none => rfl
  | some l =>
    rw [hffr] at hff
    dsimp only
    have hcond : ¬ (l ≠ [] ∧ is_labeling_valid adj l = true) := by
      rcases hff with h | h
      · intro hc; exact hc.1 h
      · intro hc; rw [h] at hc; exact absurd hc.2 (by simp)
    rw [if_neg hcond]
    simp

lemma find_feasible_circ_fast_nameError (n r mult na : Nat)
    (sv : Nat → Nat → Nat → List Vertex → List Vertex)
    (lo : Nat → Nat → Nat → Nat → List Nat) (fuel : Nat)
    (hm : 1 ≤ mult) (hadj : generate_circulant_graph n r ≠ [])
    (hpos : ¬ (n ≤ 0 ∨ r ≤ 0))
    (hff : match first_fit_greedy_k_labeling (generate_circulant_graph n r)
        (calculate_circulant_lower_bound n r) "circulant" with
      | none => True
      | some l => l = [] ∨
          is_labeling_valid (generate_circulant_graph n r) l = false) :
    find_feasible_k_labeling "circulant" ⟨some n, some r⟩ mult na "fast" sv
      lo fuel = some (.error .nameError) := by
  rw [find_feasible_k_labeling, if_neg (by decide), if_pos rfl]
  dsimp only
  rw [if_neg hpos, if_neg hadj, ffCore, if_neg (by omega)]
  obtain ⟨h6, _, _⟩ := circ_nonempty_guard n r hadj
  have hlb : 1 ≤ calculate_circulant_lower_bound n r := by
    rw [calculate_circulant_lower_bound, if_neg (by omega)]
    exact le_trans (by omega : 1 ≤ r) (le_max_right _ _)
  have hsteps : 1 ≤ calculate_circulant_lower_bound n r * mult + 1 -
      calculate_circulant_lower_bound n r := by
    have : calculate_circulant_lower_bound n r ≤
        calculate_circulant_lower_bound n r * mult :=
      Nat.le_mul_of_pos_right _ (by omega)
    omega
  exact ffWhile_fast_nameError _ _ na sv lo fuel _ _ _ hsteps hff

lemma usedSetOK_empty (adj : AdjList) : usedSetOK adj [] ∅ := by
  intro w
  constructor
  · intro h; simp at h
  · rintro ⟨p, ⟨_, _, h3, _⟩, _⟩
    simp [lookupL] at h3

lemma distinctRealized_empty (adj : AdjList) : DistinctRealized adj [] := by
  rintro p q ⟨_, _, h3, _⟩ _ _
  simp [lookupL] at h3

/-! ### The claims -/

/-- C1: every labeling returned by `find_optimal_k_labeling`,
`BranchAndBoundSolver.find_es`, or `find_feasible_k_labeling` is valid: for
adjacent labeled pairs, taken once per canonical edge, the edge weights are
pairwise distinct. -/
theorem spec_C1 :
    (∀ (n : Nat) (os oe : Option Observer) (fuel k : Nat) (L : Labels),
      1 ≤ n →
      (find_optimal_k_labeling "mongolian_tent" ⟨some n, none⟩ os oe
        fuel).1 = .ok (some (k, L)) →
      ValidLabeling (create_mongolian_tent_graph n) L) ∧
    (∀ (n r : Nat) (os oe : Option Observer) (fuel k : Nat) (L : Labels),
      (find_optimal_k_labeling "circulant" ⟨some n, some r⟩ os oe fuel).1 =
        .ok (some (k, L)) →
      ValidLabeling (generate_circulant_graph n r) L) ∧
    (∀ (n fuel k : Nat) (L : Labels), find_es n fuel = some (k, L) →
      ValidLabeling (create_mongolian_tent_graph n) L) ∧
    (∀ (ts mult na : Nat) (alg : String)
      (sv : Nat → Nat → Nat → List Vertex → List Vertex)
      (lo : Nat → Nat → Nat → Nat → List Nat) (fuel k : Nat) (L : Labels),
      find_feasible_k_labeling "mongolian_tent" ⟨some ts, none⟩ mult na alg
        sv lo fuel = some (.ok (some (k, L))) →
      ValidLabeling (create_mongolian_tent_graph ts) L) ∧
    (∀ (n r mult na : Nat) (alg : String)
      (sv : Nat → Nat → Nat → List Vertex → List Vertex)
      (lo : Nat → Nat → Nat → Nat → List Nat) (fuel k : Nat) (L : Labels),
      find_feasible_k_labeling "circulant" ⟨some n, some r⟩ mult na alg sv
        lo fuel = some (.ok (some (k, L))) →
      ValidLabeling (generate_circulant_graph n r) L) := by
  refine ⟨?_, ?_, ?_, ?_, ?_⟩
  · intro n os oe fuel k L hn h
    have hloop := find_optimal_mt_inv n os oe fuel k L hn h
    obtain ⟨_, h2, _⟩ := find_optimal_loop_some _ _ fuel _ k L hloop
    exact validLabeling_of_checker _ _ (backtrack_sound _ k _ [] _ L h2).1
  · intro n r os oe fuel k L h
    have hloop := find_optimal_circ_inv n r os oe fuel k L h
    obtain ⟨_, h2, _⟩ := find_optimal_loop_some _ _ fuel _ k L hloop
    exact validLabeling_of_checker _ _ (backtrack_sound _ k _ [] _ L h2).1
  · intro n fuel k L h
    rw [find_es] at h
    obtain ⟨_, h2, _⟩ := find_es_loop_some _ _ fuel _ k L h
    obtain ⟨hd, _, _⟩ := solve_recursive_sound _ k (mt_adjSym n)
      (mt_no_self n) _ [] ∅ L (usedSetOK_empty _) (distinctRealized_empty _)
      (fun u _ => rfl) (smart_order_nodup n) h2
    exact validLabeling_of_distinctRealized _ _ hd
  · intro ts mult na alg sv lo fuel k L h
    exact validLabeling_of_checker _ _
      (find_feasible_mt_valid ts mult na alg sv lo fuel k L h)
  · intro n r mult na alg sv lo fuel k L h
    exact validLabeling_of_checker _ _
      (find_feasible_circ_valid n r mult na alg sv lo fuel k L h)

/-- Witness for C1 at a solved Mongolian Tent instance (n = 1). -/
theorem spec_C1_witness :
    ValidLabeling (create_mongolian_tent_graph 1)
      [(.coord 1 1, 1), (.coord 2 1, 2), (.coord 3 1, 2), (.apex, 1)] :=
  spec_C1.1 1 none none 10 2
    [(.coord 1 1, 1), (.coord 2 1, 2), (.coord 3 1, 2), (.apex, 1)]
    (by decide) (by rfl)

/-- C2: the `k` returned by the exact solver is the least value at or above
the supplied lower bound admitting a valid complete in-range labeling of
the graph's vertex set. -/
theorem spec_C2 :
    (∀ (n : Nat) (os oe : Option Observer) (fuel k : Nat) (L : Labels),
      1 ≤ n →
      (find_optimal_k_labeling "mongolian_tent" ⟨some n, none⟩ os oe
        fuel).1 = .ok (some (k, L)) →
      calculate_lower_bound n ≤ k ∧
      FeasibleK (create_mongolian_tent_graph n)
        (keysOf (create_mongolian_tent_graph n)) k ∧
      ∀ k2, calculate_lower_bound n ≤ k2 → k2 < k →
        ¬ FeasibleK (create_mongolian_tent_graph n)
          (keysOf (create_mongolian_tent_graph n)) k2) ∧
    (∀ (n r : Nat) (os oe : Option Observer) (fuel k : Nat) (L : Labels),
      (find_optimal_k_labeling "circulant" ⟨some n, some r⟩ os oe fuel).1 =
        .ok (some (k, L)) →
      calculate_circulant_lower_bound n r ≤ k ∧
      FeasibleK (generate_circulant_graph n r)
        (keysOf (generate_circulant_graph n r)) k ∧
      ∀ k2, calculate_circulant_lower_bound n r ≤ k2 → k2 < k →
        ¬ FeasibleK (generate_circulant_graph n r)
          (keysOf (generate_circulant_graph n r)) k2) :=
  ⟨fun n os oe fuel k L hn h => mt_exact n os oe fuel k L hn h,
   fun n r os oe fuel k L h => circ_exact n r os oe fuel k L h⟩

/-- Witness for C2 at the solved circulant instance C(6, ·), k = 2. -/
theorem spec_C2_witness :
    calculate_circulant_lower_bound 6 1 ≤ 2 ∧
    FeasibleK (generate_circulant_graph 6 1)
      (keysOf (generate_circulant_graph 6 1)) 2 ∧
    ∀ k2, calculate_circulant_lower_bound 6 1 ≤ k2 → k2 < 2 →
      ¬ FeasibleK (generate_circulant_graph 6 1)
        (keysOf (generate_circulant_graph 6 1)) k2 :=
  spec_C2.2 6 1 none none 1 2
    [(.node 0, 1), (.node 1, 1), (.node 2, 1), (.node 3, 1), (.node 4, 1),
     (.node 5, 1)] (by rfl)

/-- C3: the solver module never emits a `SOLUTION_FOUND` event — not even
on a successful call with an observer attached (which the second and third
conjuncts exhibit), contradicting the specified exactly-once emission. -/
theorem spec_C3 :
    (∀ (graph_type : String) (graph_params : GraphParams)
      (os oe : Option Observer) (fuel : Nat) (e : StepEvent),
      e ∈ (find_optimal_k_labeling graph_type graph_params os oe fuel).2 →
      e.type ≠ EventType.solution_found) ∧
    (find_optimal_k_labeling "circulant" ⟨some 6, some 1⟩ none
      (some (fun _ => Except.ok ())) 3).1 =
      .ok (some (2, [(.node 0, 1), (.node 1, 1), (.node 2, 1), (.node 3, 1),
        (.node 4, 1), (.node 5, 1)])) ∧
    ((find_optimal_k_labeling "circulant" ⟨some 6, some 1⟩ none
      (some (fun _ => Except.ok ())) 3).2.filter
      (fun e => e.type == EventType.solution_found)).length = 0 :=
  ⟨fun gt gp os oe fuel e he => find_optimal_no_sf gt gp os oe fuel e he,
   by rfl, by rfl⟩

/-- Witness for C3 at the first event of the successful C(6, ·) run. -/
theorem spec_C3_witness :
    (⟨.vertex_labeled, .vl (.node 0) 1⟩ : StepEvent).type ≠
      EventType.solution_found :=
  spec_C3.1 "circulant" ⟨some 6, some 1⟩ none (some (fun _ => Except.ok ()))
    3 ⟨.vertex_labeled, .vl (.node 0) 1⟩ (by decide)

/-- C4 (amended): at every recorded state of the branch-and-bound search —
whose `_is_assignment_valid` tracks the `newly_formed_weights` of the
current single assignment — no two distinct realized edges have equal
weight.  The generic mask-based backtracker does reach states violating
this (see the counterexample). -/
theorem spec_C4 : ∀ (n k : Nat),
    ∀ s ∈ (solve_recursive_trace (create_mongolian_tent_graph n) k
      (create_smart_vertex_order n) [] ∅).2,
      DistinctRealized (create_mongolian_tent_graph n) s.1 := by
  intro n k s hs
  exact bb_trace_invariant _ k (mt_adjSym n) (mt_no_self n) _ [] ∅
    (usedSetOK_empty _) (distinctRealized_empty _) (fun u _ => rfl)
    (smart_order_nodup n) s hs

/-- Witness for C4 at the root state of the n = 1 search. -/
theorem spec_C4_witness :
    DistinctRealized (create_mongolian_tent_graph 1)
      ((([], ∅) : Labels × Finset Nat)).1 :=
  spec_C4 1 2 ([], ∅) (by decide)

/-- Counterexample to C4 as stated: the exact backtracker on the circulant
C(8, ·) instance at `k = 3` records a state in which two distinct realized
edges share a weight (both created by the same single assignment, which the
mask-based conflict check cannot detect). -/
theorem spec_C4_counterexample :
    stateC4 ∈ (backtrack_trace (generate_circulant_graph 8 1) 3 []
      (ascending_order (generate_circulant_graph 8 1))
      (init_used_weights (2 * 3 + 1))).2 ∧
    ¬ DistinctRealized (generate_circulant_graph 8 1) stateC4.1 := by
  constructor
  · decide
  · exact not_distinctRealized_of_dup_canonWeights _ (circ_keys_nodup 8 1)
      (circ_entry_nodup 8 1) _ (by decide)

/-- C5 (amended): in the exact backtracking search, at every recorded state
the used-weight mask is exactly the set of weights of currently realized
edges.  The greedy solver's backjump does not restore this consistency (see
the counterexample). -/
theorem spec_C5 : ∀ (adj : AdjList) (k : Nat) (order : List Vertex),
    AdjSym adj → (∀ u, u ∉ nbrsOf adj u) → order.Nodup →
    ∀ s ∈ (backtrack_trace adj k [] order
      (init_used_weights (2 * k + 1))).2,
      trackerOK adj s.1 s.2 := by
  intro adj k order hsym hself hnd s hs
  exact backtrack_trace_invariant adj k hsym hself order []
    (init_used_weights (2 * k + 1)) (by simp [init_used_weights])
    (trackerOK_init adj _) (fun v a hva => by simp [lookupL] at hva)
    (fun u _ => rfl) hnd s hs

/-- Witness for C5 at the root state of the C(6, ·) search. -/
theorem spec_C5_witness :
    trackerOK (generate_circulant_graph 6 1) []
      (init_used_weights (2 * 2 + 1)) :=
  spec_C5 (generate_circulant_graph 6 1) 2
    (ascending_order (generate_circulant_graph 6 1)) (circ_adjSym 6 1)
    (circ_no_self 6 1) (by decide) ([], init_used_weights (2 * 2 + 1))
    (by decide)

/-- Counterexample to C5 as stated: greedy attempt 0 on the 4-vertex
instance (vertex order = the dict's key order, i.e. the identity shuffle)
reaches, right after its first backjump, a state whose mask still marks
weight 2 although no realized edge exists. -/
theorem spec_C5_counterexample :
    keysOf adjC5 = vertsC5 ∧
    stateC5 ∈ (greedyLoopTrace adjC5 2 vertsC5 (fun _ => [1, 2]) 3 20 0 0 0
      [] (init_used_weights (2 * 2 + 1)) none).2 ∧
    ¬ trackerOK adjC5 stateC5.1 stateC5.2 := by
  refine ⟨rfl, by decide, ?_⟩
  intro htr
  have h2 := (htr 2).mp (by decide)
  have hmem : 2 ∈ canonWeights stateC5.1 adjC5 :=
    (mem_canonWeights_iff_realized adjC5 (by decide) stateC5.1 2).mpr h2
  exact absurd hmem (by decide)

/-- C6: when both increasing-k searches return, the exact generic solver
and the branch-and-bound solver find the same minimal `k` for the Mongolian
Tent graph. -/
theorem spec_C6 : ∀ (n : Nat) (os oe : Option Observer)
    (fuel1 fuel2 k1 k2 : Nat) (L1 L2 : Labels), 1 ≤ n →
    (find_optimal_k_labeling "mongolian_tent" ⟨some n, none⟩ os oe
      fuel1).1 = .ok (some (k1, L1)) →
    find_es n fuel2 = some (k2, L2) →
    k1 = k2 := by
  intro n os oe fuel1 fuel2 k1 k2 L1 L2 hn h1 h2
  obtain ⟨hlb1, hfeas1, hmin1⟩ := mt_exact n os oe fuel1 k1 L1 hn h1
  rw [find_es] at h2
  obtain ⟨hlb2, hsolve2, hmin2⟩ := find_es_loop_some _ _ fuel2 _ k2 L2 h2
  have hn0 : n ≠ 0 := by omega
  have hiff := fun kk => solve_root_iff_feasible
    (create_mongolian_tent_graph n) kk (create_smart_vertex_order n)
    (mt_adjSym n) (mt_no_self n) (mt_entry_nodup n) (smart_order_nodup n)
  have hks : ∀ z, z ∈ keysOf (create_mongolian_tent_graph n) ↔
      z ∈ create_smart_vertex_order n := by
    intro z
    rw [mt_keys_mem n hn0 z, smart_order_mem n z]
  have hfeas2 : FeasibleK (create_mongolian_tent_graph n)
      (keysOf (create_mongolian_tent_graph n)) k2 :=
    feasibleK_mono_set _ _ _ _ (fun v hv => (hks v).mp hv)
      ((hiff k2).mp (by rw [hsolve2]; simp))
  by_contra hne
  rcases Nat.lt_or_ge k1 k2 with hlt | hge
  · have hnone := hmin2 k1 hlb1 hlt
    have hfs : FeasibleK (create_mongolian_tent_graph n)
        (create_smart_vertex_order n) k1 :=
      feasibleK_mono_set _ _ _ _ (fun v hv => (hks v).mpr hv) hfeas1
    exact (hiff k1).mpr hfs hnone
  · have hlt2 : k2 < k1 := by omega
    exact hmin1 k2 hlb2 hlt2 hfeas2

/-- Witness for C6 at n = 1: both solvers return k = 2. -/
theorem spec_C6_witness : (2 : Nat) = 2 :=
  spec_C6 1 none none 10 10 2 2
    [(.coord 1 1, 1), (.coord 2 1, 2), (.coord 3 1, 2), (.apex, 1)]
    [(.apex, 1), (.coord 3 1, 2), (.coord 2 1, 2), (.coord 1 1, 1)]
    (by decide) (by rfl) (by rfl)

lemma ffLabelLoopEv_fst (callback : Option Observer) (adj : AdjList)
    (vertex : Vertex) (labels : Labels) (used : List Bool) :
    ∀ cands, (ffLabelLoopEv callback adj vertex labels used cands).1 =
      ffLabelLoop adj vertex labels used cands := by
  intro cands
  induction cands with
  | nil => rfl
  | cons label rest ih =>
    simp only [ffLabelLoopEv, ffLabelLoop, btScanEv_fst]
    cases hscan : btScan labels used label (nbrsOf adj vertex) with
    | some ws => rfl
    | none => simpa using ih

lemma ffVertexLoopEv_fst (callback : Option Observer) (adj : AdjList)
    (k : Nat) :
    ∀ (vertices : List Vertex) (labels : Labels) (used : List Bool),
      (ffVertexLoopEv callback adj k vertices labels used).1 =
        ffVertexLoop adj k vertices labels used := by
  intro vertices
  induction vertices with
  | nil => intro labels used; rfl
  | cons vertex rest ih =>
    intro labels used
    simp only [ffVertexLoopEv, ffVertexLoop, ffLabelLoopEv_fst]
    cases hl : ffLabelLoop adj vertex labels used (List.range' 1 k) with
    | none => rfl
    | some lw =>
      obtain ⟨label, ws⟩ := lw
      simpa using ih (insertL labels vertex label) (markWeights used ws)

lemma first_fit_ev_fst (callback : Option Observer) (adj : AdjList)
    (k_upper_bound : Nat) (graph_type : String) :
    (first_fit_greedy_k_labeling_ev callback adj k_upper_bound
      graph_type).1 =
      first_fit_greedy_k_labeling adj k_upper_bound graph_type := by
  simp only [first_fit_greedy_k_labeling_ev, first_fit_greedy_k_labeling]
  exact ffVertexLoopEv_fst callback adj k_upper_bound _ _ _

lemma ffWhileEv_fst (callback : Option Observer) (adj : AdjList)
    (graph_type : String) (algorithm : String) (num_attempts : Nat)
    (tentSize : Option Nat)
    (shuffleVF : Nat → Nat → Nat → List Vertex → List Vertex)
    (labelOrderF : Nat → Nat → Nat → Nat → List Nat) (fuel : Nat) :
    ∀ steps k fc,
      (ffWhileEv callback adj graph_type algorithm num_attempts tentSize
        shuffleVF labelOrderF fuel steps k fc).1 =
        ffWhile adj graph_type algorithm num_attempts tentSize shuffleVF
          labelOrderF fuel steps k fc := by
  intro steps
  induction steps with
  | zero => intro k fc; rfl
  | succ steps2 ih =>
    intro k fc
    simp only [ffWhileEv, ffWhile, first_fit_ev_fst]
    by_cases halg : algorithm = "fast"
    · rw [if_pos halg, if_pos halg]
      cases hff : first_fit_greedy_k_labeling adj k graph_type with
      | some l =>
        dsimp only
        by_cases hcond : l ≠ [] ∧ is_labeling_valid adj l = true
        · rw [if_pos hcond, if_pos hcond]
        · rw [if_neg hcond, if_neg hcond]
          cases hts : tentSize with
          | none => rfl
          | some ts =>
            dsimp only
            cases hp : ffPasses adj graph_type k (shuffleVF k)
                (labelOrderF k) fuel (max 2 (min 10 (ts / 2))) with
            | none => rfl
            | some pres =>
              cases pres with
              | some l2 => rfl
              | none =>
                rw [← hts]
                simpa using ih (k + 1) fc
      | none =>
        dsimp only
        cases hts : tentSize with
        | none => rfl
        | some ts =>
          dsimp only
          cases hp : ffPasses adj graph_type k (shuffleVF k) (labelOrderF k)
              fuel (max 2 (min 10 (ts / 2))) with
          | none => rfl
          | some pres =>
            cases pres with
            | some l2 => rfl
            | none =>
              rw [← hts]
              simpa using ih (k + 1) fc
    · rw [if_neg halg, if_neg halg]
      cases hg : greedy_k_labeling adj k num_attempts (some fc) 3 graph_type
          (shuffleVF k 0) (labelOrderF k 0) fuel with
      | none => rfl
      | some res =>
        obtain ⟨result, fc2out⟩ := res
        cases result with
        | some l =>
          dsimp only
          by_cases hcond : l ≠ [] ∧ is_labeling_valid adj l = true
          · rw [if_pos hcond, if_pos hcond]
          · rw [if_neg hcond, if_neg hcond]
            exact ih (k + 1) _
        | none => simpa using ih (k + 1) _

lemma ffCoreEv_fst (callback : Option Observer) (adj : AdjList)
    (graph_type : String) (lower_bound : Nat) (tentSize : Option Nat)
    (max_k_multiplier num_attempts : Nat) (algorithm : String)
    (shuffleVF : Nat → Nat → Nat → List Vertex → List Vertex)
    (labelOrderF : Nat → Nat → Nat → Nat → List Nat) (fuel : Nat) :
    (ffCoreEv callback adj graph_type lower_bound tentSize max_k_multiplier
      num_attempts algorithm shuffleVF labelOrderF fuel).1 =
      ffCore adj graph_type lower_bound tentSize max_k_multiplier
        num_attempts algorithm shuffleVF labelOrderF fuel := by
  simp only [ffCoreEv, ffCore]
  by_cases hm : max_k_multiplier < 1
  · rw [if_pos hm, if_pos hm]
  · rw [if_neg hm, if_neg hm]
    exact ffWhileEv_fst callback adj graph_type algorithm num_attempts
      tentSize shuffleVF labelOrderF fuel _ _ _

/-- The heuristic entry point's result does not depend on the attached
observers either. -/
lemma find_feasible_ev_fst (os oe : Option Observer) (graph_type : String)
    (graph_params : GraphParams) (max_k_multiplier num_attempts : Nat)
    (algorithm : String)
    (shuffleVF : Nat → Nat → Nat → List Vertex → List Vertex)
    (labelOrderF : Nat → Nat → Nat → Nat → List Nat) (fuel : Nat) :
    (find_feasible_k_labeling_ev os oe graph_type graph_params
      max_k_multiplier num_attempts algorithm shuffleVF labelOrderF
      fuel).1 =
      find_feasible_k_labeling graph_type graph_params max_k_multiplier
        num_attempts algorithm shuffleVF labelOrderF fuel := by
  simp only [find_feasible_k_labeling_ev, find_feasible_k_labeling]
  by_cases h1 : graph_type = "mongolian_tent"
  · rw [if_pos h1, if_pos h1]
    cases hn : graph_params.n with
    | none => rfl
    | some ts =>
      dsimp only
      by_cases hts : ts ≤ 0
      · rw [if_pos hts, if_pos hts]
      · rw [if_neg hts, if_neg hts]
        exact ffCoreEv_fst _ _ _ _ _ _ _ _ _ _ _
  · rw [if_neg h1, if_neg h1]
    by_cases h2 : graph_type = "circulant"
    · rw [if_pos h2, if_pos h2]
      cases hn : graph_params.n with
      | none => rfl
      | some n =>
        cases hr : graph_params.r with
        | none => rfl
        | some r =>
          dsimp only
          by_cases hg : n ≤ 0 ∨ r ≤ 0
          · rw [if_pos hg, if_pos hg]
          · rw [if_neg hg, if_neg hg]
            by_cases hadj : generate_circulant_graph n r = []
            · rw [if_pos hadj, if_pos hadj]
            · rw [if_neg hadj, if_neg hadj]
              exact ffCoreEv_fst _ _ _ _ _ _ _ _ _ _ _
    · rw [if_neg h2, if_neg h2]

/-- C7: both entry points that can invoke an observer — the exact solver,
and the heuristic solver whose fast mode emits through the first-fit pass —
return the same result with any observers (including ones that raise on
every event, which `_maybe_emit` swallows) as with none attached.  The
remaining solver routines accept observer arguments but contain no emission
site, so they never invoke the callback at all. -/
theorem spec_C7 :
    (∀ (graph_type : String) (graph_params : GraphParams)
      (os oe : Option Observer) (fuel : Nat),
      (find_optimal_k_labeling graph_type graph_params os oe fuel).1 =
        (find_optimal_k_labeling graph_type graph_params none none
          fuel).1) ∧
    (∀ (graph_type : String) (graph_params : GraphParams)
      (os oe : Option Observer) (mult na : Nat) (alg : String)
      (sv : Nat → Nat → Nat → List Vertex → List Vertex)
      (lo : Nat → Nat → Nat → Nat → List Nat) (fuel : Nat),
      (find_feasible_k_labeling_ev os oe graph_type graph_params mult na
        alg sv lo fuel).1 =
        (find_feasible_k_labeling_ev none none graph_type graph_params mult
          na alg sv lo fuel).1) :=
  ⟨fun gt gp os oe fuel => find_optimal_fst_indep gt gp os oe none none
    fuel,
   fun gt gp os oe mult na alg sv lo fuel => by
    rw [find_feasible_ev_fst, find_feasible_ev_fst]⟩

/-- C8 (amended): on successfully validated graph parameters, a
`max_k_multiplier < 1` raises a configuration error before any search.  As
stated the claim fails for invalid parameters, where the call returns
`(None, None)` before ever checking the multiplier (see the
counterexample). -/
theorem spec_C8 :
    (∀ (ts mult na : Nat) (alg : String)
      (sv : Nat → Nat → Nat → List Vertex → List Vertex)
      (lo : Nat → Nat → Nat → Nat → List Nat) (fuel : Nat),
      1 ≤ ts → mult < 1 →
      find_feasible_k_labeling "mongolian_tent" ⟨some ts, none⟩ mult na alg
        sv lo fuel = some (.error .valueError)) ∧
    (∀ (n r mult na : Nat) (alg : String)
      (sv : Nat → Nat → Nat → List Vertex → List Vertex)
      (lo : Nat → Nat → Nat → Nat → List Nat) (fuel : Nat),
      ¬ (n ≤ 0 ∨ r ≤ 0) → generate_circulant_graph n r ≠ [] → mult < 1 →
      find_feasible_k_labeling "circulant" ⟨some n, some r⟩ mult na alg sv
        lo fuel = some (.error .valueError)) := by
  constructor
  · intro ts mult na alg sv lo fuel hts hm
    rw [find_feasible_k_labeling, if_pos rfl]
    dsimp only
    rw [if_neg (by omega), ffCore, if_pos hm]
  · intro n r mult na alg sv lo fuel hpos hadj hm
    rw [find_feasible_k_labeling, if_neg (by decide), if_pos rfl]
    dsimp only
    rw [if_neg hpos, if_neg hadj, ffCore, if_pos hm]

/-- Witness for C8 on the valid instance n = 1 with multiplier 0. -/
theorem spec_C8_witness :
    find_feasible_k_labeling "mongolian_tent" ⟨some 1, none⟩ 0 5 "accurate"
      (fun _ _ _ l => l) (fun _ _ _ _ => []) 5 =
      some (.error .valueError) :=
  spec_C8.1 1 0 5 "accurate" (fun _ _ _ l => l) (fun _ _ _ _ => []) 5
    (by decide) (by decide)

/-- Counterexample to C8 as stated: with invalid graph parameters (n = 0)
the call silently returns `(None, None)` although the multiplier is 0: the
parameter check precedes the multiplier check. -/
theorem spec_C8_counterexample :
    find_feasible_k_labeling "mongolian_tent" ⟨some 0, none⟩ 0 5 "accurate"
      (fun _ _ _ l => l) (fun _ _ _ _ => []) 5 = some (.ok none) := by rfl

/-- C9: in fast mode on a circulant instance, whenever the deterministic
first-fit pass fails at the current `k`, the `passes` computation reads the
never-assigned local `tent_size` and the call raises a `NameError` instead
of running the randomized passes and moving on to `k + 1`. -/
theorem spec_C9 :
    (∀ (n r mult na : Nat)
      (sv : Nat → Nat → Nat → List Vertex → List Vertex)
      (lo : Nat → Nat → Nat → Nat → List Nat) (fuel : Nat),
      1 ≤ mult → generate_circulant_graph n r ≠ [] → ¬ (n ≤ 0 ∨ r ≤ 0) →
      (match first_fit_greedy_k_labeling (generate_circulant_graph n r)
          (calculate_circulant_lower_bound n r) "circulant" with
        | none => True
        | some l => l = [] ∨
            is_labeling_valid (generate_circulant_graph n r) l = false) →
      find_feasible_k_labeling "circulant" ⟨some n, some r⟩ mult na "fast"
        sv lo fuel = some (.error .nameError)) ∧
    find_feasible_k_labeling "circulant" ⟨some 8, some 1⟩ 2 5 "fast"
      (fun _ _ _ l => l) (fun _ _ _ _ => []) 100 =
      some (.error .nameError) := by
  constructor
  · intro n r mult na sv lo fuel hm hadj hpos hff
    exact find_feasible_circ_fast_nameError n r mult na sv lo fuel hm hadj
      hpos hff
  · rfl

/-- Witness for C9 at the C(8, ·) instance, where first-fit fails at the
lower bound k = 3. -/
theorem spec_C9_witness :
    find_feasible_k_labeling "circulant" ⟨some 8, some 1⟩ 2 7 "fast"
      (fun _ _ _ l => l) (fun _ _ _ _ => []) 50 =
      some (.error .nameError) :=
  spec_C9.1 8 1 2 7 (fun _ _ _ l => l) (fun _ _ _ _ => []) 50 (by decide)
    (by decide) (by decide) (by exact trivial)

/-- C10: an unsupported graph kind is a fatal `ValueError` for both entry
points, while an empty or invalid graph structure of a supported kind
yields `(None, None)`. -/
theorem spec_C10 :
    (∀ (graph_type : String) (graph_params : GraphParams)
      (os oe : Option Observer) (fuel : Nat),
      graph_type ≠ "mongolian_tent" → graph_type ≠ "circulant" →
      (find_optimal_k_labeling graph_type graph_params os oe fuel).1 =
        .error .valueError) ∧
    (∀ (graph_type : String) (graph_params : GraphParams)
      (mult na : Nat) (alg : String)
      (sv : Nat → Nat → Nat → List Vertex → List Vertex)
      (lo : Nat → Nat → Nat → Nat → List Nat) (fuel : Nat),
      graph_type ≠ "mongolian_tent" → graph_type ≠ "circulant" →
      find_feasible_k_labeling graph_type graph_params mult na alg sv lo
        fuel = some (.error .valueError)) ∧
    ((find_optimal_k_labeling "mongolian_tent" ⟨some 0, none⟩ none none
      5).1 = .ok none) ∧
    ((find_optimal_k_labeling "circulant" ⟨some 7, some 1⟩ none none 5).1 =
      .ok none) ∧
    (find_feasible_k_labeling "mongolian_tent" ⟨none, none⟩ 2 5 "accurate"
      (fun _ _ _ l => l) (fun _ _ _ _ => []) 5 = some (.ok none)) ∧
    (find_feasible_k_labeling "circulant" ⟨some 7, some 1⟩ 2 5 "accurate"
      (fun _ _ _ l => l) (fun _ _ _ _ => []) 5 = some (.ok none)) := by
  refine ⟨?_, ?_, by rfl, by rfl, by rfl, by rfl⟩
  · intro gt gp os oe fuel h1 h2
    rw [find_optimal_k_labeling, if_neg h1, if_neg h2]
  · intro gt gp mult na alg sv lo fuel h1 h2
    rw [find_feasible_k_labeling, if_neg h1, if_neg h2]

/-- Witness for C10 at the unsupported kind "ladder". -/
theorem spec_C10_witness :
    (find_optimal_k_labeling "ladder" ⟨some 3, none⟩ none none 5).1 =
      .error .valueError :=
  spec_C10.1 "ladder" ⟨some 3, none⟩ none none 5 (by decide) (by decide)

